import Mathlib

/-!
# Moses syntax-based decoder: the S2T search manager

A shallow embedding of `moses/Syntax/S2T/Manager-inl.h` and of the identifier functions of
`moses/WordsBitmap.h`.

Objects that the C++ code reaches through pointers (`SVertex`, `SHyperedge`)
live in an explicit heap; a dereference of an address that holds no object,
a failed `assert` and an out-of-range vector access all make the embedded
function return `none`.  Scores are integers: the code only compares them.
Values of type `std::size_t` are natural numbers, reduced modulo `2^64` where the code can
wrap around.
-/

namespace S2T

/-! ## Data model -/

/-- Address of an `SVertex` object. -/
abbrev VPtr := Nat

/-- Address of an `SHyperedge` object. -/
abbrev HPtr := Nat

/-- Identifier of a grammar symbol (`Word`); `SymbolEqualityPred` is equality of identifiers. -/
abbrev Word := Nat

/-- Modelled from the spec: the passive vertex `PVertex(range, symbol)` (moses/Syntax/
PVertex.h is not among the sources), a span with a symbol; `WordsRange(start, end)` is the
pair. -/
structure PVertex where
  span : Nat × Nat
  symbol : Word
deriving DecidableEq

/-- Modelled from the spec: the scored vertex `SVertex` (moses/Syntax/SVertex.h is not among
the sources) with the members the manager uses: `best`, `recombined`, `pvertex` and the
feature-function states that the recombination orderer compares.  A null pointer is
`none`; the `pvertex` pointer into a passive cell is represented by the vertex it points
to. -/
structure SVertex (σ : Type) where
  best : Option HPtr
  recombined : List HPtr
  pvertex : Option PVertex
  state : σ

/-- Modelled from the spec: the scored hyperedge `SHyperedge` (moses/Syntax/SHyperedge.h is
not among the sources) with the members the manager uses: its head pointer, its score and
the left-hand side `translation->GetTargetLHS()` of the selected target phrase. -/
structure SHyperedge where
  head : VPtr
  score : Int
  lhs : Word
deriving DecidableEq

/-- Object store: which `SVertex` and which `SHyperedge` lives at each address. -/
structure Heap (σ : Type) where
  verts : VPtr → Option (SVertex σ)
  edges : HPtr → Option SHyperedge

/-- Write (or, with `none`, delete) the vertex object at address `p`. -/
def Heap.setVert {σ : Type} (hp : Heap σ) (p : VPtr) (x : Option (SVertex σ)) : Heap σ :=
  { hp with verts := fun q => if q = p then x else hp.verts q }

/-- Write the hyperedge object at address `p`. -/
def Heap.setEdge {σ : Type} (hp : Heap σ) (p : HPtr) (x : Option SHyperedge) : Heap σ :=
  { hp with edges := fun q => if q = p then x else hp.edges q }

/-- Requirement `Compare` of `std::map` on `SVertexRecombinationOrderer` (moses/Syntax/
SVertexRecombinationOrderer.h is not among the sources, the orderer is a parameter `lt` on
the states): a strict weak ordering. -/
structure StrictWeak {σ : Type} (lt : σ → σ → Bool) : Prop where
  irrefl : ∀ a, lt a a = false
  trans : ∀ a b c, lt a b = true → lt b c = true → lt a c = true
  incomp : ∀ a b c, lt a b = false → lt b a = false → lt b c = false → lt c b = false →
    lt a c = false

/-- Modelled from the spec: `std::sort` with `SVertexBeamContentOrderer` (declared outside
the sources; the specification has beams sorted by descending score of the best
hyperedge).  Any implementation is admitted: the result is a rearrangement of the input
in which no element has a smaller score than a later one; the order among equal scores is
left to the implementation. -/
structure StdSort where
  run : List (VPtr × Int) → List (VPtr × Int)
  perm : ∀ l, (run l).Perm l
  sorted : ∀ l, (run l).Pairwise (fun a b => b.2 ≤ a.2)

/-! ## RecombineAndSort -/

/-- The call `SVertexRecombinationOrderer()(x, y)` on two vertex pointers: both are dereferenced and
their states compared by `lt`. -/
def vertexLess {σ : Type} (lt : σ → σ → Bool) (hp : Heap σ) (x y : VPtr) : Option Bool :=
  match hp.verts x, hp.verts y with
  | some a, some b => some (lt a.state b.state)
  | _, _ => none

/-- The call `std::map::insert(value_type(k, v))` on a map held as its key-ordered entry list.
Returns the new entry list, the entry with an equivalent key (`result.first`) and
whether the insertion took place (`result.second`). -/
def mapInsert {σ : Type} (lt : σ → σ → Bool) (hp : Heap σ) (kv : VPtr × VPtr) :
    List (VPtr × VPtr) → Option (List (VPtr × VPtr) × (VPtr × VPtr) × Bool)
  | [] => some ([kv], kv, true)
  | e :: m =>
    match vertexLess lt hp kv.1 e.1 with
    | none => none
    | some true => some (kv :: e :: m, kv, true)
    | some false =>
      match vertexLess lt hp e.1 kv.1 with
      | none => none
      | some false => some (e :: m, e, false)
      | some true =>
        match mapInsert lt hp kv m with
        | none => none
        | some (m1, r, b) => some (e :: m1, r, b)

/-- One iteration of the loop of step 1 of `RecombineAndSort` (lines 368-392). -/
def recombineOne {σ : Type} (lt : σ → σ → Bool) (hp : Heap σ) (map : List (VPtr × VPtr))
    (h : HPtr) : Option (Heap σ × List (VPtr × VPtr)) :=
  match hp.edges h with
  | none => none
  | some e =>
    match hp.verts e.head with
    | none => none
    | some v =>
      if v.best ≠ some h then none
      else if v.recombined ≠ [] then none
      else
        match mapInsert lt hp (e.head, e.head) map with
        | none => none
        | some (map1, _, true) => some (hp, map1)
        | some (map1, entry, false) =>
          match hp.verts entry.2 with
          | none => none
          | some s =>
            match s.best with
            | none => none
            | some sb =>
              match hp.edges sb with
              | none => none
              | some be =>
                let hp1 :=
                  if e.score > be.score then
                    hp.setVert entry.2
                      (some { s with recombined := s.recombined ++ [sb], best := some h })
                  else
                    hp.setVert entry.2 (some { s with recombined := s.recombined ++ [h] })
                match hp1.verts e.head with
                | none => none
                | some hv =>
                  let hp2 := hp1.setVert e.head (some { hv with best := none })
                  let hp3 := hp2.setVert e.head none
                  some (hp3.setEdge h (some { e with head := entry.2 }), map1)

/-- Step 1 of `RecombineAndSort`: the loop over the buffer. -/
def recombineLoop {σ : Type} (lt : σ → σ → Bool) :
    List HPtr → Heap σ → List (VPtr × VPtr) → Option (Heap σ × List (VPtr × VPtr))
  | [], hp, map => some (hp, map)
  | h :: rest, hp, map =>
    match recombineOne lt hp map h with
    | none => none
    | some (hp1, map1) => recombineLoop lt rest hp1 map1

/-- Modelled from the spec: the sort key of `SVertexBeamContentOrderer`, the score
`x->best->score` of the best hyperedge of a beam entry. -/
def bestScore {σ : Type} (hp : Heap σ) (v : VPtr) : Option Int :=
  match hp.verts v with
  | none => none
  | some sv =>
    match sv.best with
    | none => none
    | some b =>
      match hp.edges b with
      | none => none
      | some e => some e.score

/-- Pair every beam entry with its sort key; fails when a key cannot be read. -/
def keyed {σ : Type} (hp : Heap σ) : List VPtr → Option (List (VPtr × Int))
  | [] => some []
  | v :: vs =>
    match bestScore hp v, keyed hp vs with
    | some s, some ks => some ((v, s) :: ks)
    | _, _ => none

/-- Step 3 of `RecombineAndSort`: `std::sort(beam.begin(), beam.end(),
SVertexBeamContentOrderer())`, the orderer being `x->best->score > y->best->score`. -/
def sortBeam {σ : Type} (srt : StdSort) (hp : Heap σ) (beam : List VPtr) :
    Option (List VPtr) :=
  match keyed hp beam with
  | none => none
  | some ks => some ((srt.run ks).map Prod.fst)

/-- The method `Manager::RecombineAndSort(buffer, beam)`: returns the heap after the call and the new
contents of `beam` (the previous contents are cleared in step 2). -/
def RecombineAndSort {σ : Type} (srt : StdSort) (lt : σ → σ → Bool) (hp : Heap σ)
    (buffer : List HPtr) : Option (Heap σ × List VPtr) :=
  match recombineLoop lt buffer hp [] with
  | none => none
  | some (hp1, map) =>
    match sortBeam srt hp1 (map.map Prod.fst) with
    | none => none
    | some beam => some (hp1, beam)

/-! ## Specification vocabulary -/

/-- Head pointer of the hyperedge at `h`. -/
def Heap.headOf {σ : Type} (hp : Heap σ) (h : HPtr) : Option VPtr :=
  match hp.edges h with
  | none => none
  | some e => some e.head

/-- Score of the hyperedge at `h`. -/
def Heap.scoreOf {σ : Type} (hp : Heap σ) (h : HPtr) : Option Int :=
  match hp.edges h with
  | none => none
  | some e => some e.score

/-- Recombination state of the head vertex of the hyperedge at `h`. -/
def Heap.headState {σ : Type} (hp : Heap σ) (h : HPtr) : Option σ :=
  match hp.edges h with
  | none => none
  | some e =>
    match hp.verts e.head with
    | none => none
    | some v => some v.state

/-- Two states are equivalent under the orderer when neither is ordered before the other. -/
def equivState {σ : Type} (lt : σ → σ → Bool) (a b : σ) : Bool :=
  !lt a b && !lt b a

/-- The heads of the hyperedges `h1` and `h2` are equivalent under the orderer. -/
def headsEquiv {σ : Type} (lt : σ → σ → Bool) (hp : Heap σ) (h1 h2 : HPtr) : Bool :=
  match hp.headState h1, hp.headState h2 with
  | some a, some b => equivState lt a b
  | _, _ => false

/-- The hyperedge at `h` arrives with a head vertex whose `best` is `h` and whose
`recombined` list is empty. -/
def freshEdge {σ : Type} (hp : Heap σ) (h : HPtr) : Bool :=
  match hp.edges h with
  | none => false
  | some e =>
    match hp.verts e.head with
    | none => false
    | some v => decide (v.best = some h) && decide (v.recombined = [])

/-- Precondition of `RecombineAndSort`: the buffer lists pairwise different hyperedges, each
arriving with its own fresh head vertex. -/
def FreshBuffer {σ : Type} (hp : Heap σ) (buffer : List HPtr) : Prop :=
  buffer.Nodup ∧ ∀ h ∈ buffer, freshEdge hp h = true

/-- Number of equivalence classes of the orderer met in a list of states: a state counts
when no earlier state of the list is equivalent to it. -/
def countClasses {σ : Type} (lt : σ → σ → Bool) : List σ → List σ → Nat
  | _, [] => 0
  | seen, a :: rest =>
    (if seen.any (fun b => equivState lt b a) then 0 else 1) + countClasses lt (seen ++ [a]) rest

/-- Insertion of one keyed entry into a list sorted by non-increasing score. -/
def insertDesc (x : VPtr × Int) : List (VPtr × Int) → List (VPtr × Int)
  | [] => [x]
  | y :: ys => if y.2 < x.2 then x :: y :: ys else y :: insertDesc x ys

/-- Insertion sort by non-increasing score. -/
def insertionSortDesc : List (VPtr × Int) → List (VPtr × Int)
  | [] => []
  | x :: xs => insertDesc x (insertionSortDesc xs)

/-- The best hyperedge of `x` scores at least as high as that of `y` (both scores being
readable in the heap). -/
def ScoreGE {σ : Type} (hp : Heap σ) (x y : VPtr) : Prop :=
  ∃ sx sy, bestScore hp x = some sx ∧ bestScore hp y = some sy ∧ sy ≤ sx

/-- The vertices at `x` and `y` are both live and not equivalent under the orderer. -/
def InequivVerts {σ : Type} (lt : σ → σ → Bool) (hp : Heap σ) (x y : VPtr) : Prop :=
  ∃ a b, hp.verts x = some a ∧ hp.verts y = some b ∧ equivState lt a.state b.state = false

/-- States of the heads of the buffer's hyperedges, in buffer order. -/
def headStates {σ : Type} (hp : Heap σ) (buffer : List HPtr) : List σ :=
  buffer.filterMap hp.headState

/-! ## Proof vocabulary for RecombineAndSort -/

/-- The map insertion with the comparison given as a total function on addresses. -/
def insertPure (less : VPtr → VPtr → Bool) (kv : VPtr × VPtr) :
    List (VPtr × VPtr) → List (VPtr × VPtr) × (VPtr × VPtr) × Bool
  | [] => ([kv], kv, true)
  | e :: m =>
    if less kv.1 e.1 then (kv :: e :: m, kv, true)
    else if less e.1 kv.1 then
      ((e :: (insertPure less kv m).1), (insertPure less kv m).2.1, (insertPure less kv m).2.2)
    else (e :: m, e, false)

/-- Initial condition of `RecombineAndSort` phrased with total functions: `E` gives the
hyperedge object of every buffer entry, `S` and `PV` the state and passive vertex of
every head. -/
def InitOK {σ : Type} (E : HPtr → SHyperedge) (S : VPtr → σ)
    (PV : VPtr → Option PVertex) (hp0 : Heap σ) (buffer : List HPtr) : Prop :=
  ∀ h ∈ buffer, hp0.edges h = some (E h) ∧
    hp0.verts (E h).head = some ⟨some h, [], PV (E h).head, S (E h).head⟩

/-- Loop invariant of step 1 of `RecombineAndSort` after the hyperedges `P` have been
processed, starting from the heap `hp0`. -/
structure RInv {σ : Type} (lt : σ → σ → Bool) (E : HPtr → SHyperedge) (S : VPtr → σ)
    (PV : VPtr → Option PVertex) (hp0 : Heap σ) (P : List HPtr) (hp : Heap σ)
    (map : List (VPtr × VPtr)) : Prop where
  sorted : map.Pairwise (fun a b => lt (S a.1) (S b.1) = true)
  keys : ∀ e ∈ map, e.2 = e.1 ∧ ∃ h ∈ P, e.1 = (E h).head
  vert : ∀ e ∈ map, ∃ b rec A B, hp.verts e.1 = some ⟨some b, rec, PV e.1, S e.1⟩ ∧
      P = A ++ b :: B ∧ hp.edges b = some { E b with head := e.1 } ∧
      equivState lt (S (E b).head) (S e.1) = true ∧
      (∀ h ∈ A, equivState lt (S (E h).head) (S e.1) = true → (E h).score < (E b).score) ∧
      (∀ h ∈ B, equivState lt (S (E h).head) (S e.1) = true → (E h).score ≤ (E b).score) ∧
      (∀ r ∈ rec, r ∈ P ∧ hp.edges r = some { E r with head := e.1 } ∧
        (E r).score ≤ (E b).score)
  done : ∀ h ∈ P, ∃ e ∈ map, hp.edges h = some { E h with head := e.1 } ∧
      equivState lt (S (E h).head) (S e.1) = true
  dead : ∀ h ∈ P, (∀ e ∈ map, e.1 ≠ (E h).head) → hp.verts (E h).head = none
  frameV : ∀ p, (∀ h ∈ P, p ≠ (E h).head) → hp.verts p = hp0.verts p
  frameE : ∀ h, h ∉ P → hp.edges h = hp0.edges h
  card : map.length = countClasses lt [] (P.map (fun h => S (E h).head))

/-! ## Charts -/

/-- Modelled from the spec: a cell of the passive chart (`PChart::Cell`, PChart.h is not
among the sources): terminal and nonterminal passive vertices by symbol, each map held as
its entry list. -/
structure PCell where
  terminalVertices : List (Word × PVertex)
  nonTerminalVertices : List (Word × PVertex)
deriving DecidableEq

/-- Modelled from the spec: a cell of the search chart (`SChart::Cell`, SChart.h is not
among the sources): terminal and nonterminal beams by symbol.  A beam (`SVertexBeam`) is
the list of its vertex pointers. -/
structure SCell where
  terminalBeams : List (Word × List VPtr)
  nonTerminalBeams : List (Word × List VPtr)
deriving DecidableEq

/-- Modelled from the spec: `NonTerminalMap::Find` (moses/Syntax/NonTerminalMap.h is not
among the sources), the value stored for a symbol or nothing. -/
def NMapFind {α : Type} (m : List (Word × α)) (key : Word) : Option α :=
  match m with
  | [] => none
  | (k, v) :: rest => if k = key then some v else NMapFind rest key

/-- Modelled from the spec: `NonTerminalMap::Insert` (moses/Syntax/NonTerminalMap.h is not
among the sources), get-or-create: the map keeps an entry it already has for the symbol,
otherwise gains the new one; the stored value is returned with the map. -/
def NMapInsert {α : Type} (m : List (Word × α)) (key : Word) (value : α) :
    List (Word × α) × α :=
  match NMapFind m key with
  | some v => (m, v)
  | none => (m ++ [(key, value)], value)

/-- Assignment through the pointer that `Find` or `Insert` returned for `key`. -/
def NMapAssign {α : Type} (m : List (Word × α)) (key : Word) (value : α) : List (Word × α) :=
  m.map (fun e => if e.1 = key then (e.1, value) else e)

/-- Element `cells[i][j]` of a chart; `none` when an index is out of range. -/
def getCell {α : Type} (cells : List (List α)) (i j : Nat) : Option α :=
  match cells[i]? with
  | none => none
  | some row => row[j]?

/-- Chart with `cells[i][j]` replaced by `x`. -/
def setCell {α : Type} (cells : List (List α)) (i j : Nat) (x : α) : List (List α) :=
  match cells[i]? with
  | none => cells
  | some row => cells.set i (row.set j x)

/-- Search state of the manager: the object store, `m_pchart` and `m_schart`.  The parser
pool `m_parsers` only feeds hyperedge enumeration, which enters the embedding through the
cube queues. -/
structure Manager (σ : Type) where
  heap : Heap σ
  pchart : List (List PCell)
  schart : List (List SCell)

/-- Constants read from `StaticData`: `GetCubePruningPopLimit`, `GetRuleLimit`,
`GetMaxHypoStackSize` (the beam limit) and `GetNBestFactor`. -/
structure StaticData where
  cubePruningPopLimit : Nat
  ruleLimit : Nat
  maxHypoStackSize : Nat
  nBestFactor : Nat

/-- The source words with their positions, from position `i` on. -/
def indexed : Nat → List Word → List (Nat × Word)
  | _, [] => []
  | i, w :: ws => (i, w) :: indexed (i + 1) ws

/-- The method `Manager::InitializePChart`: a square chart of empty cells, then one terminal passive
vertex per source word in the cell of its position. -/
def InitializePChart (source : List Word) : List (List PCell) :=
  (indexed 0 source).foldl
    (fun cells iw =>
      match getCell cells iw.1 iw.1 with
      | none => cells
      | some cell =>
        setCell cells iw.1 iw.1
          { cell with terminalVertices :=
              (NMapInsert cell.terminalVertices iw.2 ⟨(iw.1, iw.1), iw.2⟩).1 })
    (List.replicate source.length (List.replicate source.length ⟨[], []⟩))

/-- One iteration of the second loop of `Manager::InitializeSChart` (lines 59-70); `addr`
is the address `new SVertex()` returns, which holds no object before; the state vector of
the new vertex is empty (`default`). -/
def initSVertex {σ : Type} [Inhabited σ] (pchart : List (List PCell)) (addr : Nat → VPtr)
    (acc : Heap σ × List (List SCell)) (iw : Nat × Word) :
    Option (Heap σ × List (List SCell)) :=
  match acc.1.verts (addr iw.1) with
  | some _ => none
  | none =>
    match getCell pchart iw.1 iw.1 with
    | none => none
    | some pcell =>
      match NMapFind pcell.terminalVertices iw.2 with
      | none => none
      | some p =>
        match getCell acc.2 iw.1 iw.1 with
        | none => none
        | some scell =>
          some (acc.1.setVert (addr iw.1) (some ⟨none, [], some p, default⟩),
            setCell acc.2 iw.1 iw.1
              { scell with terminalBeams :=
                  (NMapInsert scell.terminalBeams iw.2 [addr iw.1]).1 })

/-- Loop of `initSVertex` over the source positions. -/
def initSVertices {σ : Type} [Inhabited σ] (pchart : List (List PCell)) (addr : Nat → VPtr) :
    List (Nat × Word) → Heap σ × List (List SCell) → Option (Heap σ × List (List SCell))
  | [], acc => some acc
  | iw :: rest, acc =>
    match initSVertex pchart addr acc iw with
    | none => none
    | some acc1 => initSVertices pchart addr rest acc1

/-- The method `Manager::InitializeSChart`: a square chart of empty cells, then one terminal beam of
one new vertex per source word. -/
def InitializeSChart {σ : Type} [Inhabited σ] (source : List Word) (addr : Nat → VPtr)
    (pchart : List (List PCell)) (hp : Heap σ) : Option (Heap σ × List (List SCell)) :=
  initSVertices pchart addr (indexed 0 source)
    (hp, List.replicate source.length (List.replicate source.length ⟨[], []⟩))

/-! ## Cube queue -/

/-- Modelled from the spec: what `CubeQueue::Pop` creates (moses/Syntax/CubeQueue.h is not
among the sources): a hyperedge at address `ptr` with its score and target left-hand
side, and a new head vertex at address `head` with the given state, whose `best` is the
hyperedge and whose `recombined` list is empty. -/
structure CubeItem (σ : Type) where
  ptr : HPtr
  head : VPtr
  score : Int
  lhs : Word
  state : σ
deriving DecidableEq

/-- Modelled from the spec: `CubeQueue` (moses/Syntax/CubeQueue.h is not among the
sources), held as the sequence of hyperedges it yields when popped until empty. -/
abbrev CubeQueue (σ : Type) := List (CubeItem σ)

/-- Modelled from the spec: `CubeQueue::IsEmpty`. -/
def CubeQueue.IsEmpty {σ : Type} (q : CubeQueue σ) : Bool := q.isEmpty

/-- Modelled from the spec: the objects `CubeQueue::Pop` hands over for one item, placed
at addresses that held no object before. -/
def CubeItem.create {σ : Type} (it : CubeItem σ) (hp : Heap σ) : Option (Heap σ) :=
  if (hp.edges it.ptr).isNone && (hp.verts it.head).isNone then
    some ((hp.setEdge it.ptr (some ⟨it.head, it.score, it.lhs⟩)).setVert it.head
      (some ⟨some it.ptr, [], none, it.state⟩))
  else none

/-! ## Decode -/

/-- The statement `buffers[lhs].push_back(hyperedge)` on the buffer map held as its entry list in order
of first insertion. -/
def bufferPush (buffers : List (Word × List HPtr)) (lhs : Word) (h : HPtr) :
    List (Word × List HPtr) :=
  match buffers with
  | [] => [(lhs, [h])]
  | (k, b) :: rest => if k = lhs then (k, b ++ [h]) :: rest else (k, b) :: bufferPush rest lhs h

/-- Any iteration order of `boost::unordered_map`: a rearrangement of the entries. -/
structure HashOrder where
  run : List (Word × List HPtr) → List (Word × List HPtr)
  perm : ∀ l, (run l).Perm l

/-- State of the pop loop: `count`, what is left of the cube queue, the object store, the
passive cell of the span and the buffers. -/
structure PopState (σ : Type) where
  count : Nat
  queue : CubeQueue σ
  heap : Heap σ
  pcell : PCell
  buffers : List (Word × List HPtr)

/-- The pop loop of `Manager::Decode` (lines 223-238):
`while (count < popLimit && !cubeQueue.IsEmpty())`. -/
def popLoop {σ : Type} (popLimit : Nat) (range : Nat × Nat) :
    CubeQueue σ → Nat → Heap σ → PCell → List (Word × List HPtr) → Option (PopState σ)
  | [], count, hp, pcell, buffers => some ⟨count, [], hp, pcell, buffers⟩
  | it :: rest, count, hp, pcell, buffers =>
    if count < popLimit then
      match it.create hp with
      | none => none
      | some hp1 =>
        match hp1.edges it.ptr with
        | none => none
        | some e =>
          match hp1.verts e.head with
          | none => none
          | some v =>
            let ins := NMapInsert pcell.nonTerminalVertices e.lhs ⟨range, e.lhs⟩
            popLoop popLimit range rest (count + 1)
              (hp1.setVert e.head (some { v with pvertex := some ins.2 }))
              { pcell with nonTerminalVertices := ins.1 }
              (bufferPush buffers e.lhs it.ptr)
    else some ⟨count, it :: rest, hp, pcell, buffers⟩

/-- The recombination loop of `Manager::Decode` (lines 241-251) over the buffers in the
given order. -/
def recombineAll {σ : Type} (srt : StdSort) (lt : σ → σ → Bool) :
    List (Word × List HPtr) → Heap σ → List (Word × List VPtr) →
      Option (Heap σ × List (Word × List VPtr))
  | [], hp, beams => some (hp, beams)
  | (category, buffer) :: rest, hp, beams =>
    let beams1 :=
      match NMapFind beams category with
      | some _ => beams
      | none => (NMapInsert beams category []).1
    match RecombineAndSort srt lt hp buffer with
    | none => none
    | some (hp1, beam) => recombineAll srt lt rest hp1 (NMapAssign beams1 category beam)

/-- Modelled from the spec: `delete` of the vertex at `v`, with the destructor
`SVertex::~SVertex` (SVertex.cpp is not among the sources), which deletes the incoming
hyperedges of the vertex, `best` and those of `recombined`; this is why line 389 clears
`best` before line 390 deletes a duplicate vertex. -/
def deleteSVertex {σ : Type} (hp : Heap σ) (v : VPtr) : Heap σ :=
  match hp.verts v with
  | none => hp
  | some sv =>
    ((sv.best.toList ++ sv.recombined).foldl (fun h e => h.setEdge e none) hp).setVert v none

/-- The statement `beam.resize(beamLimit)` (line 259) on a beam longer than `beamLimit`: the beam
keeps its first `beamLimit` entries; the shared pointers cut off are the only owners of
their vertices (line 398), so these vertices are deleted. -/
def resizeBeam {σ : Type} (beamLimit : Nat) (hp : Heap σ) (beam : List VPtr) :
    Heap σ × List VPtr :=
  ((beam.drop beamLimit).foldl deleteSVertex hp, beam.take beamLimit)

/-- The loop over the beams of the cell in the pruning step (lines 256-261). -/
def pruneLoop {σ : Type} (beamLimit : Nat) :
    Heap σ → List (Word × List VPtr) → Heap σ × List (Word × List VPtr)
  | hp, [] => (hp, [])
  | hp, (category, beam) :: rest =>
    let r := if beam.length > beamLimit then resizeBeam beamLimit hp beam else (hp, beam)
    ((pruneLoop beamLimit r.1 rest).1, (category, r.2) :: (pruneLoop beamLimit r.1 rest).2)

/-- The pruning step of `Manager::Decode` (lines 254-262): the object store and the beams
after it. -/
def pruneBeams {σ : Type} (beamLimit : Nat) (hp : Heap σ) (beams : List (Word × List VPtr)) :
    Heap σ × List (Word × List VPtr) :=
  if beamLimit > 0 then pruneLoop beamLimit hp beams else (hp, beams)

/-- Body of the span loop of `Manager::Decode` for the span `(start, end)`; `cube` is the
cube queue built from the bundles of the span. -/
def processSpan {σ : Type} (srt : StdSort) (ord : HashOrder) (lt : σ → σ → Bool)
    (sd : StaticData) (cube : Nat × Nat → CubeQueue σ) (m : Manager σ) (range : Nat × Nat) :
    Option (Manager σ) :=
  match getCell m.pchart range.1 range.2, getCell m.schart range.1 range.2 with
  | some pcell, some scell =>
    match popLoop sd.cubePruningPopLimit range (cube range) 0 m.heap pcell [] with
    | none => none
    | some ps =>
      match recombineAll srt lt (ord.run ps.buffers) ps.heap scell.nonTerminalBeams with
      | none => none
      | some (hp2, beams) =>
        some
          { heap := (pruneBeams sd.maxHypoStackSize hp2 beams).1
            pchart := setCell m.pchart range.1 range.2 ps.pcell
            schart := setCell m.schart range.1 range.2
              { scell with
                nonTerminalBeams := (pruneBeams sd.maxHypoStackSize hp2 beams).2 } }
  | _, _ => none

/-- The object store and the beams of the cell at the point where the pruning step of
`Manager::Decode` starts (line 253), that is, after the pop loop and the recombination loop
of the span (lines 200-251). -/
def beforePruning {σ : Type} (srt : StdSort) (ord : HashOrder) (lt : σ → σ → Bool)
    (sd : StaticData) (cube : Nat × Nat → CubeQueue σ) (m : Manager σ) (range : Nat × Nat) :
    Option (Heap σ × List (Word × List VPtr)) :=
  match getCell m.pchart range.1 range.2, getCell m.schart range.1 range.2 with
  | some pcell, some scell =>
    match popLoop sd.cubePruningPopLimit range (cube range) 0 m.heap pcell [] with
    | none => none
    | some ps => recombineAll srt lt (ord.run ps.buffers) ps.heap scell.nonTerminalBeams
  | _, _ => none

/-- Spans in the order of the nested loops of `Manager::Decode` (lines 194-196): `start`
from `size-1` down to 0, `width` from 1 to `size-start`, `end = start + width - 1`. -/
def spanOrder (size : Nat) : List (Nat × Nat) :=
  (List.range size).reverse.flatMap
    (fun start => (List.range' 1 (size - start)).map (fun width => (start, start + width - 1)))

/-- The span loop run over a list of spans. -/
def decodeSpans {σ : Type} (srt : StdSort) (ord : HashOrder) (lt : σ → σ → Bool)
    (sd : StaticData) (cube : Nat × Nat → CubeQueue σ) :
    List (Nat × Nat) → Manager σ → Option (Manager σ)
  | [], m => some m
  | range :: rest, m =>
    match processSpan srt ord lt sd cube m range with
    | none => none
    | some m1 => decodeSpans srt ord lt sd cube rest m1

/-- State of the manager when the span loop of `Manager::Decode` starts. -/
def decodeInit {σ : Type} [Inhabited σ] (source : List Word) (addr : Nat → VPtr)
    (hp : Heap σ) : Option (Manager σ) :=
  match InitializeSChart source addr (InitializePChart source) hp with
  | none => none
  | some (hp1, schart) => some ⟨hp1, InitializePChart source, schart⟩

/-- The method `Manager::Decode` stopped after the spans `spans` of its span loop. -/
def decodeUpTo {σ : Type} [Inhabited σ] (srt : StdSort) (ord : HashOrder) (lt : σ → σ → Bool)
    (sd : StaticData) (source : List Word) (addr : Nat → VPtr)
    (cube : Nat × Nat → CubeQueue σ) (hp : Heap σ) (spans : List (Nat × Nat)) :
    Option (Manager σ) :=
  match decodeInit source addr hp with
  | none => none
  | some m => decodeSpans srt ord lt sd cube spans m

/-- The method `Manager::Decode`: initialisation, then the span loop over all spans.  `addr` gives the
addresses of the terminal vertices created by `InitializeSChart`, `cube` the cube queue
built for each span, `hp` the object store before the call. -/
def Decode {σ : Type} [Inhabited σ] (srt : StdSort) (ord : HashOrder) (lt : σ → σ → Bool)
    (sd : StaticData) (source : List Word) (addr : Nat → VPtr)
    (cube : Nat × Nat → CubeQueue σ) (hp : Heap σ) : Option (Manager σ) :=
  decodeUpTo srt ord lt sd source addr cube hp (spanOrder source.length)

/-- The method `Manager::GetBestSHyperedge`: the outer `none` is a failed assertion or an invalid
access, `some none` the null pointer. -/
def GetBestSHyperedge {σ : Type} (m : Manager σ) (source : List Word) :
    Option (Option HPtr) :=
  match getCell m.schart 0 (source.length - 1) with
  | none => none
  | some cell =>
    if cell.nonTerminalBeams.length = 0 then some none
    else if cell.nonTerminalBeams.length ≠ 1 then none
    else
      match cell.nonTerminalBeams with
      | [] => none
      | (_, beam) :: _ =>
        match beam[0]? with
        | none => none
        | some v =>
          match m.heap.verts v with
          | none => none
          | some sv => some sv.best

/-! ## ExtractKBest -/

/-- The copy loop of `Manager::ExtractKBest` (lines 328-336): `kBestList` grows by the
derivations whose output phrase `distinct.insert` accepts, while `kBestList.size() < k`.
The `std::set<Phrase>` is held as the list of its elements. -/
def distinctLoop {δ : Type} (GetOutputPhrase : δ → List Word) (k : Nat) :
    List δ → List δ → List (List Word) → List δ
  | [], kBestList, _ => kBestList
  | d :: rest, kBestList, distinct =>
    if kBestList.length < k then
      if GetOutputPhrase d ∈ distinct then
        distinctLoop GetOutputPhrase k rest kBestList distinct
      else
        distinctLoop GetOutputPhrase k rest (kBestList ++ [d]) (GetOutputPhrase d :: distinct)
    else kBestList

/-- Number of derivations requested from the extractor (line 320), in `std::size_t`
arithmetic. -/
def numDerivations (nBestFactor k : Nat) : Nat :=
  if nBestFactor = 0 then (k * 1000) % 2 ^ 64 else (k * nBestFactor) % 2 ^ 64

/-- The method `Manager::ExtractKBest`: returns the contents of `kBestList` after the call.  `Extract`
stands for `KBestExtractor::Extract(beam, k, list)` and `GetOutputPhrase` for
`KBestExtractor::GetOutputPhrase`; a derivation handle is a value of `δ`. -/
def ExtractKBest {σ δ : Type} (sd : StaticData) (Extract : List VPtr → Nat → List δ)
    (GetOutputPhrase : δ → List Word) (m : Manager σ) (source : List Word) (k : Nat)
    (onlyDistinct : Bool) : Option (List δ) :=
  if k = 0 ∨ source.length = 0 then some []
  else
    match getCell m.schart 0 (source.length - 1) with
    | none => none
    | some cell =>
      if cell.nonTerminalBeams.length = 0 then some []
      else if cell.nonTerminalBeams.length ≠ 1 then none
      else
        match cell.nonTerminalBeams with
        | [] => none
        | (_, beam) :: _ =>
          if !onlyDistinct then some (Extract beam k)
          else
            some (distinctLoop GetOutputPhrase k
              (Extract beam (numDerivations sd.nBestFactor k)) [] [])

/-- First-occurrence de-duplication in the words of the specification: a derivation is
kept when no earlier derivation of the list (`earlier` holds those already passed) has the
same output phrase. -/
def firstOccurrencesFrom {δ : Type} (GetOutputPhrase : δ → List Word) :
    List δ → List δ → List δ
  | _, [] => []
  | earlier, d :: rest =>
    if earlier.any (fun e => decide (GetOutputPhrase e = GetOutputPhrase d)) then
      firstOccurrencesFrom GetOutputPhrase (earlier ++ [d]) rest
    else d :: firstOccurrencesFrom GetOutputPhrase (earlier ++ [d]) rest

/-- First-occurrence de-duplication of a whole list. -/
def firstOccurrences {δ : Type} (GetOutputPhrase : δ → List Word) (l : List δ) : List δ :=
  firstOccurrencesFrom GetOutputPhrase [] l

/-! ## Proof vocabulary for Decode -/

/-- Hyperedges of the popped items whose target left-hand side is `cat`, in pop order. -/
def bufferOf {σ : Type} (cat : Word) (popped : List (CubeItem σ)) : List HPtr :=
  (popped.filter (fun it => decide (it.lhs = cat))).map (fun it => it.ptr)

/-- Relation between the object store before the pop loop (`hp`) and after it (`hp1`) when
the items `popped` were popped. -/
structure PopHeap {σ : Type} (hp : Heap σ) (popped : List (CubeItem σ)) (hp1 : Heap σ) :
    Prop where
  free : ∀ it ∈ popped, hp.edges it.ptr = none ∧ hp.verts it.head = none
  ptrs : (popped.map (fun it => it.ptr)).Nodup
  heads : (popped.map (fun it => it.head)).Nodup
  objs : ∀ it ∈ popped, hp1.edges it.ptr = some ⟨it.head, it.score, it.lhs⟩ ∧
    ∃ pv, hp1.verts it.head = some ⟨some it.ptr, [], some pv, it.state⟩
  frameE : ∀ p, (∀ it ∈ popped, p ≠ it.ptr) → hp1.edges p = hp.edges p
  frameV : ∀ v, (∀ it ∈ popped, v ≠ it.head) → hp1.verts v = hp.verts v

/-- The buffer map `bufs` is the grouping by left-hand side of the items `L` pushed so far. -/
structure BufWF {σ : Type} (bufs : List (Word × List HPtr)) (L : List (CubeItem σ)) : Prop where
  keys : (bufs.map Prod.fst).Nodup
  group : ∀ x ∈ bufs, x.2 = bufferOf x.1 L ∧ x.2 ≠ []
  cover : ∀ it ∈ L, it.lhs ∈ bufs.map Prod.fst

/-- What `RecombineAndSort` leaves for one category: the beam entry `cv` of the buffer entry
`cb` lists the keys of a map that satisfies the loop invariant, sorted by score. -/
def CatDone {σ : Type} (lt : σ → σ → Bool) (E : HPtr → SHyperedge) (S : VPtr → σ)
    (PV : VPtr → Option PVertex) (hp1 : Heap σ) (cb : Word × List HPtr)
    (cv : Word × List VPtr) : Prop :=
  cb.1 = cv.1 ∧ ∃ map, RInv lt E S PV hp1 cb.2 hp1 map ∧
    cv.2.Perm (map.map Prod.fst) ∧ cv.2.Pairwise (ScoreGE hp1)

/-- Every object of `hp` is still there, unchanged, in `hp1`. -/
def HeapExtends {σ : Type} (hp hp1 : Heap σ) : Prop :=
  (∀ p x, hp.verts p = some x → hp1.verts p = some x) ∧
  (∀ h e, hp.edges h = some e → hp1.edges h = some e)

/-! ## Recorded hyperedges and vocabulary of the pruning step -/

/-- The hyperedges recorded under the vertex at `v`: its best hyperedge followed by its
`recombined` list. -/
def recorded {σ : Type} (hp : Heap σ) (v : VPtr) : List HPtr :=
  match hp.verts v with
  | none => []
  | some sv => sv.best.toList ++ sv.recombined

/-- The beams that the pruning step of `Manager::Decode` leaves, as a function of the beams
alone: with `beamLimit > 0` every beam longer than `beamLimit` is cut to its first
`beamLimit` entries. -/
def truncateBeams (beamLimit : Nat) (beams : List (Word × List VPtr)) :
    List (Word × List VPtr) :=
  if beamLimit > 0 then
    beams.map (fun p => (p.1, if p.2.length > beamLimit then p.2.take beamLimit else p.2))
  else beams

/-- The vertices that the pruning step cuts from the beams `beams`. -/
def droppedVertices (beamLimit : Nat) (beams : List (Word × List VPtr)) : List VPtr :=
  if beamLimit > 0 then beams.flatMap (fun b => b.2.drop beamLimit) else []

/-- Relation between the object store `hmid` when the pruning step starts and the store `hp`
after it, where `beams` are the beams before pruning and `popped` the items popped for the
span. -/
structure PruneFacts {σ : Type} (popped : List (CubeItem σ)) (beamLimit : Nat)
    (hmid hp : Heap σ) (beams : List (Word × List VPtr)) : Prop where
  vertsCut : ∀ w ∈ droppedVertices beamLimit beams, hp.verts w = none
  vertsKept : ∀ p, p ∉ droppedVertices beamLimit beams → hp.verts p = hmid.verts p
  edgesCut : ∀ w ∈ droppedVertices beamLimit beams, ∀ q ∈ recorded hmid w, hp.edges q = none
  edgesKept : ∀ q, (∀ w ∈ droppedVertices beamLimit beams, q ∉ recorded hmid w) →
    hp.edges q = hmid.edges q
  retained : ∀ b ∈ truncateBeams beamLimit beams, ∀ v ∈ b.2,
    v ∉ droppedVertices beamLimit beams
  dropped : ∀ w ∈ droppedVertices beamLimit beams, ∃ cv ∈ beams, w ∈ cv.2
  heads : ∀ cv ∈ beams, ∀ v ∈ cv.2, ∃ it ∈ popped, it.head = v ∧ it.lhs = cv.1
  edgesOf : ∀ cv ∈ beams, ∀ v ∈ cv.2, ∀ q ∈ recorded hmid v, ∃ it ∈ popped,
    it.ptr = q ∧ it.lhs = cv.1 ∧ hmid.edges q = some ⟨v, it.score, it.lhs⟩

/-! ## Parser pool and OOV detection -/

/-- Modelled from the spec: a rule table behind a grammar source (RuleTable.h and RuleTrie.h
are not among the sources).  It is a rule trie of the parser's kind (`Parser::RuleTrie`),
a rule trie of another kind, or a table that is no `RuleTrie` at all; a trie is held as
its `HasPreterminalRule` test. -/
inductive RuleTable where
  | parserTrie (HasPreterminalRule : Word → Bool)
  | otherTrie (HasPreterminalRule : Word → Bool)
  | other

/-- Modelled from the spec: a grammar source (`RuleTableFF`, RuleTableFF.h is not among the
sources); `table` is what `GetTable()` returns, `none` for the null pointer. -/
structure RuleTableFF where
  table : Option RuleTable

/-- Modelled from the spec: a parser as the arguments of its constructor
`Parser(pchart, trie, maxChartSpan)`; the trie is held as its `HasPreterminalRule` test and
the chart, which all parsers share, is left out. -/
structure Parser where
  trie : Word → Bool
  maxChartSpan : Nat

/-- The members `m_parsers` and `m_oovRuleTrie` of the manager. -/
structure ParserPool where
  m_parsers : List Parser
  m_oovRuleTrie : Option (Word → Bool)

/-- The statement `oovs.insert(word)` on a `std::set<Word>` held as the list of its elements. -/
def setInsert (s : List Word) (word : Word) : List Word :=
  if word ∈ s then s else s ++ [word]

/-- First loop of `FindOovs` (lines 128-136): the tries of the grammar sources that have a
table; the assertion fails on a table that is no `RuleTrie`. -/
def collectTries : List RuleTableFF → Option (List (Word → Bool))
  | [] => some []
  | ff :: rest =>
    match ff.table with
    | none => collectTries rest
    | some (RuleTable.parserTrie has) => (collectTries rest).map (fun tries => has :: tries)
    | some (RuleTable.otherTrie has) => (collectTries rest).map (fun tries => has :: tries)
    | some RuleTable.other => none

/-- The loop over the terminal vertices of one cell (lines 150-167) on the pair
`(oovs, maxOovWidth)`; the assertion fails on a nonterminal symbol. -/
def scanCell (IsNonTerminal : Word → Bool) (tries : List (Word → Bool)) (width : Nat) :
    List (Word × PVertex) → List Word × Nat → Option (List Word × Nat)
  | [], acc => some acc
  | (word, _) :: rest, acc =>
    if IsNonTerminal word then none
    else
      let found := tries.any (fun trie => trie word)
      if !found then
        scanCell IsNonTerminal tries width rest (setInsert acc.1 word, max acc.2 width)
      else scanCell IsNonTerminal tries width rest acc

/-- The loop `for (j = i; j < pchart.cells[i].size()-1; ++j)` (line 147) over one row.  On an
empty row `size()-1` wraps around and `cells[i][i]` is read out of range. -/
def scanRow (IsNonTerminal : Word → Bool) (tries : List (Word → Bool)) (i : Nat)
    (row : List PCell) (acc : List Word × Nat) : Option (List Word × Nat) :=
  if row.length = 0 then none
  else
    (List.range' i (row.length - 1 - i)).foldlM
      (fun a j =>
        match row[j]? with
        | none => none
        | some cell => scanCell IsNonTerminal tries (j - i + 1) cell.terminalVertices a)
      acc

/-- The method `Manager::FindOovs`.  `_oovs` and `_maxOovWidth` are the incoming values of the
reference parameter `oovs` and of the by-value parameter `maxOovWidth`; lines 142-143
overwrite both before they are read.  The result is the final `oovs` together with the
final value of the function's own copy of `maxOovWidth`, which the caller never sees.  On
an empty chart `cells.size()-1` wraps around and `cells[1]` is read out of range. -/
def FindOovs (IsNonTerminal : Word → Bool) (ffs : List RuleTableFF)
    (pchart : List (List PCell)) (_oovs : List Word) (_maxOovWidth : Nat) :
    Option (List Word × Nat) :=
  match collectTries ffs with
  | none => none
  | some tries =>
    let oovs : List Word := []
    let maxOovWidth := 0
    if pchart.length = 0 then none
    else
      (List.range' 1 (pchart.length - 1 - 1)).foldlM
        (fun a i =>
          match pchart[i]? with
          | none => none
          | some row => scanRow IsNonTerminal tries i row a)
        (oovs, maxOovWidth)

/-- First loop of `InitializeParsers` (lines 84-103): one parser per grammar source; the
assertions fail on a missing table and on a table that is no `Parser::RuleTrie`. -/
def buildParsers : List RuleTableFF → List Nat → Option (List Parser)
  | [], _ => some []
  | _ :: _, [] => none
  | ff :: ffs, maxChartSpan :: graphs =>
    match ff.table with
    | some (RuleTable.parserTrie trie) =>
      (buildParsers ffs graphs).map (fun parsers => ⟨trie, maxChartSpan⟩ :: parsers)
    | _ => none

/-- The method `Manager::InitializeParsers`.  `ffs` is `RuleTableFF::Instances()`, `graphs` lists
`GetMaxChartSpan()` of the decode graphs, `SynthesizeRuleTrie` stands for
`OovHandler::SynthesizeRuleTrie`.  The variable `maxOovWidth` is passed to `FindOovs` by
value, so it still holds 0 when the OOV parser is built. -/
def InitializeParsers (IsNonTerminal : Word → Bool)
    (SynthesizeRuleTrie : List Word → Word → Bool) (ffs : List RuleTableFF)
    (graphs : List Nat) (m : ParserPool) (pchart : List (List PCell)) : Option ParserPool :=
  if ffs.length ≠ graphs.length then none
  else
    match buildParsers ffs graphs with
    | none => none
    | some parsers =>
      let m_parsers := m.m_parsers ++ parsers
      let maxOovWidth := 0
      match FindOovs IsNonTerminal ffs pchart [] maxOovWidth with
      | none => none
      | some (oovs, _) =>
        if !oovs.isEmpty then
          match ffs with
          | [] => none
          | _ :: _ =>
            let oovRuleTrie := SynthesizeRuleTrie oovs
            some ⟨m_parsers ++ [⟨oovRuleTrie, maxOovWidth⟩], some oovRuleTrie⟩
        else some ⟨m_parsers, m.m_oovRuleTrie⟩

/-- Some grammar source with a rule trie has a preterminal rule for `word`. -/
def HasCoverage (ffs : List RuleTableFF) (word : Word) : Bool :=
  ffs.any (fun ff =>
    match ff.table with
    | some (RuleTable.parserTrie has) => has word
    | some (RuleTable.otherTrie has) => has word
    | _ => false)

/-- What the body of the innermost loop of `FindOovs` does with a word found at a span of
width 1. -/
def oovStep (ffs : List RuleTableFF) (acc : List Word × Nat) (word : Word) : List Word × Nat :=
  if HasCoverage ffs word then acc else (setInsert acc.1 word, max acc.2 1)

/-! ## WordsBitmap -/

/-- The class `WordsBitmap`: the member `m_new_bitmap`, one flag per source position, position 0
first. -/
structure WordsBitmap where
  m_new_bitmap : List Bool
deriving DecidableEq

/-- The constant `UINT_SIZE` of WordsBitmap.h. -/
def UINT_SIZE : Nat := 64

/-- Modelled from the spec: `NOT_FOUND` of TypeDef.h (not among the sources), the largest
value of `size_t`. -/
def NOT_FOUND : Nat := 2 ^ 64 - 1

/-- The method `dynamic_bitset::size`. -/
def WordsBitmap.GetSize (b : WordsBitmap) : Nat := b.m_new_bitmap.length

/-- Value of bits read as a binary number, lowest position first. -/
def bitsValue : List Bool → Nat
  | [] => 0
  | x :: rest => (if x then 1 else 0) + 2 * bitsValue rest

/-- The method `dynamic_bitset::to_ulong`: the bits as an `unsigned long`; it throws when a set bit
does not fit. -/
def WordsBitmap.to_ulong (b : WordsBitmap) : Option Nat :=
  if bitsValue b.m_new_bitmap < 2 ^ 64 then some (bitsValue b.m_new_bitmap) else none

/-- Number of trailing zero bits of `v`, looking at no more than `fuel` bits. -/
def trailingZeros : Nat → Nat → Nat
  | 0, _ => 0
  | fuel + 1, v => if v % 2 = 1 then 0 else 1 + trailingZeros fuel (v / 2)

/-- The builtin `__builtin_ctzll` on a 64-bit value; the result is undefined for 0. -/
def ctzll (v : Nat) : Option Nat :=
  if v = 0 then none else some (trailingZeros 64 v)

/-- The method `WordsBitmap::GetFirstGapPos` (lines 85-100). -/
def WordsBitmap.GetFirstGapPos (b : WordsBitmap) : Option Nat :=
  if b.GetSize < UINT_SIZE then
    match b.to_ulong with
    | none => none
    | some v =>
      match ctzll (2 ^ 64 - 1 - v) with
      | none => none
      | some index => some (if index < b.GetSize then index else 0)
  else
    match b.m_new_bitmap.indexOf? false with
    | some pos => some pos
    | none => some NOT_FOUND

/-- The method `WordsBitmap::GetLastPos` (lines 116-124): the loop counter is an `int`, which holds
the size unchanged below `2^31`. -/
def WordsBitmap.GetLastPos (b : WordsBitmap) : Option Nat :=
  if 2 ^ 31 ≤ b.GetSize then none
  else
    match ((List.range b.GetSize).reverse).find? (fun pos => b.m_new_bitmap.getD pos false) with
    | some pos => some pos
    | none => some NOT_FOUND

/-- The method `WordsBitmap::GetValue`; reading outside the bitmap is an invalid access. -/
def WordsBitmap.GetValue (b : WordsBitmap) (pos : Nat) : Option Bool := b.m_new_bitmap[pos]?

/-- The method `WordsBitmap::SetValue(startPos, endPos, value)`: the flags of the positions
`startPos .. endPos` are set in turn; writing outside the bitmap is an invalid access. -/
def WordsBitmap.SetValue (b : WordsBitmap) (startPos endPos : Nat) (value : Bool) :
    Option WordsBitmap :=
  (List.range' startPos (endPos + 1 - startPos)).foldlM
    (fun (bm : WordsBitmap) pos =>
      if pos < bm.GetSize then some ⟨bm.m_new_bitmap.set pos value⟩ else none)
    b

/-- The loop of `GetID` (lines 204-206) over the positions `end, end-1, .., start+1`. -/
def idLoop (b : WordsBitmap) : List Nat → Nat → Option Nat
  | [], id => some id
  | pos :: rest, id =>
    match b.GetValue pos with
    | none => none
    | some v => idLoop b rest ((id * 2 + (if v then 1 else 0)) % 2 ^ 64)

/-- The method `WordsBitmap::GetID` (lines 193-208). -/
def WordsBitmap.GetID (b : WordsBitmap) : Option Nat :=
  if ¬ b.GetSize < 2 ^ 16 then none
  else
    match b.GetFirstGapPos, b.GetLastPos with
    | some start0, some end0 =>
      let start := if start0 = NOT_FOUND then b.GetSize else start0
      let end_ := if end0 = NOT_FOUND then 0 else end0
      if ¬ (end_ < start ∨ end_ - start ≤ 16) then none
      else
        match idLoop b ((List.range' (start + 1) (end_ - start)).reverse) 0 with
        | none => none
        | some id => some ((id + 2 ^ 16 * start) % 2 ^ 64)
    | _, _ => none

/-- The loop of `GetIDPlus` (lines 225-229). -/
def idPlusLoop (b : WordsBitmap) (startPos endPos : Nat) : List Nat → Nat → Option Nat
  | [], id => some id
  | pos :: rest, id =>
    match b.GetValue pos with
    | none => none
    | some v =>
      let id := (id * 2) % 2 ^ 64
      idPlusLoop b startPos endPos rest
        (if v || (decide (startPos ≤ pos) && decide (pos ≤ endPos)) then (id + 1) % 2 ^ 64
          else id)

/-- The method `WordsBitmap::GetIDPlus` (lines 211-231). -/
def WordsBitmap.GetIDPlus (b : WordsBitmap) (startPos endPos : Nat) : Option Nat :=
  if ¬ b.GetSize < 2 ^ 16 then none
  else
    match b.GetFirstGapPos, b.GetLastPos with
    | some start0, some end0 =>
      let start := if start0 = NOT_FOUND then b.GetSize else start0
      let end_ := if end0 = NOT_FOUND then 0 else end0
      let start := if start = startPos then (endPos + 1) % 2 ^ 64 else start
      let end_ := if end_ < endPos then endPos else end_
      if ¬ (end_ < start ∨ end_ - start ≤ 16) then none
      else
        match idPlusLoop b startPos endPos ((List.range' (start + 1) (end_ - start)).reverse) 0
          with
        | none => none
        | some id => some ((id + 2 ^ 16 * start) % 2 ^ 64)
    | _, _ => none

/-! ## Specification vocabulary for WordsBitmap -/

/-- Index of the lowest position that is not covered, if there is one. -/
def lowestUncovered : List Bool → Option Nat
  | [] => none
  | false :: _ => some 0
  | true :: rest => (lowestUncovered rest).map (fun i => i + 1)

/-- The first gap position in the words of the specification: the index of the lowest
position that is not covered, or `NOT_FOUND` if every position is covered. -/
def firstGapSpec (b : WordsBitmap) : Nat :=
  match lowestUncovered b.m_new_bitmap with
  | some i => i
  | none => NOT_FOUND

/-! ## Concrete instances used to exercise the theorems -/

/-- Insertion sort as an implementation of `std::sort`. -/
def demoSort : StdSort where
  run := insertionSortDesc
  perm := by
    have hins : ∀ (x : VPtr × Int) (l : List (VPtr × Int)), (insertDesc x l).Perm (x :: l) := by
      intro x l
      induction l with
      | nil => exact List.Perm.refl _
      | cons y ys ih =>
        simp only [insertDesc]
        split
        · exact List.Perm.refl _
        · exact (List.Perm.cons y ih).trans (List.Perm.swap x y ys)
    intro l
    induction l with
    | nil => exact List.Perm.refl _
    | cons x xs ih => exact (hins x _).trans (List.Perm.cons x ih)
  sorted := by
    have hperm : ∀ (x : VPtr × Int) (l : List (VPtr × Int)), (insertDesc x l).Perm (x :: l) := by
      intro x l
      induction l with
      | nil => exact List.Perm.refl _
      | cons y ys ih =>
        simp only [insertDesc]
        split
        · exact List.Perm.refl _
        · exact (List.Perm.cons y ih).trans (List.Perm.swap x y ys)
    have hins : ∀ (x : VPtr × Int) (l : List (VPtr × Int)),
        l.Pairwise (fun a b => b.2 ≤ a.2) → (insertDesc x l).Pairwise (fun a b => b.2 ≤ a.2) := by
      intro x l
      induction l with
      | nil => intro _; simp [insertDesc]
      | cons y ys ih =>
        intro hl
        rw [List.pairwise_cons] at hl
        simp only [insertDesc]
        split
        · rename_i hlt
          rw [List.pairwise_cons]
          refine ⟨?_, List.pairwise_cons.mpr hl⟩
          intro z hz
          rcases List.mem_cons.mp hz with rfl | hz
          · exact le_of_lt hlt
          · exact le_trans (hl.1 z hz) (le_of_lt hlt)
        · rename_i hlt
          rw [List.pairwise_cons]
          refine ⟨?_, ih hl.2⟩
          intro z hz
          rcases List.mem_cons.mp ((hperm x ys).subset hz) with rfl | hz
          · exact not_lt.mp hlt
          · exact hl.1 z hz
    intro l
    induction l with
    | nil => exact List.Pairwise.nil
    | cons x xs ih => exact hins x _ ih

/-- The buffer map iterated in reverse order of first insertion. -/
def demoOrder : HashOrder where
  run := List.reverse
  perm := fun l => List.reverse_perm l

/-- Orderer on natural-number states. -/
def demoLt (a b : Nat) : Bool := decide (a < b)

/-- Three hyperedges 10, 11, 12 with their own head vertices 0, 1, 2; the heads of 10 and
11 have the same state. -/
def demoHeap : Heap Nat where
  verts := fun p =>
    if p = 0 then some ⟨some 10, [], none, 5⟩
    else if p = 1 then some ⟨some 11, [], none, 5⟩
    else if p = 2 then some ⟨some 12, [], none, 7⟩
    else none
  edges := fun p =>
    if p = 10 then some ⟨0, 3, 1⟩
    else if p = 11 then some ⟨1, 9, 1⟩
    else if p = 12 then some ⟨2, 4, 1⟩
    else none

/-- Pruning constants of the examples: pop limit 4, beam limit 1, n-best factor 0. -/
def demoStaticData : StaticData := ⟨4, 100, 1, 0⟩

/-- The same constants with an unlimited beam (`beamLimit = 0`). -/
def demoStaticDataWide : StaticData := ⟨4, 100, 0, 0⟩

/-- A finished search chart for a one-word sentence whose top cell holds one beam. -/
def demoManager : Manager Nat where
  heap := demoHeap
  pchart := [[⟨[], []⟩]]
  schart := [[⟨[], [(1, [0, 2])]⟩]]

/-- Derivations as pairs of score and output phrase, in extraction order. -/
def demoDerivations : List (Int × List Word) :=
  [(9, [1, 2]), (8, [1, 2]), (7, [3]), (5, [1, 2]), (4, [4])]

/-- An extractor that hands out the first derivations of `demoDerivations`. -/
def demoExtract (_beam : List VPtr) (k : Nat) : List (Int × List Word) :=
  demoDerivations.take k

/-- Object store that holds no object. -/
def emptyHeap : Heap Nat := ⟨fun _ => none, fun _ => none⟩

/-- Addresses handed out for the terminal vertices. -/
def demoAddr (i : Nat) : VPtr := 100 + i

/-- Cube queues of a two-word sentence: span (0,0) yields four hyperedges over the
categories 1 and 2, the top span (0,1) three hyperedges of category 1, span (1,1) none. -/
def demoCube (range : Nat × Nat) : CubeQueue Nat :=
  if range = (0, 0) then
    [⟨10, 0, 3, 1, 5⟩, ⟨11, 1, 9, 1, 5⟩, ⟨12, 2, 4, 2, 7⟩, ⟨13, 3, 8, 1, 6⟩]
  else if range = (0, 1) then
    [⟨20, 4, 3, 1, 5⟩, ⟨21, 5, 9, 1, 5⟩, ⟨22, 6, 4, 1, 6⟩]
  else []

/-! ## Further concrete instances -/

/-- Three hyperedges 10, 11, 12 with equivalent heads 0, 1, 2; 10 and 11 tie for the
maximum score. -/
def demoTieHeap : Heap Nat where
  verts := fun p =>
    if p = 0 then some ⟨some 10, [], none, 5⟩
    else if p = 1 then some ⟨some 11, [], none, 5⟩
    else if p = 2 then some ⟨some 12, [], none, 5⟩
    else none
  edges := fun p =>
    if p = 10 then some ⟨0, 9, 1⟩
    else if p = 11 then some ⟨1, 9, 1⟩
    else if p = 12 then some ⟨2, 4, 1⟩
    else none

/-- A search chart for a one-word sentence whose top cell holds no nonterminal beam. -/
def demoManagerNoParse : Manager Nat where
  heap := demoHeap
  pchart := [[⟨[(7, ⟨(0, 0), 7⟩)], []⟩]]
  schart := [[⟨[(7, [100])], []⟩]]

/-- Pruning constants with pop limit 3 and beam limit 1. -/
def demoStaticDataThree : StaticData := ⟨3, 100, 1, 0⟩

/-- A grammar source whose trie has preterminal rules for the words 1, 2 and 6 only. -/
def demoFF : RuleTableFF := ⟨some (RuleTable.parserTrie (fun w => w = 1 || w = 2 || w = 6))⟩

/-- A pass-through trie for the given words. -/
def demoSynthesize (oovs : List Word) (w : Word) : Bool := decide (w ∈ oovs)

/-! ## Theorems -/

theorem mapInsert_eq_pure {σ : Type} (lt : σ → σ → Bool) (hp : Heap σ) (S : VPtr → σ)
    (kv : VPtr × VPtr) (m : List (VPtr × VPtr))
    (hkv : ∃ sv, hp.verts kv.1 = some sv ∧ sv.state = S kv.1)
    (hm : ∀ e ∈ m, ∃ sv, hp.verts e.1 = some sv ∧ sv.state = S e.1) :
    mapInsert lt hp kv m = some (insertPure (fun x y => lt (S x) (S y)) kv m) := by
  induction m with
  | nil => rfl
  | cons e m ih =>
    obtain ⟨sv, hsv, hst⟩ := hkv
    obtain ⟨se, hse, hste⟩ := hm e (List.mem_cons_self _ _)
    have ih1 := ih (fun x hx => hm x (List.mem_cons_of_mem _ hx))
    simp only [mapInsert, insertPure, vertexLess, hsv, hse, hst, hste]
    cases h1 : lt (S kv.1) (S e.1) <;> simp
    cases h2 : lt (S e.1) (S kv.1) <;> simp [ih1]

theorem insertPure_inserted (less : VPtr → VPtr → Bool)
    (htr : ∀ a b c, less a b = true → less b c = true → less a c = true)
    (kv : VPtr × VPtr) (m : List (VPtr × VPtr))
    (hs : m.Pairwise (fun a b => less a.1 b.1 = true))
    (hins : (insertPure less kv m).2.2 = true) :
    (insertPure less kv m).2.1 = kv ∧ (insertPure less kv m).1.Perm (kv :: m) ∧
    (insertPure less kv m).1.Pairwise (fun a b => less a.1 b.1 = true) ∧
    ∀ e ∈ m, less e.1 kv.1 = true ∨ less kv.1 e.1 = true := by
  induction m with
  | nil => simp [insertPure]
  | cons e m ih =>
    rw [List.pairwise_cons] at hs
    obtain ⟨he, hm⟩ := hs
    simp only [insertPure] at hins ⊢
    by_cases h1 : less kv.1 e.1 = true
    · simp only [h1, if_true] at hins ⊢
      refine ⟨trivial, List.Perm.refl _, ?_, ?_⟩
      · rw [List.pairwise_cons]
        refine ⟨?_, List.pairwise_cons.mpr ⟨he, hm⟩⟩
        intro x hx
        rcases List.mem_cons.mp hx with rfl | hx
        · exact h1
        · exact htr _ _ _ h1 (he x hx)
      · intro x hx
        rcases List.mem_cons.mp hx with rfl | hx
        · exact Or.inr h1
        · exact Or.inr (htr _ _ _ h1 (he x hx))
    · by_cases h2 : less e.1 kv.1 = true
      · simp only [h1, h2, if_true, Bool.false_eq_true, if_false] at hins ⊢
        obtain ⟨i1, i2, i3, i4⟩ := ih hm hins
        refine ⟨i1, ?_, ?_, ?_⟩
        · exact (List.Perm.cons e i2).trans (List.Perm.swap kv e m)
        · rw [List.pairwise_cons]
          refine ⟨?_, i3⟩
          intro x hx
          rcases List.mem_cons.mp (i2.subset hx) with rfl | hx
          · exact h2
          · exact he x hx
        · intro x hx
          rcases List.mem_cons.mp hx with rfl | hx
          · exact Or.inl h2
          · exact i4 x hx
      · simp [h1, h2] at hins

theorem insertPure_found (less : VPtr → VPtr → Bool)
    (kv : VPtr × VPtr) (m : List (VPtr × VPtr))
    (hins : (insertPure less kv m).2.2 = false) :
    (insertPure less kv m).1 = m ∧ (insertPure less kv m).2.1 ∈ m ∧
    less (insertPure less kv m).2.1.1 kv.1 = false ∧
    less kv.1 (insertPure less kv m).2.1.1 = false := by
  induction m with
  | nil => simp [insertPure] at hins
  | cons e m ih =>
    simp only [insertPure] at hins ⊢
    by_cases h1 : less kv.1 e.1 = true
    · simp [h1] at hins
    · by_cases h2 : less e.1 kv.1 = true
      · simp only [h1, h2, if_true, Bool.false_eq_true, if_false] at hins ⊢
        obtain ⟨i1, i2, i3, i4⟩ := ih hins
        exact ⟨by rw [i1], List.mem_cons_of_mem _ i2, i3, i4⟩
      · have h1f : less kv.1 e.1 = false := Bool.eq_false_iff.mpr h1
        have h2f : less e.1 kv.1 = false := Bool.eq_false_iff.mpr h2
        simp [h1f, h2f]

theorem equivState_iff {σ : Type} (lt : σ → σ → Bool) (a b : σ) :
    equivState lt a b = true ↔ lt a b = false ∧ lt b a = false := by
  simp [equivState]

theorem equivState_refl {σ : Type} {lt : σ → σ → Bool} (hs : StrictWeak lt) (a : σ) :
    equivState lt a a = true := by
  simp [equivState, hs.irrefl]

theorem equivState_symm {σ : Type} {lt : σ → σ → Bool} {a b : σ}
    (h : equivState lt a b = true) : equivState lt b a = true := by
  simp [equivState] at h ⊢
  exact ⟨h.2, h.1⟩

theorem equivState_trans {σ : Type} {lt : σ → σ → Bool} (hs : StrictWeak lt) {a b c : σ}
    (h1 : equivState lt a b = true) (h2 : equivState lt b c = true) :
    equivState lt a c = true := by
  rw [equivState_iff] at h1 h2 ⊢
  exact ⟨hs.incomp a b c h1.1 h1.2 h2.1 h2.2, hs.incomp c b a h2.2 h2.1 h1.2 h1.1⟩

theorem sorted_equiv_eq {σ : Type} {lt : σ → σ → Bool} (S : VPtr → σ)
    {m : List (VPtr × VPtr)} (hm : m.Pairwise (fun a b => lt (S a.1) (S b.1) = true))
    {x y : VPtr × VPtr} (hx : x ∈ m) (hy : y ∈ m)
    (he : equivState lt (S x.1) (S y.1) = true) : x = y := by
  rw [equivState_iff] at he
  induction m with
  | nil => cases hx
  | cons e m ih =>
    rw [List.pairwise_cons] at hm
    rcases List.mem_cons.mp hx with rfl | hx1 <;> rcases List.mem_cons.mp hy with rfl | hy1
    · rfl
    · have := hm.1 y hy1
      rw [he.1] at this; cases this
    · have := hm.1 x hx1
      rw [he.2] at this; cases this
    · exact ih hm.2 hx1 hy1

theorem countClasses_append {σ : Type} (lt : σ → σ → Bool) (seen l1 l2 : List σ) :
    countClasses lt seen (l1 ++ l2) = countClasses lt seen l1 + countClasses lt (seen ++ l1) l2 := by
  induction l1 generalizing seen with
  | nil => simp [countClasses]
  | cons a l1 ih =>
    have h1 : seen ++ a :: l1 = (seen ++ [a]) ++ l1 := by simp
    show countClasses lt seen (a :: (l1 ++ l2)) = _
    simp only [countClasses]
    rw [ih, h1]
    omega

theorem countClasses_snoc {σ : Type} (lt : σ → σ → Bool) (l : List σ) (a : σ) :
    countClasses lt [] (l ++ [a]) =
      countClasses lt [] l + (if l.any (fun b => equivState lt b a) then 0 else 1) := by
  rw [countClasses_append]
  simp [countClasses]

theorem InitOK.head_inj {σ : Type} {E : HPtr → SHyperedge} {S : VPtr → σ}
    {PV : VPtr → Option PVertex} {hp0 : Heap σ} {buffer : List HPtr}
    (hi : InitOK E S PV hp0 buffer) {h1 h2 : HPtr} (m1 : h1 ∈ buffer) (m2 : h2 ∈ buffer)
    (he : (E h1).head = (E h2).head) : h1 = h2 := by
  have a1 := (hi h1 m1).2
  have a2 := (hi h2 m2).2
  rw [he, a2] at a1
  injection a1 with a1
  injection a1 with a1
  injection a1 with a1
  exact a1.symm

theorem RInv.init {σ : Type} (lt : σ → σ → Bool) (E : HPtr → SHyperedge) (S : VPtr → σ)
    (PV : VPtr → Option PVertex) (hp0 : Heap σ) : RInv lt E S PV hp0 [] hp0 [] where
  sorted := List.Pairwise.nil
  keys := by intro e he; cases he
  vert := by intro e he; cases he
  done := by intro e he; cases he
  dead := by intro e he; cases he
  frameV := fun _ _ => rfl
  frameE := fun _ _ => rfl
  card := rfl

theorem Heap.setVert_verts {σ : Type} (hp : Heap σ) (p q : VPtr) (x : Option (SVertex σ)) :
    (hp.setVert p x).verts q = if q = p then x else hp.verts q := rfl

theorem Heap.setVert_edges {σ : Type} (hp : Heap σ) (p : VPtr) (x : Option (SVertex σ)) :
    (hp.setVert p x).edges = hp.edges := rfl

theorem Heap.setEdge_verts {σ : Type} (hp : Heap σ) (p : HPtr) (x : Option SHyperedge) :
    (hp.setEdge p x).verts = hp.verts := rfl

theorem Heap.setEdge_edges {σ : Type} (hp : Heap σ) (p q : HPtr) (x : Option SHyperedge) :
    (hp.setEdge p x).edges q = if q = p then x else hp.edges q := rfl

/-- No processed head is equivalent to `v` when no map key is. -/
theorem RInv.no_equiv {σ : Type} {lt : σ → σ → Bool} (hs : StrictWeak lt)
    {E : HPtr → SHyperedge} {S : VPtr → σ}
    {PV : VPtr → Option PVertex} {hp0 : Heap σ} {P : List HPtr} {hp : Heap σ}
    {map : List (VPtr × VPtr)} (inv : RInv lt E S PV hp0 P hp map) (v : VPtr)
    (hno : ∀ e ∈ map, lt (S e.1) (S v) = true ∨ lt (S v) (S e.1) = true)
    {h : HPtr} (hP : h ∈ P) : equivState lt (S (E h).head) (S v) = false := by
  obtain ⟨e, he, _, heq⟩ := inv.done h hP
  cases hc : equivState lt (S (E h).head) (S v)
  · rfl
  · have h2 := equivState_trans hs (equivState_symm heq) hc
    rw [equivState_iff] at h2
    rcases hno e he with h3 | h3
    · rw [h2.1] at h3; cases h3
    · rw [h2.2] at h3; cases h3

theorem recombineOne_inserted {σ : Type} {lt : σ → σ → Bool} (hs : StrictWeak lt)
    {E : HPtr → SHyperedge} {S : VPtr → σ}
    {PV : VPtr → Option PVertex} {hp0 : Heap σ} {P : List HPtr} {hp : Heap σ}
    {map : List (VPtr × VPtr)} (inv : RInv lt E S PV hp0 P hp map) (h : HPtr)
    (hE : hp.edges h = some (E h))
    (hV : hp.verts (E h).head = some ⟨some h, [], PV (E h).head, S (E h).head⟩)
    (hins : (insertPure (fun x y => lt (S x) (S y)) ((E h).head, (E h).head) map).2.2 = true) :
    RInv lt E S PV hp0 (P ++ [h]) hp
      (insertPure (fun x y => lt (S x) (S y)) ((E h).head, (E h).head) map).1 := by
  obtain ⟨_, iperm, isorted, ino⟩ :=
    insertPure_inserted (fun x y => lt (S x) (S y)) (fun a b c => hs.trans _ _ _) _ map
      inv.sorted hins
  have hne : ∀ h' ∈ P, equivState lt (S (E h').head) (S (E h).head) = false :=
    fun h' hh' => inv.no_equiv hs _ ino hh'
  have hmem : ∀ e, e ∈ (insertPure (fun x y => lt (S x) (S y)) ((E h).head, (E h).head) map).1 →
      e = ((E h).head, (E h).head) ∨ e ∈ map := fun e he => List.mem_cons.mp (iperm.subset he)
  have hnk : ∀ e ∈ map, equivState lt (S (E h).head) (S e.1) = false := by
    intro e he
    cases hc : equivState lt (S (E h).head) (S e.1)
    · rfl
    · rw [equivState_iff] at hc
      rcases ino e he with h3 | h3
      · rw [hc.2] at h3; cases h3
      · rw [hc.1] at h3; cases h3
  refine ⟨isorted, ?_, ?_, ?_, ?_, ?_, ?_, ?_⟩
  · intro e he
    rcases hmem e he with rfl | he
    · exact ⟨rfl, h, by simp, rfl⟩
    · obtain ⟨k1, h', hh', k2⟩ := inv.keys e he
      exact ⟨k1, h', by simp [hh'], k2⟩
  · intro e he
    rcases hmem e he with rfl | he
    · refine ⟨h, [], P, [], hV, rfl, hE, equivState_refl hs _, ?_, ?_, ?_⟩
      · intro h' hh' hq
        rw [hne h' hh'] at hq; cases hq
      · intro h' hh'; cases hh'
      · intro r hr; cases hr
    · obtain ⟨b, rec, A, B, v1, v2, v3, v4, v5, v6, v7⟩ := inv.vert e he
      have hnke := hnk e he
      refine ⟨b, rec, A, B ++ [h], v1, by simp [v2], v3, v4, v5, ?_, ?_⟩
      · intro h' hh' hq
        rcases List.mem_append.mp hh' with hh' | hh'
        · exact v6 h' hh' hq
        · have : h' = h := by simpa using hh'
          rw [this, hnke] at hq; cases hq
      · intro r hr
        obtain ⟨r1, r2, r3⟩ := v7 r hr
        exact ⟨by simp [r1], r2, r3⟩
  · intro h' hh'
    rcases List.mem_append.mp hh' with hh' | hh'
    · obtain ⟨e, he, d1, d2⟩ := inv.done h' hh'
      exact ⟨e, iperm.symm.subset (List.mem_cons_of_mem _ he), d1, d2⟩
    · have : h' = h := by simpa using hh'
      subst this
      exact ⟨_, iperm.symm.subset (List.mem_cons_self _ _), hE, equivState_refl hs _⟩
  · intro h' hh' hk
    rcases List.mem_append.mp hh' with hh' | hh'
    · exact inv.dead h' hh' (fun e he => hk e (iperm.symm.subset (List.mem_cons_of_mem _ he)))
    · have : h' = h := by simpa using hh'
      subst this
      exact absurd rfl (hk _ (iperm.symm.subset (List.mem_cons_self _ _)))
  · intro p hp1
    exact inv.frameV p (fun h' hh' => hp1 h' (by simp [hh']))
  · intro q hq
    exact inv.frameE q (fun hc => hq (by simp [hc]))
  · rw [iperm.length_eq, List.map_append, List.map_singleton, countClasses_snoc,
      List.length_cons, inv.card]
    have : (List.map (fun h => S (E h).head) P).any
        (fun b => equivState lt b (S (E h).head)) = false := by
      rw [List.any_eq_false]
      intro x hx
      obtain ⟨h', hh', rfl⟩ := List.mem_map.mp hx
      simp [hne h' hh']
    simp [this]

/-- Evaluation of one loop iteration when the head is a duplicate of the stored vertex `k`. -/
theorem recombineOne_dup {σ : Type} (lt : σ → σ → Bool) (hp : Heap σ)
    (map map1 : List (VPtr × VPtr)) (h : HPtr) (e : SHyperedge) (pvh : Option PVertex) (sh : σ)
    (entry : VPtr × VPtr) (b : HPtr) (rec : List HPtr) (pvk : Option PVertex) (sk : σ)
    (be : SHyperedge)
    (hE : hp.edges h = some e)
    (hV : hp.verts e.head = some ⟨some h, [], pvh, sh⟩)
    (hI : mapInsert lt hp (e.head, e.head) map = some (map1, entry, false))
    (hK : hp.verts entry.2 = some ⟨some b, rec, pvk, sk⟩)
    (hB : hp.edges b = some be) (hne : e.head ≠ entry.2) :
    ∃ hp1, recombineOne lt hp map h = some (hp1, map1) ∧
      (∀ p, hp1.verts p = if p = e.head then none else if p = entry.2 then
          some (if e.score > be.score then ⟨some h, rec ++ [b], pvk, sk⟩
            else ⟨some b, rec ++ [h], pvk, sk⟩)
        else hp.verts p) ∧
      (∀ q, hp1.edges q = if q = h then some { e with head := entry.2 } else hp.edges q) := by
  by_cases hsc : e.score > be.score
  · refine ⟨(((hp.setVert entry.2 (some ⟨some h, rec ++ [b], pvk, sk⟩)).setVert e.head
      (some ⟨none, [], pvh, sh⟩)).setVert e.head none).setEdge h
        (some { e with head := entry.2 }), ?_, ?_, ?_⟩
    · simp only [recombineOne, hE, hV, hI, hK, hB, hsc, if_true, Heap.setVert_verts, hne,
        if_false, ne_eq, not_true_eq_false]
    · intro p
      simp only [Heap.setEdge_verts, Heap.setVert_verts, hsc, if_true]
      by_cases h1 : p = e.head <;> simp [h1]
    · intro q
      simp only [Heap.setEdge_edges, Heap.setVert_edges]
  · refine ⟨(((hp.setVert entry.2 (some ⟨some b, rec ++ [h], pvk, sk⟩)).setVert e.head
      (some ⟨none, [], pvh, sh⟩)).setVert e.head none).setEdge h
        (some { e with head := entry.2 }), ?_, ?_, ?_⟩
    · simp only [recombineOne, hE, hV, hI, hK, hB, hsc, if_true, Heap.setVert_verts, hne,
        if_false, ne_eq, not_true_eq_false]
    · intro p
      simp only [Heap.setEdge_verts, Heap.setVert_verts, hsc, if_false]
      by_cases h1 : p = e.head <;> simp [h1]
    · intro q
      simp only [Heap.setEdge_edges, Heap.setVert_edges]

theorem RInv.dup_step {σ : Type} {lt : σ → σ → Bool} (hs : StrictWeak lt)
    {E : HPtr → SHyperedge} {S : VPtr → σ}
    {PV : VPtr → Option PVertex} {hp0 : Heap σ} {P : List HPtr} {hp : Heap σ}
    {map : List (VPtr × VPtr)} (inv : RInv lt E S PV hp0 P hp map) (h : HPtr)
    (hnP : h ∉ P) (hinj : ∀ h' ∈ P, (E h').head ≠ (E h).head)
    (entry : VPtr × VPtr) (hent : entry ∈ map)
    (hq : equivState lt (S (E h).head) (S entry.1) = true)
    (b : HPtr) (rec A B : List HPtr)
    (v2 : P = A ++ b :: B)
    (v3 : hp.edges b = some { E b with head := entry.1 })
    (v4 : equivState lt (S (E b).head) (S entry.1) = true)
    (v5 : ∀ h ∈ A, equivState lt (S (E h).head) (S entry.1) = true → (E h).score < (E b).score)
    (v6 : ∀ h ∈ B, equivState lt (S (E h).head) (S entry.1) = true → (E h).score ≤ (E b).score)
    (v7 : ∀ r ∈ rec, r ∈ P ∧ hp.edges r = some { E r with head := entry.1 } ∧
        (E r).score ≤ (E b).score)
    (hp1 : Heap σ)
    (hv : ∀ p, hp1.verts p = if p = (E h).head then none else if p = entry.1 then
          some (if (E h).score > (E b).score then ⟨some h, rec ++ [b], PV entry.1, S entry.1⟩
            else ⟨some b, rec ++ [h], PV entry.1, S entry.1⟩)
        else hp.verts p)
    (he : ∀ q, hp1.edges q = if q = h then some { E h with head := entry.1 } else hp.edges q) :
    RInv lt E S PV hp0 (P ++ [h]) hp1 map := by
  have hbP : b ∈ P := by rw [v2]; simp
  have hkey : ∀ e ∈ map, e.1 ≠ (E h).head := by
    intro e he1 hc
    obtain ⟨_, h', hh', k2⟩ := inv.keys e he1
    exact hinj h' hh' (by rw [← k2, hc])
  have hedge : ∀ q ∈ P, hp1.edges q = hp.edges q := by
    intro q hq1
    have hqh : q ≠ h := fun hc => hnP (by rw [← hc]; exact hq1)
    rw [he q, if_neg hqh]
  refine ⟨inv.sorted, ?_, ?_, ?_, ?_, ?_, ?_, ?_⟩
  · intro e he1
    obtain ⟨k1, h', hh', k2⟩ := inv.keys e he1
    exact ⟨k1, h', by simp [hh'], k2⟩
  · intro e he1
    by_cases hek : e.1 = entry.1
    · rw [hek]
      by_cases hsc : (E h).score > (E b).score
      · refine ⟨h, rec ++ [b], P, [], ?_, rfl, ?_, hq, ?_, ?_, ?_⟩
        · rw [hv, if_neg (hkey entry hent), if_pos rfl, if_pos hsc]
        · rw [he, if_pos rfl]
        · intro h' hh' hq'
          rw [v2] at hh'
          rcases List.mem_append.mp hh' with hA | hB
          · exact lt_trans (v5 h' hA hq') hsc
          · rcases List.mem_cons.mp hB with rfl | hB
            · exact hsc
            · exact lt_of_le_of_lt (v6 h' hB hq') hsc
        · intro h' hh'; cases hh'
        · intro r hr
          rcases List.mem_append.mp hr with hr | hr
          · obtain ⟨r1, r2, r3⟩ := v7 r hr
            exact ⟨by simp [r1], by rw [hedge r r1]; exact r2, le_of_lt (lt_of_le_of_lt r3 hsc)⟩
          · have hrb : r = b := by simpa using hr
            rw [hrb]
            exact ⟨by simp [hbP], by rw [hedge b hbP]; exact v3, le_of_lt hsc⟩
      · refine ⟨b, rec ++ [h], A, B ++ [h], ?_, by simp [v2], ?_, v4, v5, ?_, ?_⟩
        · rw [hv, if_neg (hkey entry hent), if_pos rfl, if_neg hsc]
        · rw [hedge b hbP]; exact v3
        · intro h' hh' hq'
          rcases List.mem_append.mp hh' with hB | hB
          · exact v6 h' hB hq'
          · have : h' = h := by simpa using hB
            rw [this]
            exact not_lt.mp hsc
        · intro r hr
          rcases List.mem_append.mp hr with hr | hr
          · obtain ⟨r1, r2, r3⟩ := v7 r hr
            exact ⟨by simp [r1], by rw [hedge r r1]; exact r2, r3⟩
          · have hrb : r = h := by simpa using hr
            rw [hrb]
            exact ⟨by simp, by rw [he, if_pos rfl], not_lt.mp hsc⟩
    · obtain ⟨b', rec', A', B', w1, w2, w3, w4, w5, w6, w7⟩ := inv.vert e he1
      have hb'P : b' ∈ P := by rw [w2]; simp
      have hnoteq : equivState lt (S (E h).head) (S e.1) = false := by
        cases hc : equivState lt (S (E h).head) (S e.1)
        · rfl
        · have h2 := equivState_trans hs (equivState_symm hc) hq
          have := sorted_equiv_eq S inv.sorted he1 hent h2
          exact absurd (by rw [this]) hek
      refine ⟨b', rec', A', B' ++ [h], ?_, by simp [w2], ?_, w4, w5, ?_, ?_⟩
      · rw [hv, if_neg (hkey e he1), if_neg hek]; exact w1
      · rw [hedge b' hb'P]; exact w3
      · intro h' hh' hq'
        rcases List.mem_append.mp hh' with hB | hB
        · exact w6 h' hB hq'
        · have : h' = h := by simpa using hB
          rw [this, hnoteq] at hq'; cases hq'
      · intro r hr
        obtain ⟨r1, r2, r3⟩ := w7 r hr
        exact ⟨by simp [r1], by rw [hedge r r1]; exact r2, r3⟩
  · intro h' hh'
    rcases List.mem_append.mp hh' with hh' | hh'
    · obtain ⟨e, he1, d1, d2⟩ := inv.done h' hh'
      exact ⟨e, he1, by rw [hedge h' hh']; exact d1, d2⟩
    · have : h' = h := by simpa using hh'
      rw [this]
      exact ⟨entry, hent, by rw [he, if_pos rfl], hq⟩
  · intro h' hh' hk
    rcases List.mem_append.mp hh' with hh' | hh'
    · rw [hv, if_neg (hinj h' hh'), if_neg (fun hc => hk entry hent hc.symm)]
      exact inv.dead h' hh' hk
    · have : h' = h := by simpa using hh'
      rw [this, hv, if_pos rfl]
  · intro p hp2
    have h1 : p ≠ (E h).head := hp2 h (by simp)
    have h2 : p ≠ entry.1 := by
      obtain ⟨_, h', hh', k2⟩ := inv.keys entry hent
      rw [k2]; exact hp2 h' (by simp [hh'])
    rw [hv, if_neg h1, if_neg h2]
    exact inv.frameV p (fun h' hh' => hp2 h' (by simp [hh']))
  · intro q hq1
    have h1 : q ≠ h := fun hc => hq1 (by simp [hc])
    rw [he, if_neg h1]
    exact inv.frameE q (fun hc => hq1 (by simp [hc]))
  · rw [List.map_append, List.map_singleton, countClasses_snoc, inv.card]
    obtain ⟨_, h', hh', k2⟩ := inv.keys entry hent
    have : (List.map (fun h => S (E h).head) P).any
        (fun b => equivState lt b (S (E h).head)) = true := by
      rw [List.any_eq_true]
      exact ⟨S (E h').head, List.mem_map.mpr ⟨h', hh', rfl⟩, by rw [← k2]; exact equivState_symm hq⟩
    simp [this]

theorem recombineOne_step {σ : Type} {lt : σ → σ → Bool} (hs : StrictWeak lt)
    {E : HPtr → SHyperedge} {S : VPtr → σ}
    {PV : VPtr → Option PVertex} {hp0 : Heap σ} {buffer : List HPtr}
    (hi : InitOK E S PV hp0 buffer) (hnd : buffer.Nodup)
    {P R : List HPtr} {h : HPtr} (hb : buffer = P ++ h :: R)
    {hp : Heap σ} {map : List (VPtr × VPtr)} (inv : RInv lt E S PV hp0 P hp map) :
    ∃ hp1 map1, recombineOne lt hp map h = some (hp1, map1) ∧
      RInv lt E S PV hp0 (P ++ [h]) hp1 map1 := by
  have hmem : h ∈ buffer := by rw [hb]; simp
  have hPsub : ∀ h' ∈ P, h' ∈ buffer := fun h' hh' => by rw [hb]; simp [hh']
  have hnP : h ∉ P := by
    rw [hb] at hnd
    have := (List.nodup_append.mp hnd).2.2
    intro hc
    exact this hc (List.mem_cons_self _ _)
  have hinj : ∀ h' ∈ P, (E h').head ≠ (E h).head := by
    intro h' hh' hc
    have := hi.head_inj (hPsub h' hh') hmem hc
    exact hnP (this ▸ hh')
  have hE : hp.edges h = some (E h) := by
    rw [inv.frameE h hnP]; exact (hi h hmem).1
  have hV : hp.verts (E h).head = some ⟨some h, [], PV (E h).head, S (E h).head⟩ := by
    rw [inv.frameV _ (fun h' hh' => (hinj h' hh').symm)]; exact (hi h hmem).2
  have hI := mapInsert_eq_pure lt hp S ((E h).head, (E h).head) map ⟨_, hV, rfl⟩
    (fun e he => by
      obtain ⟨b, rec, A, B, v1, _⟩ := inv.vert e he
      exact ⟨_, v1, rfl⟩)
  rcases hr : insertPure (fun x y => lt (S x) (S y)) ((E h).head, (E h).head) map with
    ⟨m1, en, fl⟩
  rw [hr] at hI
  cases fl
  · have hf := insertPure_found (fun x y => lt (S x) (S y)) ((E h).head, (E h).head) map
      (by rw [hr])
    rw [hr] at hf
    obtain ⟨f1, f2, f3, f4⟩ := hf
    simp only at f1 f2 f3 f4
    subst f1
    obtain ⟨b, rec, A, B, v1, v2, v3, v4, v5, v6, v7⟩ := inv.vert en f2
    have hk := (inv.keys en f2).1
    have hne : (E h).head ≠ en.2 := by
      rw [hk]
      obtain ⟨_, h', hh', k2⟩ := inv.keys en f2
      rw [k2]; exact (hinj h' hh').symm
    obtain ⟨hp1, e1, e2, e3⟩ := recombineOne_dup lt hp m1 m1 h (E h) _ _ en b rec _ _ _
      hE hV hI (by rw [hk]; exact v1) v3 hne
    refine ⟨hp1, m1, e1, ?_⟩
    have hq : equivState lt (S (E h).head) (S en.1) = true := by
      rw [equivState_iff]; exact ⟨f4, f3⟩
    refine inv.dup_step hs h hnP hinj en f2 hq b rec A B v2 v3 v4 v5 v6 v7 hp1 ?_ ?_
    · intro p; rw [e2 p, hk]
    · intro q; rw [e3 q, hk]
  · refine ⟨hp, m1, ?_, ?_⟩
    · simp only [recombineOne, hE, hV, hI, ne_eq, not_true_eq_false, if_false]
    · have := recombineOne_inserted hs inv h hE hV (by rw [hr])
      rw [hr] at this
      exact this

theorem recombineLoop_inv {σ : Type} {lt : σ → σ → Bool} (hs : StrictWeak lt)
    {E : HPtr → SHyperedge} {S : VPtr → σ}
    {PV : VPtr → Option PVertex} {hp0 : Heap σ} {buffer : List HPtr}
    (hi : InitOK E S PV hp0 buffer) (hnd : buffer.Nodup) :
    ∀ (R P : List HPtr) (hp : Heap σ) (map : List (VPtr × VPtr)), buffer = P ++ R →
      RInv lt E S PV hp0 P hp map →
      ∃ hp1 map1, recombineLoop lt R hp map = some (hp1, map1) ∧
        RInv lt E S PV hp0 buffer hp1 map1 := by
  intro R
  induction R with
  | nil =>
    intro P hp map hb inv
    rw [List.append_nil] at hb
    subst hb
    exact ⟨hp, map, rfl, inv⟩
  | cons h R ih =>
    intro P hp map hb inv
    obtain ⟨hp1, map1, e1, inv1⟩ := recombineOne_step hs hi hnd hb inv
    obtain ⟨hp2, map2, e2, inv2⟩ := ih (P ++ [h]) hp1 map1 (by rw [hb]; simp) inv1
    exact ⟨hp2, map2, by simp only [recombineLoop, e1, e2], inv2⟩

theorem keyed_some {σ : Type} (hp : Heap σ) :
    ∀ (l : List VPtr) (ks : List (VPtr × Int)), keyed hp l = some ks →
      ks.map Prod.fst = l ∧ ∀ x ∈ ks, bestScore hp x.1 = some x.2 := by
  intro l
  induction l with
  | nil =>
    intro ks h
    simp only [keyed, Option.some.injEq] at h
    subst h
    simp
  | cons v vs ih =>
    intro ks h
    simp only [keyed] at h
    cases h1 : bestScore hp v with
    | none => simp [h1] at h
    | some s =>
      cases h2 : keyed hp vs with
      | none => simp [h1, h2] at h
      | some ks1 =>
        simp only [h1, h2, Option.some.injEq] at h
        subst h
        obtain ⟨i1, i2⟩ := ih ks1 h2
        refine ⟨by simp [i1], ?_⟩
        intro x hx
        rcases List.mem_cons.mp hx with rfl | hx
        · exact h1
        · exact i2 x hx

theorem keyed_total {σ : Type} (hp : Heap σ) :
    ∀ (l : List VPtr), (∀ v ∈ l, ∃ s, bestScore hp v = some s) → ∃ ks, keyed hp l = some ks := by
  intro l
  induction l with
  | nil => intro _; exact ⟨[], rfl⟩
  | cons v vs ih =>
    intro h
    obtain ⟨s, hs⟩ := h v (List.mem_cons_self _ _)
    obtain ⟨ks, hks⟩ := ih (fun x hx => h x (List.mem_cons_of_mem _ hx))
    exact ⟨(v, s) :: ks, by simp [keyed, hs, hks]⟩

theorem sortBeam_some {σ : Type} (srt : StdSort) (hp : Heap σ) (l beam : List VPtr)
    (h : sortBeam srt hp l = some beam) :
    beam.Perm l ∧ beam.Pairwise (ScoreGE hp) := by
  simp only [sortBeam] at h
  cases hk : keyed hp l with
  | none => simp [hk] at h
  | some ks =>
    simp only [hk, Option.some.injEq] at h
    subst h
    obtain ⟨k1, k2⟩ := keyed_some hp l ks hk
    constructor
    · have := (srt.perm ks).map Prod.fst
      rw [k1] at this
      exact this
    · rw [List.pairwise_map]
      refine (srt.sorted ks).imp_of_mem ?_
      intro a b ha hb hab
      exact ⟨a.2, b.2, k2 a ((srt.perm ks).subset ha), k2 b ((srt.perm ks).subset hb), hab⟩

theorem sortBeam_total {σ : Type} (srt : StdSort) (hp : Heap σ) (l : List VPtr)
    (h : ∀ v ∈ l, ∃ s, bestScore hp v = some s) : ∃ beam, sortBeam srt hp l = some beam := by
  obtain ⟨ks, hks⟩ := keyed_total hp l h
  exact ⟨(srt.run ks).map Prod.fst, by simp only [sortBeam, hks]⟩

theorem RInv.bestScore_key {σ : Type} {lt : σ → σ → Bool}
    {E : HPtr → SHyperedge} {S : VPtr → σ}
    {PV : VPtr → Option PVertex} {hp0 : Heap σ} {P : List HPtr} {hp : Heap σ}
    {map : List (VPtr × VPtr)} (inv : RInv lt E S PV hp0 P hp map)
    {e : VPtr × VPtr} (he : e ∈ map) :
    ∃ b, b ∈ P ∧ bestScore hp e.1 = some (E b).score ∧
      equivState lt (S (E b).head) (S e.1) = true ∧
      ∀ h ∈ P, equivState lt (S (E h).head) (S e.1) = true → (E h).score ≤ (E b).score := by
  obtain ⟨b, rec, A, B, v1, v2, v3, v4, v5, v6, v7⟩ := inv.vert e he
  refine ⟨b, by rw [v2]; simp, by simp only [bestScore, v1, v3], v4, ?_⟩
  intro h hh hq
  rw [v2] at hh
  rcases List.mem_append.mp hh with hA | hB
  · exact le_of_lt (v5 h hA hq)
  · rcases List.mem_cons.mp hB with rfl | hB
    · exact le_refl _
    · exact v6 h hB hq

/-- Result of `RecombineAndSort` in terms of the loop invariant. -/
theorem RecombineAndSort_inv {σ : Type} (srt : StdSort) {lt : σ → σ → Bool}
    (hs : StrictWeak lt) {E : HPtr → SHyperedge} {S : VPtr → σ}
    {PV : VPtr → Option PVertex} {hp0 : Heap σ} {buffer : List HPtr}
    (hi : InitOK E S PV hp0 buffer) (hnd : buffer.Nodup) :
    ∃ hp1 map beam, RecombineAndSort srt lt hp0 buffer = some (hp1, beam) ∧
      RInv lt E S PV hp0 buffer hp1 map ∧ beam.Perm (map.map Prod.fst) ∧
      beam.Pairwise (ScoreGE hp1) := by
  obtain ⟨hp1, map, e1, inv⟩ :=
    recombineLoop_inv hs hi hnd buffer [] hp0 [] rfl (RInv.init lt E S PV hp0)
  have htot : ∀ v ∈ map.map Prod.fst, ∃ s, bestScore hp1 v = some s := by
    intro v hv
    obtain ⟨e, he, rfl⟩ := List.mem_map.mp hv
    obtain ⟨b, _, hb, _⟩ := inv.bestScore_key he
    exact ⟨_, hb⟩
  obtain ⟨beam, hbeam⟩ := sortBeam_total srt hp1 _ htot
  obtain ⟨p1, p2⟩ := sortBeam_some srt hp1 _ beam hbeam
  exact ⟨hp1, map, beam, by simp only [RecombineAndSort, e1, hbeam], inv, p1, p2⟩

theorem RInv.keys_nodup {σ : Type} {lt : σ → σ → Bool} (hs : StrictWeak lt)
    {E : HPtr → SHyperedge} {S : VPtr → σ}
    {PV : VPtr → Option PVertex} {hp0 : Heap σ} {P : List HPtr} {hp : Heap σ}
    {map : List (VPtr × VPtr)} (inv : RInv lt E S PV hp0 P hp map) :
    (map.map Prod.fst).Nodup := by
  rw [List.Nodup, List.pairwise_map]
  refine inv.sorted.imp ?_
  intro a b hab hc
  rw [hc, hs.irrefl] at hab
  cases hab

theorem freshEdge_iff {σ : Type} (hp : Heap σ) (h : HPtr) :
    freshEdge hp h = true ↔ ∃ e pv s, hp.edges h = some e ∧
      hp.verts e.head = some ⟨some h, [], pv, s⟩ := by
  unfold freshEdge
  constructor
  · intro hf
    cases he : hp.edges h with
    | none => simp [he] at hf
    | some e =>
      cases hv : hp.verts e.head with
      | none => simp [he, hv] at hf
      | some v =>
        simp only [he, hv, Bool.and_eq_true, decide_eq_true_eq] at hf
        obtain ⟨b, r, pv, s⟩ := v
        simp only at hf
        exact ⟨e, pv, s, rfl, by rw [hv, hf.1, hf.2]⟩
  · rintro ⟨e, pv, s, he, hv⟩
    simp [he, hv]

/-- Total functions describing a fresh buffer. -/
theorem FreshBuffer.initOK {σ : Type} [Inhabited σ] {hp : Heap σ} {buffer : List HPtr}
    (hf : FreshBuffer hp buffer) :
    ∃ (E : HPtr → SHyperedge) (S : VPtr → σ) (PV : VPtr → Option PVertex),
      InitOK E S PV hp buffer ∧
      (∀ h, hp.edges h = some (E h) ∨ hp.edges h = none) ∧
      (∀ v sv, hp.verts v = some sv → sv.state = S v ∧ sv.pvertex = PV v) := by
  refine ⟨fun h => (hp.edges h).getD ⟨0, 0, 0⟩,
    fun v => match hp.verts v with | some sv => sv.state | none => default,
    fun v => match hp.verts v with | some sv => sv.pvertex | none => none, ?_, ?_, ?_⟩
  · intro h hh
    obtain ⟨e, pv, s, he, hv⟩ := (freshEdge_iff hp h).mp (hf.2 h hh)
    simp only [he, Option.getD_some, hv, and_self]
  · intro h
    cases he : hp.edges h <;> simp [he]
  · intro v sv hv
    simp only [hv, and_self]

theorem InitOK.headState {σ : Type} {E : HPtr → SHyperedge} {S : VPtr → σ}
    {PV : VPtr → Option PVertex} {hp0 : Heap σ} {buffer : List HPtr}
    (hi : InitOK E S PV hp0 buffer) {h : HPtr} (hh : h ∈ buffer) :
    hp0.headState h = some (S (E h).head) := by
  simp only [Heap.headState, (hi h hh).1, (hi h hh).2]

theorem InitOK.scoreOf {σ : Type} {E : HPtr → SHyperedge} {S : VPtr → σ}
    {PV : VPtr → Option PVertex} {hp0 : Heap σ} {buffer : List HPtr}
    (hi : InitOK E S PV hp0 buffer) {h : HPtr} (hh : h ∈ buffer) :
    hp0.scoreOf h = some (E h).score := by
  simp only [Heap.scoreOf, (hi h hh).1]

theorem InitOK.headsEquiv {σ : Type} (lt : σ → σ → Bool) {E : HPtr → SHyperedge} {S : VPtr → σ}
    {PV : VPtr → Option PVertex} {hp0 : Heap σ} {buffer : List HPtr}
    (hi : InitOK E S PV hp0 buffer) {h1 h2 : HPtr} (m1 : h1 ∈ buffer) (m2 : h2 ∈ buffer) :
    headsEquiv lt hp0 h1 h2 = equivState lt (S (E h1).head) (S (E h2).head) := by
  simp only [S2T.headsEquiv, hi.headState m1, hi.headState m2]

theorem InitOK.headStates {σ : Type} {E : HPtr → SHyperedge} {S : VPtr → σ}
    {PV : VPtr → Option PVertex} {hp0 : Heap σ} :
    ∀ {buffer : List HPtr}, InitOK E S PV hp0 buffer →
      S2T.headStates hp0 buffer = buffer.map (fun h => S (E h).head) := by
  intro buffer
  induction buffer with
  | nil => intro _; rfl
  | cons h t ih =>
    intro hi
    have h1 := hi.headState (List.mem_cons_self h t)
    have h2 := ih (fun x hx => hi x (List.mem_cons_of_mem _ hx))
    simp only [S2T.headStates] at h2 ⊢
    simp only [List.filterMap_cons, h1, h2, List.map_cons]

/-- Claim C1.  `RecombineAndSort` on a buffer of pairwise different hyperedges, each
arriving with its own fresh head vertex, returns; and any two buffer hyperedges with
equivalent heads end up with one and the same head vertex, which occurs exactly once in
the beam and whose best hyperedge carries the maximum score of the buffer hyperedges of
that equivalence class. -/
theorem recombine_merges_equivalent_heads {σ : Type} [Inhabited σ] (srt : StdSort)
    (lt : σ → σ → Bool) (hs : StrictWeak lt) (hp : Heap σ) (buffer : List HPtr)
    (hf : FreshBuffer hp buffer) :
    ∃ hp1 beam, RecombineAndSort srt lt hp buffer = some (hp1, beam) ∧
      ∀ h1 ∈ buffer, ∀ h2 ∈ buffer, headsEquiv lt hp h1 h2 = true →
        ∃ s m, hp1.headOf h1 = some s ∧ hp1.headOf h2 = some s ∧ beam.count s = 1 ∧
          bestScore hp1 s = some m ∧
          (∃ h ∈ buffer, headsEquiv lt hp h h1 = true ∧ hp.scoreOf h = some m) ∧
          (∀ h ∈ buffer, headsEquiv lt hp h h1 = true →
            ∃ x, hp.scoreOf h = some x ∧ x ≤ m) := by
  obtain ⟨E, S, PV, hi, -, -⟩ := hf.initOK
  obtain ⟨hp1, map, beam, hrun, inv, hperm, -⟩ := RecombineAndSort_inv srt hs hi hf.1
  refine ⟨hp1, beam, hrun, ?_⟩
  intro h1 m1 h2 m2 heq
  rw [hi.headsEquiv lt m1 m2] at heq
  obtain ⟨e1, he1, d1, q1⟩ := inv.done h1 m1
  obtain ⟨e2, he2, d2, q2⟩ := inv.done h2 m2
  have h12 : e1 = e2 :=
    sorted_equiv_eq S inv.sorted he1 he2
      (equivState_trans hs (equivState_trans hs (equivState_symm q1) heq) q2)
  subst h12
  obtain ⟨b, hb, hbs, hbq, hmax⟩ := inv.bestScore_key he1
  refine ⟨e1.1, (E b).score, by simp only [Heap.headOf, d1], by simp only [Heap.headOf, d2],
    ?_, hbs, ⟨b, hb, ?_, hi.scoreOf hb⟩, ?_⟩
  · rw [hperm.count_eq]
    exact List.count_eq_one_of_mem (inv.keys_nodup hs) (List.mem_map.mpr ⟨e1, he1, rfl⟩)
  · rw [hi.headsEquiv lt hb m1]
    exact equivState_trans hs hbq (equivState_symm q1)
  · intro h hh hq
    rw [hi.headsEquiv lt hh m1] at hq
    exact ⟨(E h).score, hi.scoreOf hh, hmax h hh (equivState_trans hs hq q1)⟩

/-- Claim C2.  After `RecombineAndSort` (orderer a strict weak ordering) no two entries
of the beam are equivalent under the orderer, and the length of the beam is the number of
equivalence classes among the heads of the buffer's hyperedges. -/
theorem recombine_one_vertex_per_class {σ : Type} [Inhabited σ] (srt : StdSort)
    (lt : σ → σ → Bool) (hs : StrictWeak lt) (hp : Heap σ) (buffer : List HPtr)
    (hf : FreshBuffer hp buffer) :
    ∃ hp1 beam, RecombineAndSort srt lt hp buffer = some (hp1, beam) ∧
      (∀ i j (hi : i < beam.length) (hj : j < beam.length), i ≠ j →
        InequivVerts lt hp1 beam[i] beam[j]) ∧
      beam.length = countClasses lt [] (headStates hp buffer) := by
  obtain ⟨E, S, PV, hi, -, -⟩ := hf.initOK
  obtain ⟨hp1, map, beam, hrun, inv, hperm, -⟩ := RecombineAndSort_inv srt hs hi hf.1
  refine ⟨hp1, beam, hrun, ?_, ?_⟩
  · have hnd : beam.Nodup := hperm.nodup_iff.mpr (inv.keys_nodup hs)
    intro i j hi1 hj1 hij
    have hne : beam[i] ≠ beam[j] := fun hc => hij ((List.Nodup.getElem_inj_iff hnd).mp hc)
    obtain ⟨e1, he1, k1⟩ := List.mem_map.mp (hperm.subset (List.getElem_mem hi1))
    obtain ⟨e2, he2, k2⟩ := List.mem_map.mp (hperm.subset (List.getElem_mem hj1))
    obtain ⟨_, _, _, _, v1, _⟩ := inv.vert e1 he1
    obtain ⟨_, _, _, _, w1, _⟩ := inv.vert e2 he2
    rw [← k1, ← k2]
    refine ⟨_, _, v1, w1, ?_⟩
    cases hc : equivState lt (S e1.1) (S e2.1)
    · rfl
    · have := sorted_equiv_eq S inv.sorted he1 he2 hc
      exact absurd (by rw [← k1, ← k2, this]) hne
  · rw [hperm.length_eq, List.length_map, inv.card, hi.headStates]

theorem demoLt_strictWeak : StrictWeak demoLt := by
  constructor
  · intro a; simp [demoLt]
  · intro a b c; simp only [demoLt, decide_eq_true_eq]; omega
  · intro a b c; simp only [demoLt, decide_eq_false_iff_not]; omega

/-- On the concrete buffer the hyperedges 10 and 11 are merged under vertex 0, which carries
the better score 9, and vertex 2 follows it in the beam. -/
theorem RecombineAndSort_demo :
    (RecombineAndSort demoSort demoLt demoHeap [10, 11, 12]).map
      (fun r => (r.2, bestScore r.1 0, bestScore r.1 2, r.1.headOf 10, r.1.headOf 11,
        r.1.headOf 12, (r.1.verts 1).isNone)) =
      some ([0, 2], some 9, some 4, some 0, some 0, some 2, true) := by
  rfl

/-- Witness of C1 on a concrete buffer of three hyperedges, two of them with equivalent
heads. -/
theorem recombine_merges_equivalent_heads_witness :
    StrictWeak demoLt ∧ FreshBuffer demoHeap [10, 11, 12] ∧
    ∃ hp1 beam, RecombineAndSort demoSort demoLt demoHeap [10, 11, 12] = some (hp1, beam) ∧
      ∀ h1 ∈ [10, 11, 12], ∀ h2 ∈ [10, 11, 12], headsEquiv demoLt demoHeap h1 h2 = true →
        ∃ s m, hp1.headOf h1 = some s ∧ hp1.headOf h2 = some s ∧ beam.count s = 1 ∧
          bestScore hp1 s = some m ∧
          (∃ h ∈ [10, 11, 12], headsEquiv demoLt demoHeap h h1 = true ∧
            demoHeap.scoreOf h = some m) ∧
          (∀ h ∈ [10, 11, 12], headsEquiv demoLt demoHeap h h1 = true →
            ∃ x, demoHeap.scoreOf h = some x ∧ x ≤ m) :=
  ⟨demoLt_strictWeak, ⟨by decide, by decide⟩,
    recombine_merges_equivalent_heads demoSort demoLt demoLt_strictWeak demoHeap [10, 11, 12]
      ⟨by decide, by decide⟩⟩

/-- Witness of C2 on the same buffer: two classes, a beam of two vertices. -/
theorem recombine_one_vertex_per_class_witness :
    StrictWeak demoLt ∧ FreshBuffer demoHeap [10, 11, 12] ∧
    countClasses demoLt [] (headStates demoHeap [10, 11, 12]) = 2 ∧
    ∃ hp1 beam, RecombineAndSort demoSort demoLt demoHeap [10, 11, 12] = some (hp1, beam) ∧
      (∀ i j (hi : i < beam.length) (hj : j < beam.length), i ≠ j →
        InequivVerts demoLt hp1 beam[i] beam[j]) ∧
      beam.length = countClasses demoLt [] (headStates demoHeap [10, 11, 12]) :=
  ⟨demoLt_strictWeak, ⟨by decide, by decide⟩, by decide,
    recombine_one_vertex_per_class demoSort demoLt demoLt_strictWeak demoHeap [10, 11, 12]
      ⟨by decide, by decide⟩⟩

theorem mem_spanOrder (n s e : Nat) : (s, e) ∈ spanOrder n ↔ s ≤ e ∧ e < n := by
  simp only [spanOrder, List.mem_flatMap, List.mem_reverse, List.mem_range, List.mem_map,
    List.mem_range'_1, Prod.mk.injEq]
  constructor
  · rintro ⟨a, ha, w, ⟨hw1, hw2⟩, rfl, rfl⟩
    omega
  · rintro ⟨h1, h2⟩
    exact ⟨s, by omega, e - s + 1, ⟨by omega, by omega⟩, rfl, by omega⟩

/-- The visiting order lists the spans by decreasing start and, for one start, by
increasing end. -/
theorem spanOrder_pairwise (n : Nat) :
    (spanOrder n).Pairwise (fun a b => b.1 < a.1 ∨ (a.1 = b.1 ∧ a.2 < b.2)) := by
  rw [spanOrder, List.pairwise_flatMap]
  constructor
  · intro a _
    rw [List.pairwise_map]
    refine (List.pairwise_lt_range' 1 (n - a)).imp_of_mem ?_
    intro x y hx _ hxy
    have hx1 : 1 ≤ x := (List.mem_range'_1.mp hx).1
    right
    exact ⟨rfl, by simp only; omega⟩
  · rw [List.pairwise_reverse]
    refine (List.pairwise_lt_range n).imp ?_
    intro a b hab x hx y hy
    left
    obtain ⟨_, _, rfl⟩ := List.mem_map.mp hx
    obtain ⟨_, _, rfl⟩ := List.mem_map.mp hy
    exact hab

theorem spanOrder_nodup (n : Nat) : (spanOrder n).Nodup := by
  refine (spanOrder_pairwise n).imp ?_
  intro a b hab hc
  subst hc
  omega

/-- Claim C7.  The nested loop of `Decode` visits every span `(start, end)` with
`start ≤ end < n`, visits no span twice and nothing else, and visits every strict sub-span of a
span before the span itself. -/
theorem spanOrder_complete_and_bottom_up (n : Nat) :
    (∀ s e, (s, e) ∈ spanOrder n ↔ s ≤ e ∧ e < n) ∧
    (spanOrder n).Nodup ∧
    (∀ s e s1 e1, e < n → s ≤ s1 → s1 ≤ e1 → e1 ≤ e → (s1, e1) ≠ (s, e) →
      ∃ i j : Nat, i < j ∧ (spanOrder n)[i]? = some (s1, e1) ∧ (spanOrder n)[j]? = some (s, e)) := by
  have hpw := spanOrder_pairwise n
  refine ⟨mem_spanOrder n, spanOrder_nodup n, ?_⟩
  · intro s e s1 e1 he hs hs1 he1 hne
    have m1 : (s1, e1) ∈ spanOrder n := (mem_spanOrder n s1 e1).mpr ⟨hs1, by omega⟩
    have m2 : (s, e) ∈ spanOrder n := (mem_spanOrder n s e).mpr ⟨by omega, he⟩
    obtain ⟨i, hi, gi⟩ := List.getElem_of_mem m1
    obtain ⟨j, hj, gj⟩ := List.getElem_of_mem m2
    refine ⟨i, j, ?_, by rw [List.getElem?_eq_getElem hi, gi],
      by rw [List.getElem?_eq_getElem hj, gj]⟩
    rcases Nat.lt_trichotomy i j with h | h | h
    · exact h
    · subst h
      rw [gi] at gj
      exact absurd gj hne
    · have := List.pairwise_iff_getElem.mp hpw j i hj hi h
      rw [gi, gj] at this
      simp only at this
      have hne2 : ¬ (s1 = s ∧ e1 = e) := fun hc => hne (by rw [hc.1, hc.2])
      omega

theorem distinctLoop_eq {δ : Type} (out : δ → List Word) (k : Nat) :
    ∀ (rest earlier kBest : List δ) (distinct : List (List Word)),
      (∀ p, p ∈ distinct ↔ ∃ e ∈ earlier, out e = p) →
      distinctLoop out k rest kBest distinct =
        kBest ++ (firstOccurrencesFrom out earlier rest).take (k - kBest.length) := by
  intro rest
  induction rest with
  | nil => intro earlier kBest distinct _; simp [distinctLoop, firstOccurrencesFrom]
  | cons d rest ih =>
    intro earlier kBest distinct hd
    have hany : earlier.any (fun e => decide (out e = out d)) = true ↔ out d ∈ distinct := by
      rw [hd, List.any_eq_true]
      simp only [decide_eq_true_eq]
    simp only [distinctLoop, firstOccurrencesFrom]
    by_cases hk : kBest.length < k
    · rw [if_pos hk]
      by_cases hin : out d ∈ distinct
      · rw [if_pos hin, if_pos (hany.mpr hin)]
        refine ih (earlier ++ [d]) kBest distinct ?_
        intro p
        rw [hd]
        constructor
        · rintro ⟨e, he, rfl⟩
          exact ⟨e, by simp [he], rfl⟩
        · rintro ⟨e, he, rfl⟩
          rcases List.mem_append.mp he with he | he
          · exact ⟨e, he, rfl⟩
          · have : e = d := by simpa using he
            rw [this]
            exact (hd _).mp hin
      · rw [if_neg hin, if_neg (fun hc => hin (hany.mp hc))]
        rw [ih (earlier ++ [d]) (kBest ++ [d]) (out d :: distinct) ?_]
        · have : k - kBest.length = (k - (kBest ++ [d]).length) + 1 := by
            simp only [List.length_append, List.length_singleton]; omega
          rw [this, List.take_succ_cons]
          simp
        · intro p
          simp only [List.mem_cons, List.mem_append, List.not_mem_nil, or_false, hd]
          constructor
          · rintro (rfl | ⟨e, he, rfl⟩)
            · exact ⟨d, Or.inr rfl, rfl⟩
            · exact ⟨e, Or.inl he, rfl⟩
          · rintro ⟨e, he | he, rfl⟩
            · exact Or.inr ⟨e, he, rfl⟩
            · rw [he]; exact Or.inl rfl
    · rw [if_neg hk]
      have : k - kBest.length = 0 := by omega
      rw [this]
      simp

theorem firstOccurrencesFrom_sublist {δ : Type} (out : δ → List Word) :
    ∀ (rest earlier : List δ), (firstOccurrencesFrom out earlier rest).Sublist rest := by
  intro rest
  induction rest with
  | nil => intro _; exact List.Sublist.slnil
  | cons d rest ih =>
    intro earlier
    simp only [firstOccurrencesFrom]
    split
    · exact (ih _).cons d
    · exact (ih _).cons₂ d

theorem firstOccurrencesFrom_fresh {δ : Type} (out : δ → List Word) :
    ∀ (rest earlier : List δ), ∀ x ∈ firstOccurrencesFrom out earlier rest,
      ∀ e ∈ earlier, out e ≠ out x := by
  intro rest
  induction rest with
  | nil => intro earlier x hx; cases hx
  | cons d rest ih =>
    intro earlier x hx e he
    simp only [firstOccurrencesFrom] at hx
    split at hx
    · exact ih _ x hx e (by simp [he])
    · rename_i hany
      rcases List.mem_cons.mp hx with rfl | hx
      · intro hc
        apply hany
        rw [List.any_eq_true]
        exact ⟨e, he, by simp [hc]⟩
      · exact ih _ x hx e (by simp [he])

theorem firstOccurrencesFrom_distinct {δ : Type} (out : δ → List Word) :
    ∀ (rest earlier : List δ),
      (firstOccurrencesFrom out earlier rest).Pairwise (fun a b => out a ≠ out b) := by
  intro rest
  induction rest with
  | nil => intro _; exact List.Pairwise.nil
  | cons d rest ih =>
    intro earlier
    simp only [firstOccurrencesFrom]
    split
    · exact ih _
    · rw [List.pairwise_cons]
      refine ⟨?_, ih _⟩
      intro x hx
      exact firstOccurrencesFrom_fresh out rest (earlier ++ [d]) x hx d (by simp)

theorem ExtractKBest_distinct_eq {σ δ : Type} (sd : StaticData)
    (Extract : List VPtr → Nat → List δ) (out : δ → List Word) (m : Manager σ)
    (source : List Word) (k : Nat) (cell : SCell) (c : Word) (beam : List VPtr)
    (hn : source ≠ []) (hcell : getCell m.schart 0 (source.length - 1) = some cell)
    (hbeams : cell.nonTerminalBeams = [(c, beam)]) :
    ExtractKBest sd Extract out m source k true =
      some ((firstOccurrences out (Extract beam (numDerivations sd.nBestFactor k))).take k) := by
  have hlen : source.length ≠ 0 := fun hc => hn (List.length_eq_zero.mp hc)
  by_cases hk : k = 0
  · subst hk
    simp [ExtractKBest]
  · simp only [ExtractKBest, hk, hlen, or_self, if_false, hcell, hbeams, List.length_singleton,
      one_ne_zero, ne_eq, not_true_eq_false, Bool.not_true, Bool.false_eq_true]
    rw [distinctLoop_eq out k _ [] [] [] (by simp)]
    simp [firstOccurrences]

/-- Claim C8.  With `onlyDistinct = true` and an extractor whose lists are sorted by
non-increasing score, the list `ExtractKBest` returns has at most `k` entries, no two
entries with the same output phrase, and is sorted by non-increasing score. -/
theorem ExtractKBest_distinct_sorted_bounded {σ δ : Type} (sd : StaticData)
    (Extract : List VPtr → Nat → List δ) (out : δ → List Word) (score : δ → Int)
    (m : Manager σ) (source : List Word) (k : Nat) (kBestList : List δ)
    (hsorted : ∀ beam, (Extract beam (numDerivations sd.nBestFactor k)).Pairwise
      (fun a b => score b ≤ score a))
    (hrun : ExtractKBest sd Extract out m source k true = some kBestList) :
    kBestList.length ≤ k ∧
    (∀ i j (hi : i < kBestList.length) (hj : j < kBestList.length), i ≠ j →
      out kBestList[i] ≠ out kBestList[j]) ∧
    (∀ i j (hi : i < kBestList.length) (hj : j < kBestList.length), i < j →
      score kBestList[j] ≤ score kBestList[i]) := by
  have key : kBestList = [] ∨ ∃ beam, kBestList =
      (firstOccurrences out (Extract beam (numDerivations sd.nBestFactor k))).take k := by
    unfold ExtractKBest at hrun
    split at hrun
    · left; exact (Option.some.inj hrun).symm
    · split at hrun
      · cases hrun
      · split at hrun
        · left; exact (Option.some.inj hrun).symm
        · split at hrun
          · cases hrun
          · split at hrun
            · cases hrun
            · rename_i beam _ _
              simp only [Bool.not_true, Bool.false_eq_true, if_false, Option.some.injEq] at hrun
              right
              refine ⟨beam, ?_⟩
              rw [← hrun, distinctLoop_eq out k _ [] [] [] (by simp)]
              simp [firstOccurrences]
  rcases key with rfl | ⟨beam, rfl⟩
  · refine ⟨Nat.zero_le _, ?_, ?_⟩ <;> intro i j hi <;> cases hi
  · have hsub : ((firstOccurrences out (Extract beam (numDerivations sd.nBestFactor k))).take
        k).Sublist (Extract beam (numDerivations sd.nBestFactor k)) :=
      (List.take_sublist _ _).trans (firstOccurrencesFrom_sublist out _ [])
    have hd : ((firstOccurrences out (Extract beam (numDerivations sd.nBestFactor k))).take
        k).Pairwise (fun a b => out a ≠ out b) :=
      (firstOccurrencesFrom_distinct out _ []).sublist (List.take_sublist _ _)
    have hs := (hsorted beam).sublist hsub
    refine ⟨?_, ?_, ?_⟩
    · rw [List.length_take]; exact Nat.min_le_left _ _
    · intro i j hi hj hij
      rcases Nat.lt_or_gt_of_ne hij with h | h
      · exact List.pairwise_iff_getElem.mp hd i j hi hj h
      · exact (List.pairwise_iff_getElem.mp hd j i hj hi h).symm
    · intro i j hi hj hij
      exact List.pairwise_iff_getElem.mp hs i j hi hj hij

/-- Witness of C8: five derivations, three of them with the same output, `k = 2`. -/
theorem ExtractKBest_distinct_sorted_bounded_witness :
    ExtractKBest demoStaticData demoExtract Prod.snd demoManager [7] 2 true =
      some [(9, [1, 2]), (7, [3])] ∧
    ([(9, [1, 2]), (7, [3])] : List (Int × List Word)).length ≤ 2 ∧
    (∀ i j (hi : i < ([(9, [1, 2]), (7, [3])] : List (Int × List Word)).length)
      (hj : j < ([(9, [1, 2]), (7, [3])] : List (Int × List Word)).length), i ≠ j →
      ([(9, [1, 2]), (7, [3])] : List (Int × List Word))[i].2 ≠
        ([(9, [1, 2]), (7, [3])] : List (Int × List Word))[j].2) ∧
    (∀ i j (hi : i < ([(9, [1, 2]), (7, [3])] : List (Int × List Word)).length)
      (hj : j < ([(9, [1, 2]), (7, [3])] : List (Int × List Word)).length), i < j →
      ([(9, [1, 2]), (7, [3])] : List (Int × List Word))[j].1 ≤
        ([(9, [1, 2]), (7, [3])] : List (Int × List Word))[i].1) :=
  ⟨by decide,
    ExtractKBest_distinct_sorted_bounded demoStaticData demoExtract Prod.snd Prod.fst
      demoManager [7] 2 [(9, [1, 2]), (7, [3])]
      (fun _ => List.Pairwise.sublist (List.take_sublist _ demoDerivations) (by decide))
      (by decide)⟩

/-- Claim C9.  With `onlyDistinct = true`, a non-empty sentence and a top cell holding one
beam, `ExtractKBest` returns the first `k` elements of the first-occurrence de-duplication
of the oversampled list, in the order of that list. -/
theorem ExtractKBest_distinct_first_occurrences {σ δ : Type} (sd : StaticData)
    (Extract : List VPtr → Nat → List δ) (out : δ → List Word) (m : Manager σ)
    (source : List Word) (k : Nat) (cell : SCell) (c : Word) (beam : List VPtr)
    (hn : source ≠ []) (hcell : getCell m.schart 0 (source.length - 1) = some cell)
    (hbeams : cell.nonTerminalBeams = [(c, beam)]) :
    ExtractKBest sd Extract out m source k true =
      some ((firstOccurrences out (Extract beam (numDerivations sd.nBestFactor k))).take k) ∧
    ((firstOccurrences out (Extract beam (numDerivations sd.nBestFactor k))).take k).Sublist
      (Extract beam (numDerivations sd.nBestFactor k)) :=
  ⟨ExtractKBest_distinct_eq sd Extract out m source k cell c beam hn hcell hbeams,
    (List.take_sublist _ _).trans (firstOccurrencesFrom_sublist out _ [])⟩

/-- Witness of C9 on the example chart and extractor. -/
theorem ExtractKBest_distinct_first_occurrences_witness :
    ([7] : List Word) ≠ [] ∧
    getCell demoManager.schart 0 (([7] : List Word).length - 1) = some ⟨[], [(1, [0, 2])]⟩ ∧
    firstOccurrences Prod.snd demoDerivations = [(9, [1, 2]), (7, [3]), (4, [4])] ∧
    ExtractKBest demoStaticData demoExtract Prod.snd demoManager [7] 2 true =
      some ((firstOccurrences Prod.snd
        (demoExtract [0, 2] (numDerivations demoStaticData.nBestFactor 2))).take 2) ∧
    ((firstOccurrences Prod.snd
        (demoExtract [0, 2] (numDerivations demoStaticData.nBestFactor 2))).take 2).Sublist
      (demoExtract [0, 2] (numDerivations demoStaticData.nBestFactor 2)) :=
  ⟨by decide, by decide, by decide,
    ExtractKBest_distinct_first_occurrences demoStaticData demoExtract Prod.snd demoManager
      [7] 2 ⟨[], [(1, [0, 2])]⟩ 1 [0, 2] (by decide) (by decide) rfl⟩

theorem CubeItem.create_some {σ : Type} (it : CubeItem σ) (hp hp1 : Heap σ)
    (h : it.create hp = some hp1) :
    hp.edges it.ptr = none ∧ hp.verts it.head = none ∧
    hp1 = (hp.setEdge it.ptr (some ⟨it.head, it.score, it.lhs⟩)).setVert it.head
      (some ⟨some it.ptr, [], none, it.state⟩) := by
  unfold CubeItem.create at h
  split at h
  · rename_i hc
    simp only [Bool.and_eq_true, Option.isNone_iff_eq_none] at hc
    exact ⟨hc.1, hc.2, (Option.some.inj h).symm⟩
  · cases h

theorem popLoop_spec {σ : Type} (popLimit : Nat) (range : Nat × Nat) :
    ∀ (q : CubeQueue σ) (count : Nat) (hp : Heap σ) (pcell : PCell)
      (buffers : List (Word × List HPtr)) (ps : PopState σ),
      popLoop popLimit range q count hp pcell buffers = some ps →
      ps.queue = q.drop (popLimit - count) ∧
      ps.count = count + (q.take (popLimit - count)).length ∧
      ps.buffers = (q.take (popLimit - count)).foldl
        (fun b it => bufferPush b it.lhs it.ptr) buffers ∧
      PopHeap hp (q.take (popLimit - count)) ps.heap := by
  intro q
  induction q with
  | nil =>
    intro count hp pcell buffers ps h
    simp only [popLoop, Option.some.injEq] at h
    subst h
    refine ⟨by simp, by simp, by simp, ?_⟩
    simp only [List.take_nil]
    exact ⟨fun it hit => (List.not_mem_nil it hit).elim, List.nodup_nil, List.nodup_nil,
      fun it hit => (List.not_mem_nil it hit).elim, fun _ _ => rfl, fun _ _ => rfl⟩
  | cons it rest ih =>
    intro count hp pcell buffers ps h
    simp only [popLoop] at h
    by_cases hc : count < popLimit
    · rw [if_pos hc] at h
      cases hcr : it.create hp with
      | none => simp [hcr] at h
      | some hp1 =>
        obtain ⟨f1, f2, rfl⟩ := CubeItem.create_some it hp hp1 hcr
        simp only [hcr, Heap.setVert_edges, Heap.setEdge_edges, if_true, Heap.setVert_verts] at h
        obtain ⟨i1, i2, i3, i4⟩ := ih _ _ _ _ ps h
        have hk : popLimit - count = (popLimit - (count + 1)) + 1 := by omega
        rw [hk, List.take_succ_cons, List.drop_succ_cons]
        have hrestE : ∀ x ∈ rest.take (popLimit - (count + 1)), x.ptr ≠ it.ptr := by
          intro x hx hcx
          have := (i4.free x hx).1
          simp [Heap.setVert_edges, Heap.setEdge_edges, hcx] at this
        have hrestV : ∀ x ∈ rest.take (popLimit - (count + 1)), x.head ≠ it.head := by
          intro x hx hcx
          have := (i4.free x hx).2
          simp [Heap.setVert_verts, hcx] at this
        refine ⟨i1, by rw [i2]; simp only [List.length_cons]; omega, by rw [i3]; rfl, ?_⟩
        refine ⟨?_, ?_, ?_, ?_, ?_, ?_⟩
        · intro x hx
          rcases List.mem_cons.mp hx with rfl | hx
          · exact ⟨f1, f2⟩
          · have := i4.free x hx
            simp only [Heap.setVert_edges, Heap.setEdge_edges, Heap.setVert_verts,
              Heap.setEdge_verts, if_neg (hrestE x hx), if_neg (hrestV x hx)] at this
            exact this
        · rw [List.map_cons, List.nodup_cons]
          refine ⟨?_, i4.ptrs⟩
          intro hm
          obtain ⟨x, hx, hxe⟩ := List.mem_map.mp hm
          exact hrestE x hx hxe
        · rw [List.map_cons, List.nodup_cons]
          refine ⟨?_, i4.heads⟩
          intro hm
          obtain ⟨x, hx, hxe⟩ := List.mem_map.mp hm
          exact hrestV x hx hxe
        · intro x hx
          rcases List.mem_cons.mp hx with rfl | hx
          · constructor
            · rw [i4.frameE _ (fun y hy => (hrestE y hy).symm)]
              simp [Heap.setVert_edges, Heap.setEdge_edges]
            · rw [i4.frameV _ (fun y hy => (hrestV y hy).symm)]
              exact ⟨(NMapInsert pcell.nonTerminalVertices x.lhs ⟨range, x.lhs⟩).2,
                by simp [Heap.setVert_verts]⟩
          · exact i4.objs x hx
        · intro p hp2
          rw [i4.frameE p (fun y hy => hp2 y (List.mem_cons_of_mem _ hy))]
          simp only [Heap.setVert_edges, Heap.setEdge_edges,
            if_neg (hp2 it (List.mem_cons_self _ _))]
        · intro v hv
          rw [i4.frameV v (fun y hy => hv y (List.mem_cons_of_mem _ hy))]
          simp only [Heap.setVert_verts, Heap.setEdge_verts,
            if_neg (hv it (List.mem_cons_self _ _))]
    · rw [if_neg hc] at h
      simp only [Option.some.injEq] at h
      subst h
      have hk : popLimit - count = 0 := by omega
      rw [hk]
      refine ⟨by simp, by simp, by simp, ?_⟩
      simp only [List.take_zero]
      exact ⟨fun it hit => (List.not_mem_nil it hit).elim, List.nodup_nil, List.nodup_nil,
        fun it hit => (List.not_mem_nil it hit).elim, fun _ _ => rfl, fun _ _ => rfl⟩

theorem bufferPush_keys (c : Word) (h : HPtr) :
    ∀ bufs : List (Word × List HPtr), (bufferPush bufs c h).map Prod.fst =
      if c ∈ bufs.map Prod.fst then bufs.map Prod.fst else bufs.map Prod.fst ++ [c] := by
  intro bufs
  induction bufs with
  | nil => simp [bufferPush]
  | cons kb rest ih =>
    obtain ⟨k, b⟩ := kb
    simp only [bufferPush]
    by_cases hk : k = c
    · simp [hk]
    · have hck : ¬ c = k := fun hc => hk hc.symm
      simp only [hk, if_false, List.map_cons, ih, List.mem_cons, hck, false_or]
      split <;> simp

theorem mem_bufferPush (c : Word) (h : HPtr) :
    ∀ bufs : List (Word × List HPtr), (bufs.map Prod.fst).Nodup →
      ∀ x ∈ bufferPush bufs c h,
        (x ∈ bufs ∧ x.1 ≠ c) ∨ (x.1 = c ∧ ∃ b, (c, b) ∈ bufs ∧ x.2 = b ++ [h]) ∨
        (x.1 = c ∧ c ∉ bufs.map Prod.fst ∧ x.2 = [h]) := by
  intro bufs
  induction bufs with
  | nil =>
    intro _ x hx
    simp only [bufferPush, List.mem_singleton] at hx
    subst hx
    right; right
    simp
  | cons kb rest ih =>
    obtain ⟨k, b⟩ := kb
    intro hnd x hx
    rw [List.map_cons, List.nodup_cons] at hnd
    simp only [bufferPush] at hx
    by_cases hk : k = c
    · rw [if_pos hk] at hx
      rcases List.mem_cons.mp hx with rfl | hx
      · right; left
        exact ⟨hk, b, by simp [hk], rfl⟩
      · left
        refine ⟨List.mem_cons_of_mem _ hx, ?_⟩
        intro hc
        apply hnd.1
        rw [hk, ← hc]
        exact List.mem_map.mpr ⟨x, hx, rfl⟩
    · rw [if_neg hk] at hx
      rcases List.mem_cons.mp hx with rfl | hx
      · left; exact ⟨List.mem_cons_self _ _, hk⟩
      · rcases ih hnd.2 x hx with ⟨h1, h2⟩ | ⟨h1, b', h2, h3⟩ | ⟨h1, h2, h3⟩
        · left; exact ⟨List.mem_cons_of_mem _ h1, h2⟩
        · right; left; exact ⟨h1, b', List.mem_cons_of_mem _ h2, h3⟩
        · right; right
          refine ⟨h1, ?_, h3⟩
          simp only [List.map_cons, List.mem_cons, not_or]
          exact ⟨fun hc => hk hc.symm, h2⟩

theorem bufferPush_flatMap (c : Word) (h : HPtr) :
    ∀ bufs : List (Word × List HPtr),
      ((bufferPush bufs c h).flatMap Prod.snd).Perm (bufs.flatMap Prod.snd ++ [h]) := by
  intro bufs
  induction bufs with
  | nil => simp [bufferPush]
  | cons kb rest ih =>
    obtain ⟨k, b⟩ := kb
    simp only [bufferPush]
    by_cases hk : k = c
    · simp only [hk, if_true, List.flatMap_cons, List.append_assoc]
      exact List.Perm.append_left b List.perm_append_comm
    · simp only [hk, if_false, List.flatMap_cons, List.append_assoc]
      exact List.Perm.append_left b ih

theorem bufferOf_snoc {σ : Type} (c : Word) (L : List (CubeItem σ)) (it : CubeItem σ) :
    bufferOf c (L ++ [it]) = bufferOf c L ++ (if it.lhs = c then [it.ptr] else []) := by
  simp only [bufferOf, List.filter_append, List.map_append]
  congr 1
  by_cases h : it.lhs = c <;> simp [List.filter, h]

theorem BufWF.push {σ : Type} {bufs : List (Word × List HPtr)} {L : List (CubeItem σ)}
    (w : BufWF bufs L) (it : CubeItem σ) :
    BufWF (bufferPush bufs it.lhs it.ptr) (L ++ [it]) := by
  refine ⟨?_, ?_, ?_⟩
  · rw [bufferPush_keys]
    split
    · exact w.keys
    · rename_i hc
      rw [List.nodup_append]
      refine ⟨w.keys, by simp, ?_⟩
      intro a ha hb
      have : a = it.lhs := by simpa using hb
      exact hc (this ▸ ha)
  · intro x hx
    rw [bufferOf_snoc]
    rcases mem_bufferPush it.lhs it.ptr bufs w.keys x hx with ⟨h1, h2⟩ | ⟨h1, b, h2, h3⟩ |
      ⟨h1, h2, h3⟩
    · rw [if_neg (fun hc => h2 hc.symm), List.append_nil]
      exact w.group x h1
    · rw [if_pos h1.symm, h3]
      have := (w.group (it.lhs, b) h2).1
      simp only at this
      rw [this, h1]
      exact ⟨rfl, by simp⟩
    · rw [if_pos h1.symm, h3]
      have hnil : bufferOf x.1 L = [] := by
        simp only [bufferOf, List.map_eq_nil_iff, List.filter_eq_nil_iff, decide_eq_true_eq]
        intro y hy hc
        apply h2
        rw [← h1, ← hc]
        exact w.cover y hy
      rw [hnil]
      exact ⟨rfl, by simp⟩
  · intro y hy
    rw [bufferPush_keys]
    rcases List.mem_append.mp hy with hy | hy
    · have := w.cover y hy
      split
      · exact this
      · exact List.mem_append_left _ this
    · have : y = it := by simpa using hy
      rw [this]
      split
      · assumption
      · simp

theorem BufWF.foldl {σ : Type} :
    ∀ (popped L : List (CubeItem σ)) (bufs : List (Word × List HPtr)), BufWF bufs L →
      BufWF (popped.foldl (fun b it => bufferPush b it.lhs it.ptr) bufs) (L ++ popped) := by
  intro popped
  induction popped with
  | nil => intro L bufs w; simpa using w
  | cons it rest ih =>
    intro L bufs w
    have := ih (L ++ [it]) _ (w.push it)
    simpa using this

theorem foldl_bufferPush_flatMap {σ : Type} :
    ∀ (popped : List (CubeItem σ)) (bufs : List (Word × List HPtr)),
      ((popped.foldl (fun b it => bufferPush b it.lhs it.ptr) bufs).flatMap Prod.snd).Perm
        (bufs.flatMap Prod.snd ++ popped.map (fun it => it.ptr)) := by
  intro popped
  induction popped with
  | nil => intro bufs; simp
  | cons it rest ih =>
    intro bufs
    refine (ih _).trans ?_
    simp only [List.map_cons]
    refine ((bufferPush_flatMap it.lhs it.ptr bufs).append_right _).trans ?_
    simp

theorem RInv.bestScore_congr {σ : Type} {lt : σ → σ → Bool}
    {E : HPtr → SHyperedge} {S : VPtr → σ}
    {PV : VPtr → Option PVertex} {hp0 : Heap σ} {P : List HPtr} {hp : Heap σ}
    {map : List (VPtr × VPtr)} (inv : RInv lt E S PV hp0 P hp map) (hp1 : Heap σ)
    (hE : ∀ h ∈ P, hp1.edges h = hp.edges h)
    (hV : ∀ h ∈ P, hp1.verts (E h).head = hp.verts (E h).head)
    {e : VPtr × VPtr} (he : e ∈ map) : bestScore hp1 e.1 = bestScore hp e.1 := by
  obtain ⟨b, rec, A, B, v1, v2, v3, -⟩ := inv.vert e he
  obtain ⟨_, h, hh, k2⟩ := inv.keys e he
  have hb : b ∈ P := by rw [v2]; simp
  have e1 : hp1.verts e.1 = hp.verts e.1 := by rw [k2]; exact hV h hh
  simp only [bestScore, e1, v1, hE b hb]

theorem RInv.rebase {σ : Type} {lt : σ → σ → Bool}
    {E : HPtr → SHyperedge} {S : VPtr → σ}
    {PV : VPtr → Option PVertex} {hp0 : Heap σ} {P : List HPtr} {hp : Heap σ}
    {map : List (VPtr × VPtr)} (inv : RInv lt E S PV hp0 P hp map) (hp1 : Heap σ)
    (hE : ∀ h ∈ P, hp1.edges h = hp.edges h)
    (hV : ∀ h ∈ P, hp1.verts (E h).head = hp.verts (E h).head) :
    RInv lt E S PV hp1 P hp1 map := by
  have hkey : ∀ e ∈ map, hp1.verts e.1 = hp.verts e.1 := by
    intro e he
    obtain ⟨_, h, hh, k2⟩ := inv.keys e he
    rw [k2]; exact hV h hh
  refine ⟨inv.sorted, inv.keys, ?_, ?_, ?_, fun _ _ => rfl, fun _ _ => rfl, inv.card⟩
  · intro e he
    obtain ⟨b, rec, A, B, v1, v2, v3, v4, v5, v6, v7⟩ := inv.vert e he
    have hb : b ∈ P := by rw [v2]; simp
    refine ⟨b, rec, A, B, by rw [hkey e he]; exact v1, v2, by rw [hE b hb]; exact v3, v4, v5,
      v6, ?_⟩
    intro r hr
    obtain ⟨r1, r2, r3⟩ := v7 r hr
    exact ⟨r1, by rw [hE r r1]; exact r2, r3⟩
  · intro h hh
    obtain ⟨e, he, d1, d2⟩ := inv.done h hh
    exact ⟨e, he, by rw [hE h hh]; exact d1, d2⟩
  · intro h hh hk
    rw [hV h hh]
    exact inv.dead h hh hk

theorem NMapFind_none {α : Type} (c : Word) :
    ∀ m : List (Word × α), c ∉ m.map Prod.fst → NMapFind m c = none := by
  intro m
  induction m with
  | nil => intro _; rfl
  | cons kv rest ih =>
    obtain ⟨k, v⟩ := kv
    intro h
    simp only [List.map_cons, List.mem_cons, not_or] at h
    have hkc : ¬ k = c := fun hc => h.1 hc.symm
    simp only [NMapFind, if_neg hkc]
    exact ih h.2

theorem NMapAssign_fresh {α : Type} (c : Word) (v : α) :
    ∀ m : List (Word × α), c ∉ m.map Prod.fst → NMapAssign m c v = m := by
  intro m
  induction m with
  | nil => intro _; rfl
  | cons kv rest ih =>
    intro h
    simp only [List.map_cons, List.mem_cons, not_or] at h
    have := ih h.2
    have hkc : ¬ kv.1 = c := fun hc => h.1 hc.symm
    simp only [NMapAssign] at this ⊢
    rw [List.map_cons, this, if_neg hkc]

theorem recombineAll_spec {σ : Type} (srt : StdSort) {lt : σ → σ → Bool}
    (hs : StrictWeak lt) {E : HPtr → SHyperedge} {S : VPtr → σ}
    {PV : VPtr → Option PVertex} :
    ∀ (bufs : List (Word × List HPtr)) (hp : Heap σ) (beams0 : List (Word × List VPtr)),
      InitOK E S PV hp (bufs.flatMap Prod.snd) → (bufs.flatMap Prod.snd).Nodup →
      (bufs.map Prod.fst).Nodup → (∀ c ∈ bufs.map Prod.fst, c ∉ beams0.map Prod.fst) →
      ∃ hp1 news, recombineAll srt lt bufs hp beams0 = some (hp1, beams0 ++ news) ∧
        List.Forall₂ (CatDone lt E S PV hp1) bufs news ∧
        (∀ h, h ∉ bufs.flatMap Prod.snd → hp1.edges h = hp.edges h) ∧
        (∀ p, (∀ h ∈ bufs.flatMap Prod.snd, p ≠ (E h).head) → hp1.verts p = hp.verts p) := by
  intro bufs
  induction bufs with
  | nil =>
    intro hp beams0 _ _ _ _
    exact ⟨hp, [], by simp [recombineAll], List.Forall₂.nil, fun _ _ => rfl, fun _ _ => rfl⟩
  | cons cb rest ih =>
    obtain ⟨c, buf⟩ := cb
    intro hp beams0 hi hnd hk hdis
    simp only [List.flatMap_cons] at hi hnd
    rw [List.map_cons, List.nodup_cons] at hk
    have hndp := List.nodup_append.mp hnd
    have hibuf : InitOK E S PV hp buf := fun h hh => hi h (List.mem_append_left _ hh)
    obtain ⟨hp1, map, beam, hrun, inv, hperm, hsorted⟩ :=
      RecombineAndSort_inv srt hs hibuf hndp.1
    have hcf : c ∉ beams0.map Prod.fst := hdis c (by simp)
    have hirest : InitOK E S PV hp1 (rest.flatMap Prod.snd) := by
      intro h hh
      have hnb : h ∉ buf := fun hc => hndp.2.2 hc hh
      have hhd : ∀ h' ∈ buf, (E h).head ≠ (E h').head := by
        intro h' hh' hc
        have := hi.head_inj (List.mem_append_right _ hh) (List.mem_append_left _ hh') hc
        exact hnb (this ▸ hh')
      rw [inv.frameE h hnb, inv.frameV _ hhd]
      exact hi h (List.mem_append_right _ hh)
    have hdis1 : ∀ c' ∈ rest.map Prod.fst, c' ∉ (beams0 ++ [(c, beam)]).map Prod.fst := by
      intro c' hc'
      simp only [List.map_append, List.map_cons, List.map_nil, List.mem_append,
        List.mem_singleton, not_or]
      exact ⟨hdis c' (by simp [hc']), fun hc => hk.1 (hc ▸ hc')⟩
    obtain ⟨hp2, news, hrun2, hF, fE, fV⟩ :=
      ih hp1 (beams0 ++ [(c, beam)]) hirest hndp.2.1 hk.2 hdis1
    have hEagree : ∀ h ∈ buf, hp2.edges h = hp1.edges h :=
      fun h hh => fE h (fun hc => hndp.2.2 hh hc)
    have hVagree : ∀ h ∈ buf, hp2.verts (E h).head = hp1.verts (E h).head := by
      intro h hh
      refine fV _ ?_
      intro h' hh' hc
      have := hi.head_inj (List.mem_append_left _ hh) (List.mem_append_right _ hh') hc
      exact hndp.2.2 hh (this ▸ hh')
    refine ⟨hp2, (c, beam) :: news, ?_, ?_, ?_, ?_⟩
    · simp only [recombineAll, NMapFind_none c beams0 hcf, NMapInsert, hrun]
      have : NMapAssign (beams0 ++ [(c, ([] : List VPtr))]) c beam = beams0 ++ [(c, beam)] := by
        simp only [NMapAssign, List.map_append, List.map_cons, List.map_nil, if_true]
        have := NMapAssign_fresh c beam beams0 hcf
        simp only [NMapAssign] at this
        rw [this]
      rw [this, hrun2]
      simp
    · refine List.Forall₂.cons ⟨rfl, map, inv.rebase hp2 hEagree hVagree, hperm, ?_⟩ hF
      refine hsorted.imp_of_mem ?_
      intro a b ha hb hab
      obtain ⟨ea, hea, rfl⟩ := List.mem_map.mp (hperm.subset ha)
      obtain ⟨eb, heb, rfl⟩ := List.mem_map.mp (hperm.subset hb)
      obtain ⟨sx, sy, h1, h2, h3⟩ := hab
      exact ⟨sx, sy, by rw [inv.bestScore_congr hp2 hEagree hVagree hea]; exact h1,
        by rw [inv.bestScore_congr hp2 hEagree hVagree heb]; exact h2, h3⟩
    · intro h hh
      simp only [List.flatMap_cons, List.mem_append, not_or] at hh
      rw [fE h hh.2, inv.frameE h hh.1]
    · intro p hp3
      simp only [List.flatMap_cons, List.mem_append] at hp3
      rw [fV p (fun h hh => hp3 h (Or.inr hh)), inv.frameV p (fun h hh => hp3 h (Or.inl hh))]

theorem getCell_setCell_same {α : Type} (cells : List (List α)) (i j : Nat) (x y : α)
    (h : getCell cells i j = some y) : getCell (setCell cells i j x) i j = some x := by
  unfold getCell at h
  cases hr : cells[i]? with
  | none => simp [hr] at h
  | some row =>
    simp only [hr] at h
    have hi : i < cells.length := by
      by_contra hc
      rw [List.getElem?_eq_none (by omega)] at hr
      cases hr
    have hj : j < row.length := by
      by_contra hc
      rw [List.getElem?_eq_none (by omega)] at h
      cases h
    simp only [getCell, setCell, hr, List.getElem?_set, if_true, hi, hj]

theorem getCell_setCell_ne {α : Type} (cells : List (List α)) (i j i1 j1 : Nat) (x : α)
    (h : (i, j) ≠ (i1, j1)) : getCell (setCell cells i j x) i1 j1 = getCell cells i1 j1 := by
  unfold setCell
  cases hr : cells[i]? with
  | none => rfl
  | some row =>
    simp only [getCell, List.getElem?_set]
    by_cases hi : i = i1
    · subst hi
      have hj : j ≠ j1 := fun hc => h (by rw [hc])
      have hlen : i < cells.length := by
        by_contra hc
        rw [List.getElem?_eq_none (by omega)] at hr
        cases hr
      simp only [if_true, hlen, hr, List.getElem?_set, if_neg hj]
    · simp only [if_neg hi]

theorem getCell_setCell_cases {α : Type} (cells : List (List α)) (i j i1 j1 : Nat) (x y : α)
    (h : getCell (setCell cells i j x) i1 j1 = some y) :
    y = x ∨ getCell cells i1 j1 = some y := by
  by_cases hij : (i, j) = (i1, j1)
  · injection hij with h1 h2
    subst h1; subst h2
    unfold setCell at h
    cases hr : cells[i]? with
    | none =>
      simp only [hr] at h
      right; exact h
    | some row =>
      have hlen : i < cells.length := by
        by_contra hc
        rw [List.getElem?_eq_none (by omega)] at hr
        cases hr
      simp only [hr, getCell, List.getElem?_set, if_true, hlen] at h
      split at h
      · left; exact (Option.some.inj h).symm
      · cases h
  · rw [getCell_setCell_ne cells i j i1 j1 x hij] at h
    right; exact h

theorem getCell_replicate {α : Type} (n : Nat) (a y : α) (i j : Nat)
    (h : getCell (List.replicate n (List.replicate n a)) i j = some y) : y = a := by
  unfold getCell at h
  cases hr : (List.replicate n (List.replicate n a))[i]? with
  | none => simp [hr] at h
  | some row =>
    simp only [hr] at h
    rw [List.getElem?_replicate] at hr
    split at hr
    · have := Option.some.inj hr
      subst this
      rw [List.getElem?_replicate] at h
      split at h
      · exact (Option.some.inj h).symm
      · cases h
    · cases hr

theorem initSVertex_empty {σ : Type} [Inhabited σ] (pchart : List (List PCell))
    (addr : Nat → VPtr) (acc acc1 : Heap σ × List (List SCell)) (iw : Nat × Word)
    (h : initSVertex pchart addr acc iw = some acc1)
    (hq : ∀ i j cell, getCell acc.2 i j = some cell → cell.nonTerminalBeams = []) :
    ∀ i j cell, getCell acc1.2 i j = some cell → cell.nonTerminalBeams = [] := by
  unfold initSVertex at h
  split at h
  · cases h
  · split at h
    · cases h
    · split at h
      · cases h
      · split at h
        · cases h
        · rename_i scell hsc
          have := Option.some.inj h
          subst this
          intro i j cell hc
          rcases getCell_setCell_cases _ _ _ _ _ _ _ hc with rfl | hc
          · exact hq _ _ scell hsc
          · exact hq i j cell hc

theorem initSVertices_empty {σ : Type} [Inhabited σ] (pchart : List (List PCell))
    (addr : Nat → VPtr) :
    ∀ (l : List (Nat × Word)) (acc acc1 : Heap σ × List (List SCell)),
      initSVertices pchart addr l acc = some acc1 →
      (∀ i j cell, getCell acc.2 i j = some cell → cell.nonTerminalBeams = []) →
      ∀ i j cell, getCell acc1.2 i j = some cell → cell.nonTerminalBeams = [] := by
  intro l
  induction l with
  | nil =>
    intro acc acc1 h hq
    simp only [initSVertices, Option.some.injEq] at h
    subst h
    exact hq
  | cons iw rest ih =>
    intro acc acc1 h hq
    simp only [initSVertices] at h
    cases h1 : initSVertex pchart addr acc iw with
    | none => simp [h1] at h
    | some acc2 =>
      simp only [h1] at h
      exact ih acc2 acc1 h (initSVertex_empty pchart addr acc acc2 iw h1 hq)

/-- When the span loop starts no cell of the search chart holds a nonterminal beam. -/
theorem decodeInit_empty {σ : Type} [Inhabited σ] (source : List Word) (addr : Nat → VPtr)
    (hp : Heap σ) (m0 : Manager σ) (h : decodeInit source addr hp = some m0) :
    ∀ i j cell, getCell m0.schart i j = some cell → cell.nonTerminalBeams = [] := by
  unfold decodeInit at h
  split at h
  · cases h
  · rename_i hp1 schart hi
    have := Option.some.inj h
    subst this
    unfold InitializeSChart at hi
    refine initSVertices_empty _ addr _ _ _ hi ?_
    intro i j cell hc
    rw [getCell_replicate _ _ _ _ _ hc]

theorem processSpan_cell_frame {σ : Type} (srt : StdSort) (ord : HashOrder)
    (lt : σ → σ → Bool) (sd : StaticData) (cube : Nat × Nat → CubeQueue σ)
    (m m1 : Manager σ) (range : Nat × Nat)
    (h : processSpan srt ord lt sd cube m range = some m1) (i j : Nat)
    (hne : (range.1, range.2) ≠ (i, j)) :
    getCell m1.schart i j = getCell m.schart i j := by
  unfold processSpan at h
  split at h
  · split at h
    · cases h
    · split at h
      · cases h
      · have := Option.some.inj h
        subst this
        exact getCell_setCell_ne _ _ _ _ _ _ hne
  · cases h

theorem decodeSpans_cell_frame {σ : Type} (srt : StdSort) (ord : HashOrder)
    (lt : σ → σ → Bool) (sd : StaticData) (cube : Nat × Nat → CubeQueue σ) (i j : Nat) :
    ∀ (l : List (Nat × Nat)) (m m1 : Manager σ),
      decodeSpans srt ord lt sd cube l m = some m1 → (i, j) ∉ l →
      getCell m1.schart i j = getCell m.schart i j := by
  intro l
  induction l with
  | nil =>
    intro m m1 h _
    simp only [decodeSpans, Option.some.injEq] at h
    subst h; rfl
  | cons r rest ih =>
    intro m m1 h hn
    simp only [decodeSpans] at h
    cases h1 : processSpan srt ord lt sd cube m r with
    | none => simp [h1] at h
    | some m2 =>
      simp only [h1] at h
      simp only [List.mem_cons, not_or] at hn
      rw [ih m2 m1 h hn.2]
      exact processSpan_cell_frame srt ord lt sd cube m m2 r h1 i j
        (fun hc => hn.1 (by rw [← hc]))

theorem decodeSpans_snoc {σ : Type} (srt : StdSort) (ord : HashOrder)
    (lt : σ → σ → Bool) (sd : StaticData) (cube : Nat × Nat → CubeQueue σ)
    (range : Nat × Nat) :
    ∀ (l : List (Nat × Nat)) (m m1 : Manager σ),
      decodeSpans srt ord lt sd cube (l ++ [range]) m = some m1 →
      ∃ mp, decodeSpans srt ord lt sd cube l m = some mp ∧
        processSpan srt ord lt sd cube mp range = some m1 := by
  intro l
  induction l with
  | nil =>
    intro m m1 h
    simp only [List.nil_append, decodeSpans] at h
    cases h1 : processSpan srt ord lt sd cube m range with
    | none => simp [h1] at h
    | some m2 =>
      simp only [h1, Option.some.injEq] at h
      subst h
      exact ⟨m, rfl, h1⟩
  | cons r rest ih =>
    intro m m1 h
    simp only [List.cons_append, decodeSpans] at h
    cases h1 : processSpan srt ord lt sd cube m r with
    | none => simp [h1] at h
    | some m2 =>
      simp only [h1] at h
      obtain ⟨mp, e1, e2⟩ := ih m2 m1 h
      exact ⟨mp, by simp only [decodeSpans, h1, e1], e2⟩

/-- The state in which `Decode` starts to process a span of its visiting order: the cell of
the span holds no nonterminal beam yet. -/
theorem decode_reaches_span {σ : Type} [Inhabited σ] (srt : StdSort) (ord : HashOrder)
    (lt : σ → σ → Bool) (sd : StaticData) (source : List Word) (addr : Nat → VPtr)
    (cube : Nat × Nat → CubeQueue σ) (hp : Heap σ) (st : Manager σ)
    (pre post : List (Nat × Nat)) (range : Nat × Nat)
    (hord : spanOrder source.length = pre ++ range :: post)
    (hrun : decodeUpTo srt ord lt sd source addr cube hp (pre ++ [range]) = some st) :
    ∃ mp, decodeUpTo srt ord lt sd source addr cube hp pre = some mp ∧
      processSpan srt ord lt sd cube mp range = some st ∧
      ∀ cell, getCell mp.schart range.1 range.2 = some cell → cell.nonTerminalBeams = [] := by
  unfold decodeUpTo at hrun ⊢
  cases hinit : decodeInit source addr hp with
  | none => simp [hinit] at hrun
  | some m0 =>
  simp only [hinit] at hrun ⊢
  obtain ⟨mp, e1, e2⟩ := decodeSpans_snoc srt ord lt sd cube range pre m0 st hrun
  refine ⟨mp, e1, e2, ?_⟩
  intro cell hc
  have hnd : (spanOrder source.length).Nodup := spanOrder_nodup _
  rw [hord] at hnd
  have hnot : (range.1, range.2) ∉ pre := by
    intro hm
    have := (List.nodup_append.mp hnd).2.2 hm
    exact this (List.mem_cons_self _ _)
  rw [decodeSpans_cell_frame srt ord lt sd cube range.1 range.2 pre m0 mp e1 hnot] at hc
  exact decodeInit_empty source addr hp m0 hinit _ _ cell hc

theorem BufWF.perm {σ : Type} {bufs bufs1 : List (Word × List HPtr)} {L : List (CubeItem σ)}
    (w : BufWF bufs L) (hp : bufs1.Perm bufs) : BufWF bufs1 L :=
  ⟨(hp.map Prod.fst).nodup_iff.mpr w.keys, fun x hx => w.group x (hp.subset hx),
    fun it hit => (hp.map Prod.fst).symm.subset (w.cover it hit)⟩

theorem BufWF.nil {σ : Type} : BufWF (σ := σ) [] [] :=
  ⟨List.nodup_nil, fun x hx => (List.not_mem_nil x hx).elim,
    fun x hx => (List.not_mem_nil x hx).elim⟩

theorem PopHeap.fresh {σ : Type} {hp hp1 : Heap σ} {popped : List (CubeItem σ)}
    (ph : PopHeap hp popped hp1) : FreshBuffer hp1 (popped.map (fun it => it.ptr)) := by
  refine ⟨ph.ptrs, ?_⟩
  intro h hh
  obtain ⟨it, hit, rfl⟩ := List.mem_map.mp hh
  obtain ⟨o1, pv, o2⟩ := ph.objs it hit
  rw [freshEdge_iff]
  exact ⟨_, _, _, o1, o2⟩

theorem forall₂_mem_right {α β : Type} {R : α → β → Prop} {l1 : List α} {l2 : List β}
    (h : List.Forall₂ R l1 l2) {b : β} (hb : b ∈ l2) : ∃ a ∈ l1, R a b := by
  induction h with
  | nil => cases hb
  | cons hab _ ih =>
    rcases List.mem_cons.mp hb with rfl | hb
    · exact ⟨_, List.mem_cons_self _ _, hab⟩
    · obtain ⟨a, ha, hr⟩ := ih hb
      exact ⟨a, List.mem_cons_of_mem _ ha, hr⟩

theorem mem_bufferOf {σ : Type} (c : Word) (popped : List (CubeItem σ)) (h : HPtr) :
    h ∈ bufferOf c popped ↔ ∃ it ∈ popped, it.lhs = c ∧ it.ptr = h := by
  simp only [bufferOf, List.mem_map, List.mem_filter, decide_eq_true_eq]
  constructor
  · rintro ⟨it, ⟨h1, h2⟩, h3⟩
    exact ⟨it, h1, h2, h3⟩
  · rintro ⟨it, h1, h2, h3⟩
    exact ⟨it, ⟨h1, h2⟩, h3⟩

theorem mem_truncateBeams (limit : Nat) (news : List (Word × List VPtr)) (b : Word × List VPtr)
    (hb : b ∈ truncateBeams limit news) :
    ∃ cv ∈ news, b.1 = cv.1 ∧
      b.2 = if 0 < limit then cv.2.take (min limit cv.2.length) else cv.2 := by
  unfold truncateBeams at hb
  by_cases hl : limit > 0
  · rw [if_pos hl] at hb
    obtain ⟨cv, hcv, rfl⟩ := List.mem_map.mp hb
    refine ⟨cv, hcv, rfl, ?_⟩
    rw [if_pos hl]
    simp only
    by_cases hlen : cv.2.length > limit
    · rw [if_pos hlen, Nat.min_eq_left (le_of_lt hlen)]
    · rw [if_neg hlen, Nat.min_eq_right (not_lt.mp hlen), List.take_length]
  · rw [if_neg hl] at hb
    exact ⟨b, hb, rfl, by rw [if_neg hl]⟩

theorem truncateBeams_keys (limit : Nat) (news : List (Word × List VPtr)) :
    (truncateBeams limit news).map Prod.fst = news.map Prod.fst := by
  unfold truncateBeams
  split
  · rw [List.map_map]; rfl
  · rfl

theorem forall₂_catDone_keys {σ : Type} {lt : σ → σ → Bool} {E : HPtr → SHyperedge}
    {S : VPtr → σ} {PV : VPtr → Option PVertex} {hp1 : Heap σ}
    {bufs : List (Word × List HPtr)} {news : List (Word × List VPtr)}
    (h : List.Forall₂ (CatDone lt E S PV hp1) bufs news) :
    news.map Prod.fst = bufs.map Prod.fst := by
  induction h with
  | nil => rfl
  | cons hab _ ih => simp only [List.map_cons, ih, hab.1]

theorem foldl_setEdge_none {σ : Type} :
    ∀ (es : List HPtr) (hp : Heap σ),
      (es.foldl (fun h e => h.setEdge e none) hp).verts = hp.verts ∧
      ∀ q, (es.foldl (fun h e => h.setEdge e none) hp).edges q =
        if q ∈ es then none else hp.edges q := by
  intro es
  induction es with
  | nil => intro hp; exact ⟨rfl, fun q => by simp⟩
  | cons e rest ih =>
    intro hp
    obtain ⟨i1, i2⟩ := ih (hp.setEdge e none)
    refine ⟨by rw [List.foldl_cons, i1]; rfl, ?_⟩
    intro q
    rw [List.foldl_cons, i2 q]
    simp only [Heap.setEdge_edges, List.mem_cons]
    by_cases h1 : q ∈ rest
    · simp [h1]
    · by_cases h2 : q = e
      · simp [h2]
      · simp [h1, h2]

theorem deleteSVertex_spec {σ : Type} (hp : Heap σ) (v : VPtr) :
    (∀ p, (deleteSVertex hp v).verts p = if p = v then none else hp.verts p) ∧
    (∀ q, (deleteSVertex hp v).edges q = if q ∈ recorded hp v then none else hp.edges q) := by
  unfold deleteSVertex recorded
  cases hv : hp.verts v with
  | none =>
    refine ⟨?_, ?_⟩
    · intro p
      by_cases h : p = v
      · simp [h, hv]
      · simp [h]
    · intro q; simp
  | some sv =>
    obtain ⟨f1, f2⟩ := foldl_setEdge_none (sv.best.toList ++ sv.recombined) hp
    refine ⟨?_, ?_⟩
    · intro p
      simp only [Heap.setVert_verts, f1]
    · intro q
      simp only [Heap.setVert_edges, f2 q]

/-- The object store after the vertices of a duplicate-free list were deleted. -/
theorem foldl_deleteSVertex {σ : Type} :
    ∀ (D : List VPtr) (hp : Heap σ), D.Nodup →
      (∀ p, (D.foldl deleteSVertex hp).verts p = if p ∈ D then none else hp.verts p) ∧
      (∀ q, (D.foldl deleteSVertex hp).edges q =
        if ∃ w ∈ D, q ∈ recorded hp w then none else hp.edges q) := by
  intro D
  induction D with
  | nil => intro hp _; exact ⟨fun p => by simp, fun q => by simp⟩
  | cons w rest ih =>
    intro hp hnd
    rw [List.nodup_cons] at hnd
    obtain ⟨d1, d2⟩ := deleteSVertex_spec hp w
    obtain ⟨i1, i2⟩ := ih (deleteSVertex hp w) hnd.2
    have hrec : ∀ w' ∈ rest, recorded (deleteSVertex hp w) w' = recorded hp w' := by
      intro w' hw'
      have hne : w' ≠ w := fun hc => hnd.1 (hc ▸ hw')
      simp only [recorded, d1 w', if_neg hne]
    refine ⟨?_, ?_⟩
    · intro p
      rw [List.foldl_cons, i1 p, d1 p]
      simp only [List.mem_cons]
      by_cases h1 : p ∈ rest
      · simp [h1]
      · by_cases h2 : p = w
        · simp [h2]
        · simp [h1, h2]
    · intro q
      rw [List.foldl_cons, i2 q, d2 q]
      by_cases h1 : ∃ w' ∈ rest, q ∈ recorded (deleteSVertex hp w) w'
      · obtain ⟨w', hw', hq⟩ := h1
        rw [if_pos ⟨w', hw', hq⟩, if_pos ⟨w', List.mem_cons_of_mem _ hw', by rw [← hrec w' hw']; exact hq⟩]
      · rw [if_neg h1]
        by_cases h2 : q ∈ recorded hp w
        · rw [if_pos h2, if_pos ⟨w, List.mem_cons_self _ _, h2⟩]
        · rw [if_neg h2, if_neg]
          rintro ⟨w', hw', hq⟩
          rcases List.mem_cons.mp hw' with rfl | hw'
          · exact h2 hq
          · exact h1 ⟨w', hw', by rw [hrec w' hw']; exact hq⟩

theorem pruneLoop_eq {σ : Type} (beamLimit : Nat) :
    ∀ (beams : List (Word × List VPtr)) (hp : Heap σ),
      (pruneLoop beamLimit hp beams).1 =
        (beams.flatMap (fun b => b.2.drop beamLimit)).foldl deleteSVertex hp ∧
      (pruneLoop beamLimit hp beams).2 =
        beams.map (fun p => (p.1, if p.2.length > beamLimit then p.2.take beamLimit else p.2))
      := by
  intro beams
  induction beams with
  | nil => intro hp; exact ⟨rfl, rfl⟩
  | cons b rest ih =>
    obtain ⟨c, beam⟩ := b
    intro hp
    simp only [pruneLoop, List.flatMap_cons, List.foldl_append, List.map_cons]
    by_cases hl : beam.length > beamLimit
    · simp only [if_pos hl, resizeBeam]
      obtain ⟨i1, i2⟩ := ih ((beam.drop beamLimit).foldl deleteSVertex hp)
      exact ⟨i1, by rw [i2]⟩
    · simp only [if_neg hl]
      obtain ⟨i1, i2⟩ := ih hp
      rw [List.drop_eq_nil_of_le (by omega)]
      exact ⟨i1, by rw [i2]⟩

/-- The pruning step deletes the dropped vertices and leaves the truncated beams. -/
theorem pruneBeams_eq {σ : Type} (beamLimit : Nat) (hp : Heap σ)
    (beams : List (Word × List VPtr)) :
    (pruneBeams beamLimit hp beams).1 =
      (droppedVertices beamLimit beams).foldl deleteSVertex hp ∧
    (pruneBeams beamLimit hp beams).2 = truncateBeams beamLimit beams := by
  unfold pruneBeams droppedVertices truncateBeams
  by_cases hl : beamLimit > 0
  · simp only [if_pos hl]
    exact pruneLoop_eq beamLimit beams hp
  · simp [hl]

/-- The beams of the categories of a span before pruning: what the pruning step does to
the object store. -/
theorem pruneFacts_of_catDone {σ : Type} {lt : σ → σ → Bool} (hs : StrictWeak lt)
    {E : HPtr → SHyperedge} {S : VPtr → σ} {PV : VPtr → Option PVertex}
    {popped : List (CubeItem σ)} {bufs : List (Word × List HPtr)}
    {news : List (Word × List VPtr)} {hmid : Heap σ} (limit : Nat)
    (hwf : BufWF bufs popped)
    (hheadsnd : (popped.map (fun it => it.head)).Nodup)
    (hES : ∀ it ∈ popped, E it.ptr = ⟨it.head, it.score, it.lhs⟩ ∧ S it.head = it.state)
    (hF : List.Forall₂ (CatDone lt E S PV hmid) bufs news) :
    PruneFacts popped limit hmid (pruneBeams limit hmid news).1 news := by
  have hkeys : (news.map Prod.fst).Nodup := by
    rw [forall₂_catDone_keys hF]; exact hwf.keys
  have hbuf : ∀ cv ∈ news, ∃ cb ∈ bufs, cb.1 = cv.1 ∧ ∃ map,
      RInv lt E S PV hmid cb.2 hmid map ∧ cv.2.Perm (map.map Prod.fst) ∧
      ∀ q ∈ cb.2, ∃ it ∈ popped, it.ptr = q ∧ it.lhs = cv.1 := by
    intro cv hcv
    obtain ⟨cb, hcb, hc1, map, inv, hperm, -⟩ := forall₂_mem_right hF hcv
    refine ⟨cb, hcb, hc1, map, inv, hperm, ?_⟩
    intro q hq
    rw [(hwf.group cb hcb).1, mem_bufferOf] at hq
    obtain ⟨it, hit, hl, hp0⟩ := hq
    exact ⟨it, hit, hp0, by rw [hl, hc1]⟩
  have hheads : ∀ cv ∈ news, ∀ v ∈ cv.2, ∃ it ∈ popped, it.head = v ∧ it.lhs = cv.1 := by
    intro cv hcv v hv
    obtain ⟨cb, -, -, map, inv, hperm, hq⟩ := hbuf cv hcv
    obtain ⟨e, he, rfl⟩ := List.mem_map.mp (hperm.subset hv)
    obtain ⟨-, h, hh, hk⟩ := inv.keys e he
    obtain ⟨it, hit, rfl, hl⟩ := hq h hh
    exact ⟨it, hit, by rw [hk, (hES it hit).1], hl⟩
  have hedges : ∀ cv ∈ news, ∀ v ∈ cv.2, ∀ q ∈ recorded hmid v, ∃ it ∈ popped,
      it.ptr = q ∧ it.lhs = cv.1 ∧ hmid.edges q = some ⟨v, it.score, it.lhs⟩ := by
    intro cv hcv v hv q hq
    obtain ⟨cb, -, -, map, inv, hperm, hqq⟩ := hbuf cv hcv
    obtain ⟨e, he, rfl⟩ := List.mem_map.mp (hperm.subset hv)
    obtain ⟨b, rec, A, B, v1, v2, v3, -, -, -, v7⟩ := inv.vert e he
    have hmem : q ∈ cb.2 ∧ hmid.edges q = some { E q with head := e.1 } := by
      simp only [recorded, v1, Option.toList, List.singleton_append, List.mem_cons] at hq
      rcases hq with rfl | hq
      · exact ⟨by rw [v2]; simp, v3⟩
      · exact ⟨(v7 q hq).1, (v7 q hq).2.1⟩
    obtain ⟨it, hit, rfl, hl⟩ := hqq q hmem.1
    refine ⟨it, hit, rfl, hl, ?_⟩
    rw [hmem.2, (hES it hit).1]
  have hnd : ∀ cv ∈ news, cv.2.Nodup := by
    intro cv hcv
    obtain ⟨cb, -, -, map, inv, hperm, -⟩ := hbuf cv hcv
    exact hperm.nodup_iff.mpr (inv.keys_nodup hs)
  have hcat : ∀ cv ∈ news, ∀ cv2 ∈ news, ∀ v, v ∈ cv.2 → v ∈ cv2.2 → cv = cv2 := by
    intro cv hcv cv2 hcv2 v hv hv2
    obtain ⟨it, hit, h1, h2⟩ := hheads cv hcv v hv
    obtain ⟨it2, hit2, h3, h4⟩ := hheads cv2 hcv2 v hv2
    have : it = it2 := List.inj_on_of_nodup_map hheadsnd hit hit2 (by rw [h1, h3])
    subst this
    exact List.inj_on_of_nodup_map hkeys hcv hcv2 (by rw [← h2, ← h4])
  have hdrop : ∀ w ∈ droppedVertices limit news,
      0 < limit ∧ ∃ cv ∈ news, w ∈ cv.2.drop limit := by
    intro w hw
    unfold droppedVertices at hw
    by_cases hl : limit > 0
    · rw [if_pos hl] at hw
      obtain ⟨cv, hcv, hw2⟩ := List.mem_flatMap.mp hw
      exact ⟨hl, cv, hcv, hw2⟩
    · rw [if_neg hl] at hw; cases hw
  have hDnd : (droppedVertices limit news).Nodup := by
    unfold droppedVertices
    split
    · rw [List.nodup_flatMap]
      refine ⟨fun cv hcv => (hnd cv hcv).sublist (List.drop_sublist _ _), ?_⟩
      have hp : news.Pairwise (fun a b => a.1 ≠ b.1) := by
        have := hkeys
        rw [List.Nodup, List.pairwise_map] at this
        exact this
      refine hp.imp_of_mem ?_
      intro a b ha hb hab
      intro w hwa hwb
      exact hab (by rw [hcat a ha b hb w (List.mem_of_mem_drop hwa) (List.mem_of_mem_drop hwb)])
    · exact List.nodup_nil
  obtain ⟨f1, f2⟩ := foldl_deleteSVertex (droppedVertices limit news) hmid hDnd
  rw [(pruneBeams_eq limit hmid news).1]
  refine ⟨?_, ?_, ?_, ?_, ?_, ?_, hheads, hedges⟩
  · intro w hw
    rw [f1 w, if_pos hw]
  · intro p hp
    rw [f1 p, if_neg hp]
  · intro w hw q hq
    rw [f2 q, if_pos ⟨w, hw, hq⟩]
  · intro q hq
    rw [f2 q, if_neg]
    rintro ⟨w, hw, hqw⟩
    exact hq w hw hqw
  · intro b hb v hv hvd
    obtain ⟨cv, hcv, -, hb2⟩ := mem_truncateBeams _ _ b hb
    obtain ⟨hl, cv2, hcv2, hw⟩ := hdrop v hvd
    rw [hb2, if_pos hl] at hv
    have := hcat cv hcv cv2 hcv2 v (List.mem_of_mem_take hv) (List.mem_of_mem_drop hw)
    subst this
    exact List.disjoint_take_drop (hnd cv hcv) (Nat.min_le_left _ _) hv hw
  · intro w hw
    obtain ⟨-, cv, hcv, hw2⟩ := hdrop w hw
    exact ⟨cv, hcv, List.mem_of_mem_drop hw2⟩

/-- What the body of the span loop does to a cell that holds no nonterminal beam yet:
`hmid` is the object store and `news` are the beams when the pruning step starts. -/
theorem processSpan_spec {σ : Type} [Inhabited σ] (srt : StdSort) (ord : HashOrder)
    {lt : σ → σ → Bool} (hs : StrictWeak lt) (sd : StaticData)
    (cube : Nat × Nat → CubeQueue σ) (m st : Manager σ) (range : Nat × Nat)
    (h : processSpan srt ord lt sd cube m range = some st)
    (hempty : ∀ cell, getCell m.schart range.1 range.2 = some cell →
      cell.nonTerminalBeams = []) :
    ∃ (E : HPtr → SHyperedge) (S : VPtr → σ) (PV : VPtr → Option PVertex)
      (bufs : List (Word × List HPtr)) (news : List (Word × List VPtr)) (scell : SCell)
      (hmid : Heap σ),
      BufWF bufs ((cube range).take sd.cubePruningPopLimit) ∧
      (bufs.flatMap Prod.snd).Perm
        (((cube range).take sd.cubePruningPopLimit).map (fun it => it.ptr)) ∧
      (∀ it ∈ (cube range).take sd.cubePruningPopLimit,
        E it.ptr = ⟨it.head, it.score, it.lhs⟩ ∧ S it.head = it.state) ∧
      List.Forall₂ (CatDone lt E S PV hmid) bufs news ∧
      getCell st.schart range.1 range.2 =
        some { scell with nonTerminalBeams := truncateBeams sd.maxHypoStackSize news } ∧
      HeapExtends m.heap st.heap ∧
      beforePruning srt ord lt sd cube m range = some (hmid, news) ∧
      PruneFacts ((cube range).take sd.cubePruningPopLimit) sd.maxHypoStackSize hmid
        st.heap news := by
  unfold processSpan at h
  split at h
  · rename_i pcell scell hpc hsc
    have hnb := hempty scell hsc
    split at h
    · cases h
    · rename_i ps hps
      obtain ⟨-, -, hbufs, ph⟩ := popLoop_spec _ _ _ _ _ _ _ ps hps
      simp only [Nat.sub_zero] at hbufs ph
      have hwf : BufWF (ord.run ps.buffers) ((cube range).take sd.cubePruningPopLimit) := by
        have := BufWF.foldl ((cube range).take sd.cubePruningPopLimit) [] [] BufWF.nil
        rw [← hbufs, List.nil_append] at this
        exact this.perm (ord.perm _)
      have hperm : ((ord.run ps.buffers).flatMap Prod.snd).Perm
          (((cube range).take sd.cubePruningPopLimit).map (fun it => it.ptr)) := by
        refine ((ord.perm ps.buffers).flatMap_right Prod.snd).trans ?_
        have := foldl_bufferPush_flatMap ((cube range).take sd.cubePruningPopLimit) []
        rw [← hbufs] at this
        simpa using this
      obtain ⟨E, S, PV, hi, hE, hV⟩ := ph.fresh.initOK
      have hi2 : InitOK E S PV ps.heap ((ord.run ps.buffers).flatMap Prod.snd) :=
        fun x hx => hi x (hperm.subset hx)
      obtain ⟨hp1, news, hrun, hF, fE, fV⟩ := recombineAll_spec srt hs (ord.run ps.buffers)
        ps.heap [] hi2 (hperm.nodup_iff.mpr ph.ptrs) hwf.keys (fun c _ hc => by cases hc)
      rw [hnb, hrun] at h
      simp only [List.nil_append] at h hrun
      have := Option.some.inj h
      subst this
      have hES : ∀ it ∈ (cube range).take sd.cubePruningPopLimit,
          E it.ptr = ⟨it.head, it.score, it.lhs⟩ ∧ S it.head = it.state := by
        intro it hit
        obtain ⟨o1, pv, o2⟩ := ph.objs it hit
        constructor
        · rcases hE it.ptr with h1 | h1
          · rw [o1] at h1; exact (Option.some.inj h1).symm
          · rw [o1] at h1; cases h1
        · exact ((hV it.head _ o2).1).symm
      have hX0 : HeapExtends m.heap hp1 := by
        refine ⟨?_, ?_⟩
        · intro p x hpx
          have hne : ∀ it ∈ (cube range).take sd.cubePruningPopLimit, p ≠ it.head := by
            intro it hit hc
            have := (ph.free it hit).2
            rw [← hc, hpx] at this
            cases this
          rw [fV p, ph.frameV p hne]
          · exact hpx
          · intro h hh hc
            obtain ⟨it, hit, rfl⟩ := List.mem_map.mp (hperm.subset hh)
            rw [(hES it hit).1] at hc
            exact hne it hit hc
        · intro h e hhe
          have hne : ∀ it ∈ (cube range).take sd.cubePruningPopLimit, h ≠ it.ptr := by
            intro it hit hc
            have := (ph.free it hit).1
            rw [← hc, hhe] at this
            cases this
          rw [fE h, ph.frameE h hne]
          · exact hhe
          · intro hh
            obtain ⟨it, hit, hit2⟩ := List.mem_map.mp (hperm.subset hh)
            exact hne it hit hit2.symm
      have pf := pruneFacts_of_catDone hs sd.maxHypoStackSize hwf ph.heads hES hF
      refine ⟨E, S, PV, ord.run ps.buffers, news, scell, hp1, hwf, hperm, hES, hF, ?_, ?_,
        ?_, pf⟩
      · show getCell (setCell _ _ _ _) _ _ = _
        rw [(pruneBeams_eq sd.maxHypoStackSize hp1 news).2]
        exact getCell_setCell_same _ _ _ _ _ hsc
      · refine ⟨?_, ?_⟩
        · intro p x hpx
          show (pruneBeams sd.maxHypoStackSize hp1 news).1.verts p = some x
          rw [pf.vertsKept p, hX0.1 p x hpx]
          intro hd
          obtain ⟨cv, hcv, hw⟩ := pf.dropped p hd
          obtain ⟨it, hit, h1, -⟩ := pf.heads cv hcv p hw
          have := (ph.free it hit).2
          rw [h1, hpx] at this
          cases this
        · intro q e hqe
          show (pruneBeams sd.maxHypoStackSize hp1 news).1.edges q = some e
          rw [pf.edgesKept q, hX0.2 q e hqe]
          intro w hd hq
          obtain ⟨cv, hcv, hw⟩ := pf.dropped w hd
          obtain ⟨it, hit, h1, -⟩ := pf.edgesOf cv hcv w hw q hq
          have := (ph.free it hit).1
          rw [h1, hqe] at this
          cases this
      · unfold beforePruning
        simp only [hpc, hsc, hps, hnb]
        exact hrun
  · cases h

theorem PruneFacts.mem_beams {σ : Type} {popped : List (CubeItem σ)} {limit : Nat}
    {hmid hp : Heap σ} {beams : List (Word × List VPtr)}
    (_pf : PruneFacts popped limit hmid hp beams) {b : Word × List VPtr}
    (hb : b ∈ truncateBeams limit beams) {v : VPtr} (hv : v ∈ b.2) :
    ∃ cv ∈ beams, cv.1 = b.1 ∧ v ∈ cv.2 := by
  obtain ⟨cv, hcv, h1, h2⟩ := mem_truncateBeams _ _ b hb
  refine ⟨cv, hcv, h1.symm, ?_⟩
  rw [h2] at hv
  split at hv
  · exact List.mem_of_mem_take hv
  · exact hv

/-- A hyperedge whose head was not cut from a beam is left as it is by the pruning step. -/
theorem PruneFacts.keep_edge {σ : Type} {popped : List (CubeItem σ)} {limit : Nat}
    {hmid hp : Heap σ} {beams : List (Word × List VPtr)}
    (pf : PruneFacts popped limit hmid hp beams) {q : HPtr} {e : SHyperedge}
    (hq : hmid.edges q = some e) (hh : e.head ∉ droppedVertices limit beams) :
    hp.edges q = some e := by
  rw [pf.edgesKept q, hq]
  intro w hw hqw
  obtain ⟨cv, hcv, hwc⟩ := pf.dropped w hw
  obtain ⟨it, -, -, -, h3⟩ := pf.edgesOf cv hcv w hwc q hqw
  rw [hq] at h3
  have := Option.some.inj h3
  rw [this] at hh
  exact hh hw

/-- The sort key of a vertex that stays in a beam is the same before and after the pruning
step. -/
theorem PruneFacts.kept_score {σ : Type} {popped : List (CubeItem σ)} {limit : Nat}
    {hmid hp : Heap σ} {beams : List (Word × List VPtr)}
    (pf : PruneFacts popped limit hmid hp beams) {b : Word × List VPtr}
    (hb : b ∈ truncateBeams limit beams) {v : VPtr} (hv : v ∈ b.2) :
    bestScore hp v = bestScore hmid v := by
  have hnd := pf.retained b hb v hv
  obtain ⟨cv, hcv, -, hvc⟩ := pf.mem_beams hb hv
  unfold S2T.bestScore
  rw [pf.vertsKept v hnd]
  cases hvv : hmid.verts v with
  | none => rfl
  | some sv =>
    simp only
    cases hbest : sv.best with
    | none => rfl
    | some b0 =>
      simp only
      have hrec : b0 ∈ recorded hmid v := by simp [recorded, hvv, hbest]
      obtain ⟨it, -, -, -, h3⟩ := pf.edgesOf cv hcv v hvc b0 hrec
      rw [pf.keep_edge h3 hnd, h3]

theorem HeapExtends.refl {σ : Type} (hp : Heap σ) : HeapExtends hp hp :=
  ⟨fun _ _ h => h, fun _ _ h => h⟩

theorem HeapExtends.trans {σ : Type} {a b c : Heap σ} (h1 : HeapExtends a b)
    (h2 : HeapExtends b c) : HeapExtends a c :=
  ⟨fun p x h => h2.1 p x (h1.1 p x h), fun p x h => h2.2 p x (h1.2 p x h)⟩

theorem HeapExtends.bestScore {σ : Type} {a b : Heap σ} (h : HeapExtends a b) {v : VPtr}
    {s : Int} (hs : bestScore a v = some s) : bestScore b v = some s := by
  unfold S2T.bestScore at hs ⊢
  cases hv : a.verts v with
  | none => simp [hv] at hs
  | some sv =>
    simp only [hv] at hs
    rw [h.1 v sv hv]
    simp only
    cases hb : sv.best with
    | none => simp [hb] at hs
    | some b0 =>
      simp only [hb] at hs ⊢
      cases he : a.edges b0 with
      | none => simp [he] at hs
      | some e =>
        simp only [he] at hs
        rw [h.2 b0 e he]
        exact hs

theorem HeapExtends.scoreGE {σ : Type} {a b : Heap σ} (h : HeapExtends a b) {x y : VPtr}
    (hxy : ScoreGE a x y) : ScoreGE b x y := by
  obtain ⟨sx, sy, h1, h2, h3⟩ := hxy
  exact ⟨sx, sy, h.bestScore h1, h.bestScore h2, h3⟩

theorem decodeSpans_append {σ : Type} (srt : StdSort) (ord : HashOrder)
    (lt : σ → σ → Bool) (sd : StaticData) (cube : Nat × Nat → CubeQueue σ)
    (l2 : List (Nat × Nat)) :
    ∀ (l1 : List (Nat × Nat)) (m m1 : Manager σ),
      decodeSpans srt ord lt sd cube (l1 ++ l2) m = some m1 →
      ∃ mp, decodeSpans srt ord lt sd cube l1 m = some mp ∧
        decodeSpans srt ord lt sd cube l2 mp = some m1 := by
  intro l1
  induction l1 with
  | nil =>
    intro m m1 h
    exact ⟨m, rfl, h⟩
  | cons r rest ih =>
    intro m m1 h
    simp only [List.cons_append, decodeSpans] at h
    cases h1 : processSpan srt ord lt sd cube m r with
    | none => simp [h1] at h
    | some m2 =>
      simp only [h1] at h
      obtain ⟨mp, e1, e2⟩ := ih m2 m1 h
      exact ⟨mp, by simp only [decodeSpans, h1, e1], e2⟩

/-- Spans processed later leave the objects of the store as they are, as long as each of
them starts from a cell without nonterminal beams. -/
theorem decodeSpans_extends {σ : Type} [Inhabited σ] (srt : StdSort) (ord : HashOrder)
    {lt : σ → σ → Bool} (hs : StrictWeak lt) (sd : StaticData)
    (cube : Nat × Nat → CubeQueue σ) :
    ∀ (l : List (Nat × Nat)) (m m1 : Manager σ), l.Nodup →
      (∀ r ∈ l, ∀ cell, getCell m.schart r.1 r.2 = some cell → cell.nonTerminalBeams = []) →
      decodeSpans srt ord lt sd cube l m = some m1 → HeapExtends m.heap m1.heap := by
  intro l
  induction l with
  | nil =>
    intro m m1 _ _ h
    simp only [decodeSpans, Option.some.injEq] at h
    subst h
    exact HeapExtends.refl _
  | cons r rest ih =>
    intro m m1 hnd hempty h
    simp only [decodeSpans] at h
    rw [List.nodup_cons] at hnd
    cases h1 : processSpan srt ord lt sd cube m r with
    | none => simp [h1] at h
    | some m2 =>
      simp only [h1] at h
      obtain ⟨_, _, _, _, _, _, _, -, -, -, -, -, hext, -⟩ :=
        processSpan_spec srt ord hs sd cube m m2 r h1 (hempty r (List.mem_cons_self _ _))
      refine hext.trans (ih m2 m1 hnd.2 ?_ h)
      intro r2 hr2 cell hc
      rw [processSpan_cell_frame srt ord lt sd cube m m2 r h1 r2.1 r2.2
        (fun hcc => hnd.1 (by rw [show r = r2 from hcc]; exact hr2))] at hc
      exact hempty r2 (List.mem_cons_of_mem _ hr2) cell hc

/-- A state of `Decode` after the span `range` and the later spans `mid` were processed:
the cell of `range` is as it was right after `range` was processed. -/
theorem decode_after_span_cell {σ : Type} [Inhabited σ] (srt : StdSort) (ord : HashOrder)
    (lt : σ → σ → Bool) (sd : StaticData) (source : List Word) (addr : Nat → VPtr)
    (cube : Nat × Nat → CubeQueue σ) (hp : Heap σ) (st : Manager σ)
    (pre mid post : List (Nat × Nat)) (range : Nat × Nat)
    (hord : spanOrder source.length = pre ++ range :: (mid ++ post))
    (hrun : decodeUpTo srt ord lt sd source addr cube hp (pre ++ range :: mid) = some st) :
    ∃ st0, decodeUpTo srt ord lt sd source addr cube hp (pre ++ [range]) = some st0 ∧
      decodeSpans srt ord lt sd cube mid st0 = some st ∧
      getCell st.schart range.1 range.2 = getCell st0.schart range.1 range.2 := by
  have hnd := spanOrder_nodup source.length
  rw [hord] at hnd
  have hsplit : pre ++ range :: mid = (pre ++ [range]) ++ mid := by simp
  unfold decodeUpTo at hrun ⊢
  cases hinit : decodeInit source addr hp with
  | none => simp [hinit] at hrun
  | some m0 =>
    simp only [hinit] at hrun ⊢
    rw [hsplit] at hrun
    obtain ⟨st0, e1, e2⟩ := decodeSpans_append srt ord lt sd cube mid _ m0 st hrun
    refine ⟨st0, e1, e2, ?_⟩
    refine decodeSpans_cell_frame srt ord lt sd cube range.1 range.2 mid st0 st e2 ?_
    intro hm
    have h2 := (List.nodup_append.mp hnd).2.1
    rw [List.nodup_cons] at h2
    exact h2.1 (List.mem_append_left _ hm)

/-- In the situation of `decode_after_span_cell` the objects present right after `range`
was processed are unchanged. -/
theorem decode_after_span_heap {σ : Type} [Inhabited σ] (srt : StdSort) (ord : HashOrder)
    {lt : σ → σ → Bool} (hs : StrictWeak lt) (sd : StaticData) (source : List Word)
    (addr : Nat → VPtr) (cube : Nat × Nat → CubeQueue σ) (hp : Heap σ) (st0 st : Manager σ)
    (pre mid post : List (Nat × Nat)) (range : Nat × Nat)
    (hord : spanOrder source.length = pre ++ range :: (mid ++ post))
    (h0 : decodeUpTo srt ord lt sd source addr cube hp (pre ++ [range]) = some st0)
    (h1 : decodeSpans srt ord lt sd cube mid st0 = some st) :
    HeapExtends st0.heap st.heap := by
  have hnd := spanOrder_nodup source.length
  rw [hord] at hnd
  have hndp := List.nodup_append.mp hnd
  have hnd2 := List.nodup_cons.mp hndp.2.1
  have hmidnd : mid.Nodup := (List.nodup_append.mp hnd2.2).1
  refine decodeSpans_extends srt ord hs sd cube mid st0 st hmidnd ?_ h1
  intro r hr cell hc
  unfold decodeUpTo at h0
  cases hinit : decodeInit source addr hp with
  | none => simp [hinit] at h0
  | some m0 =>
    simp only [hinit] at h0
    have hnot : (r.1, r.2) ∉ pre ++ [range] := by
      intro hm
      rcases List.mem_append.mp hm with hm | hm
      · exact hndp.2.2 hm (List.mem_cons_of_mem _ (List.mem_append_left _ hr))
      · have : r = range := by simpa using hm
        exact hnd2.1 (by rw [← this]; exact List.mem_append_left _ hr)
    rw [decodeSpans_cell_frame srt ord lt sd cube r.1 r.2 _ m0 st0 h0 hnot] at hc
    exact decodeInit_empty source addr hp m0 hinit _ _ cell hc

theorem processSpan_popLoop {σ : Type} (srt : StdSort) (ord : HashOrder)
    (lt : σ → σ → Bool) (sd : StaticData) (cube : Nat × Nat → CubeQueue σ)
    (m st : Manager σ) (range : Nat × Nat)
    (h : processSpan srt ord lt sd cube m range = some st) :
    ∃ pcell ps, getCell m.pchart range.1 range.2 = some pcell ∧
      popLoop sd.cubePruningPopLimit range (cube range) 0 m.heap pcell [] = some ps := by
  unfold processSpan at h
  split at h
  · rename_i pcell scell hpc hsc
    split at h
    · cases h
    · rename_i ps hps
      exact ⟨pcell, ps, hpc, hps⟩
  · cases h

/-- Claim C6.  In every span that `Decode` processes, the pop loop pops at most `popLimit`
hyperedges, stops below `popLimit` only with the cube queue empty, and the buffers hold as
many hyperedges as were popped. -/
theorem pop_count_within_popLimit {σ : Type} [Inhabited σ] (srt : StdSort) (ord : HashOrder)
    (lt : σ → σ → Bool) (sd : StaticData) (source : List Word) (addr : Nat → VPtr)
    (cube : Nat × Nat → CubeQueue σ) (hp : Heap σ) (st : Manager σ)
    (pre post : List (Nat × Nat)) (range : Nat × Nat)
    (hord : spanOrder source.length = pre ++ range :: post)
    (hrun : decodeUpTo srt ord lt sd source addr cube hp (pre ++ [range]) = some st) :
    ∃ mp pcell ps, decodeUpTo srt ord lt sd source addr cube hp pre = some mp ∧
      getCell mp.pchart range.1 range.2 = some pcell ∧
      popLoop sd.cubePruningPopLimit range (cube range) 0 mp.heap pcell [] = some ps ∧
      ps.count ≤ sd.cubePruningPopLimit ∧
      (ps.count < sd.cubePruningPopLimit → ps.queue.IsEmpty = true) ∧
      (cube range).take ps.count ++ ps.queue = cube range ∧
      (ps.buffers.map (fun b => b.2.length)).sum = ps.count := by
  obtain ⟨mp, e1, e2, -⟩ :=
    decode_reaches_span srt ord lt sd source addr cube hp st pre post range hord hrun
  obtain ⟨pcell, ps, hpc, hps⟩ := processSpan_popLoop srt ord lt sd cube mp st range e2
  obtain ⟨q1, q2, q3, -⟩ := popLoop_spec _ _ _ _ _ _ _ ps hps
  simp only [Nat.sub_zero, Nat.zero_add] at q1 q2 q3
  have hcount : ps.count = min sd.cubePruningPopLimit (cube range).length := by
    rw [q2, List.length_take]
  refine ⟨mp, pcell, ps, e1, hpc, hps, ?_, ?_, ?_, ?_⟩
  · rw [hcount]; exact Nat.min_le_left _ _
  · intro hlt
    rw [q1]
    have : (cube range).length ≤ sd.cubePruningPopLimit := by
      rw [hcount] at hlt
      omega
    simp [CubeQueue.IsEmpty, List.drop_eq_nil_of_le this]
  · rw [q1]
    have : (cube range).take ps.count = (cube range).take sd.cubePruningPopLimit := by
      rw [hcount]
      by_cases hle : sd.cubePruningPopLimit ≤ (cube range).length
      · rw [Nat.min_eq_left hle]
      · rw [Nat.min_eq_right (by omega), List.take_length,
          List.take_of_length_le (by omega)]
    rw [this, List.take_append_drop]
  · have h1 := (foldl_bufferPush_flatMap ((cube range).take sd.cubePruningPopLimit) []).length_eq
    rw [← q3, List.length_flatMap] at h1
    simp only [List.flatMap_nil, List.nil_append, List.length_map] at h1
    rw [q2, ← h1]
    rfl

/-- Beam limit right after the span was processed. -/
theorem beamLimit_at_span {σ : Type} [Inhabited σ] (srt : StdSort) (ord : HashOrder)
    (lt : σ → σ → Bool) (sd : StaticData) (source : List Word) (addr : Nat → VPtr)
    (cube : Nat × Nat → CubeQueue σ) (hp : Heap σ) (st : Manager σ)
    (pre post : List (Nat × Nat)) (range : Nat × Nat)
    (hlimit : 0 < sd.maxHypoStackSize)
    (hord : spanOrder source.length = pre ++ range :: post)
    (hrun : decodeUpTo srt ord lt sd source addr cube hp (pre ++ [range]) = some st) :
    ∃ cell, getCell st.schart range.1 range.2 = some cell ∧
      ∀ b ∈ cell.nonTerminalBeams, b.2.length ≤ sd.maxHypoStackSize := by
  obtain ⟨mp, -, e2, -⟩ :=
    decode_reaches_span srt ord lt sd source addr cube hp st pre post range hord hrun
  unfold processSpan at e2
  split at e2
  · rename_i pcell scell hpc hsc
    split at e2
    · cases e2
    · split at e2
      · cases e2
      · rename_i hp2 beams _
        have := Option.some.inj e2
        subst this
        refine ⟨_, getCell_setCell_same _ _ _ _ _ hsc, ?_⟩
        intro b hb
        have hb2 : b ∈ truncateBeams sd.maxHypoStackSize beams := by
          rw [← (pruneBeams_eq sd.maxHypoStackSize hp2 beams).2]; exact hb
        obtain ⟨cv, -, -, h2⟩ := mem_truncateBeams _ _ b hb2
        rw [h2, if_pos hlimit, List.length_take]
        exact le_trans (Nat.min_le_left _ _) (Nat.min_le_left _ _)
  · cases e2

/-- Claim C4.  With `beamLimit > 0`, every nonterminal beam of the cell of a span has at
most `beamLimit` entries once `Decode` has processed the span, right after the span
(`mid = []`) and at every later point of `Decode`. -/
theorem beams_within_beamLimit {σ : Type} [Inhabited σ] (srt : StdSort) (ord : HashOrder)
    (lt : σ → σ → Bool) (sd : StaticData) (source : List Word) (addr : Nat → VPtr)
    (cube : Nat × Nat → CubeQueue σ) (hp : Heap σ) (st : Manager σ)
    (pre mid post : List (Nat × Nat)) (range : Nat × Nat)
    (hlimit : 0 < sd.maxHypoStackSize)
    (hord : spanOrder source.length = pre ++ range :: (mid ++ post))
    (hrun : decodeUpTo srt ord lt sd source addr cube hp (pre ++ range :: mid) = some st) :
    ∃ cell, getCell st.schart range.1 range.2 = some cell ∧
      ∀ b ∈ cell.nonTerminalBeams, b.2.length ≤ sd.maxHypoStackSize := by
  obtain ⟨st0, h0, -, hcell⟩ :=
    decode_after_span_cell srt ord lt sd source addr cube hp st pre mid post range hord hrun
  obtain ⟨cell, hc, hb⟩ := beamLimit_at_span srt ord lt sd source addr cube hp st0
    pre (mid ++ post) range hlimit hord h0
  exact ⟨cell, by rw [hcell]; exact hc, hb⟩

/-- Beam order right after the span was processed. -/
theorem sorted_at_span {σ : Type} [Inhabited σ] (srt : StdSort) (ord : HashOrder)
    (lt : σ → σ → Bool) (hs : StrictWeak lt) (sd : StaticData) (source : List Word)
    (addr : Nat → VPtr) (cube : Nat × Nat → CubeQueue σ) (hp : Heap σ) (st : Manager σ)
    (pre post : List (Nat × Nat)) (range : Nat × Nat)
    (hord : spanOrder source.length = pre ++ range :: post)
    (hrun : decodeUpTo srt ord lt sd source addr cube hp (pre ++ [range]) = some st) :
    ∃ cell, getCell st.schart range.1 range.2 = some cell ∧
      ∀ b ∈ cell.nonTerminalBeams, b.2.Pairwise (ScoreGE st.heap) := by
  obtain ⟨mp, -, e2, hempty⟩ :=
    decode_reaches_span srt ord lt sd source addr cube hp st pre post range hord hrun
  obtain ⟨E, S, PV, bufs, news, scell, hmid, -, -, -, hF, hcell, -, -, pf⟩ :=
    processSpan_spec srt ord hs sd cube mp st range e2 hempty
  refine ⟨_, hcell, ?_⟩
  intro b hb
  obtain ⟨cv, hcv, -, h2⟩ := mem_truncateBeams _ _ b hb
  have hsorted : cv.2.Pairwise (ScoreGE hmid) := by
    obtain ⟨-, -, -, -, -, -, hp2⟩ := forall₂_mem_right hF hcv
    exact hp2
  have hsub : b.2.Pairwise (ScoreGE hmid) := by
    rw [h2]
    split
    · exact hsorted.sublist (List.take_sublist _ _)
    · exact hsorted
  refine hsub.imp_of_mem ?_
  intro x y hx hy hxy
  obtain ⟨sx, sy, g1, g2, g3⟩ := hxy
  exact ⟨sx, sy, by rw [pf.kept_score hb hx]; exact g1, by rw [pf.kept_score hb hy]; exact g2, g3⟩

/-- Claim C3.  Once `Decode` has processed a span, every nonterminal beam of its cell is
sorted by non-increasing score of the best hyperedge, right after the span (`mid = []`)
and at every later point of `Decode`. -/
theorem beams_sorted_after_span {σ : Type} [Inhabited σ] (srt : StdSort) (ord : HashOrder)
    (lt : σ → σ → Bool) (hs : StrictWeak lt) (sd : StaticData) (source : List Word)
    (addr : Nat → VPtr) (cube : Nat × Nat → CubeQueue σ) (hp : Heap σ) (st : Manager σ)
    (pre mid post : List (Nat × Nat)) (range : Nat × Nat)
    (hord : spanOrder source.length = pre ++ range :: (mid ++ post))
    (hrun : decodeUpTo srt ord lt sd source addr cube hp (pre ++ range :: mid) = some st) :
    ∃ cell, getCell st.schart range.1 range.2 = some cell ∧
      ∀ b ∈ cell.nonTerminalBeams, ∀ i j (hi : i < b.2.length) (hj : j < b.2.length), i < j →
        ∃ si sj, bestScore st.heap b.2[i] = some si ∧ bestScore st.heap b.2[j] = some sj ∧
          sj ≤ si := by
  obtain ⟨st0, h0, h1, hcell⟩ :=
    decode_after_span_cell srt ord lt sd source addr cube hp st pre mid post range hord hrun
  have hext := decode_after_span_heap srt ord hs sd source addr cube hp st0 st pre mid post
    range hord h0 h1
  obtain ⟨cell, hc, hb⟩ := sorted_at_span srt ord lt hs sd source addr cube hp st0
    pre (mid ++ post) range hord h0
  refine ⟨cell, by rw [hcell]; exact hc, ?_⟩
  intro b hbm i j hi hj hij
  exact hext.scoreGE (List.pairwise_iff_getElem.mp (hb b hbm) i j hi hj hij)

theorem truncateBeams_eq_map (limit : Nat) (beams : List (Word × List VPtr)) :
    truncateBeams limit beams = beams.map (fun f =>
      (f.1, if 0 < limit then f.2.take (min limit f.2.length) else f.2)) := by
  unfold truncateBeams
  by_cases hl : limit > 0
  · rw [if_pos hl]
    refine List.map_congr_left ?_
    intro f _
    simp only [if_pos hl]
    by_cases hlen : f.2.length > limit
    · rw [if_pos hlen, Nat.min_eq_left (le_of_lt hlen)]
    · rw [if_neg hlen, Nat.min_eq_right (not_lt.mp hlen), List.take_length]
  · rw [if_neg hl]
    have : (fun f : Word × List VPtr =>
        (f.1, if 0 < limit then f.2.take (min limit f.2.length) else f.2)) = id := by
      funext f
      simp only [if_neg hl, id]
    rw [this, List.map_id]

/-- The beams of a span when its pruning step starts: one per category of the popped
hyperedges, each holding the distinct recombined vertices of its category in score order. -/
theorem sorted_vertices_at_span {σ : Type} [Inhabited σ] (srt : StdSort) (ord : HashOrder)
    {lt : σ → σ → Bool} (hs : StrictWeak lt) (sd : StaticData)
    (cube : Nat × Nat → CubeQueue σ) (m st : Manager σ) (range : Nat × Nat)
    (h : processSpan srt ord lt sd cube m range = some st)
    (hempty : ∀ cell, getCell m.schart range.1 range.2 = some cell →
      cell.nonTerminalBeams = []) :
    ∃ (hmid : Heap σ) (sorted : List (Word × List VPtr)) (scell : SCell),
      beforePruning srt ord lt sd cube m range = some (hmid, sorted) ∧
      getCell st.schart range.1 range.2 =
        some { scell with nonTerminalBeams := truncateBeams sd.maxHypoStackSize sorted } ∧
      PruneFacts ((cube range).take sd.cubePruningPopLimit) sd.maxHypoStackSize hmid
        st.heap sorted ∧
      (sorted.map Prod.fst).Nodup ∧
      (∀ c, c ∈ sorted.map Prod.fst ↔
        ∃ it ∈ (cube range).take sd.cubePruningPopLimit, it.lhs = c) ∧
      ∀ f ∈ sorted,
        f.2.Nodup ∧
        (∀ v, v ∈ f.2 ↔ ∃ it ∈ (cube range).take sd.cubePruningPopLimit,
          it.lhs = f.1 ∧ hmid.headOf it.ptr = some v) ∧
        f.2.length = countClasses lt []
          ((((cube range).take sd.cubePruningPopLimit).filter
            (fun it => decide (it.lhs = f.1))).map (fun it => it.state)) ∧
        f.2.Pairwise (ScoreGE hmid) ∧
        ∀ v ∈ f.2, ∃ s, bestScore hmid v = some s := by
  obtain ⟨E, S, PV, bufs, news, scell, hmid, hwf, -, hES, hF, hcell, -, hbp, pf⟩ :=
    processSpan_spec srt ord hs sd cube m st range h hempty
  have hkeys := forall₂_catDone_keys hF
  refine ⟨hmid, news, scell, hbp, hcell, pf, by rw [hkeys]; exact hwf.keys, ?_, ?_⟩
  · intro c
    rw [hkeys]
    constructor
    · intro hc
      obtain ⟨cb, hcb, rfl⟩ := List.mem_map.mp hc
      obtain ⟨g1, g2⟩ := hwf.group cb hcb
      obtain ⟨q, hq⟩ := List.exists_mem_of_ne_nil _ g2
      rw [g1, mem_bufferOf] at hq
      obtain ⟨it, hit, hl, -⟩ := hq
      exact ⟨it, hit, hl⟩
    · rintro ⟨it, hit, rfl⟩
      exact hwf.cover it hit
  · intro cv hcv
    obtain ⟨cb, hcb, hc1, map, inv, hperm, hsorted⟩ := forall₂_mem_right hF hcv
    have hbuf : cb.2 = bufferOf cv.1 ((cube range).take sd.cubePruningPopLimit) := by
      rw [← hc1]; exact (hwf.group cb hcb).1
    refine ⟨hperm.nodup_iff.mpr (inv.keys_nodup hs), ?_, ?_, hsorted, ?_⟩
    · intro v
      constructor
      · intro hv
        obtain ⟨e, he, rfl⟩ := List.mem_map.mp (hperm.subset hv)
        obtain ⟨b0, rec, A, B, -, v2, v3, -⟩ := inv.vert e he
        have hb0 : b0 ∈ cb.2 := by rw [v2]; simp
        rw [hbuf, mem_bufferOf] at hb0
        obtain ⟨it, hit, hl, hp0⟩ := hb0
        exact ⟨it, hit, hl, by simp only [Heap.headOf, hp0, v3]⟩
      · rintro ⟨it, hit, hl, hh⟩
        have hm : it.ptr ∈ cb.2 := by rw [hbuf, mem_bufferOf]; exact ⟨it, hit, hl, rfl⟩
        obtain ⟨e, he, d1, -⟩ := inv.done _ hm
        simp only [Heap.headOf, d1, Option.some.injEq] at hh
        rw [← hh]
        exact hperm.symm.subset (List.mem_map.mpr ⟨e, he, rfl⟩)
    · rw [hperm.length_eq, List.length_map, inv.card, hbuf, bufferOf, List.map_map]
      congr 1
      refine List.map_congr_left ?_
      intro it hit
      have := hES it (List.mem_filter.mp hit).1
      simp only [Function.comp, this.1, this.2]
    · intro v hv
      obtain ⟨e, he, rfl⟩ := List.mem_map.mp (hperm.subset hv)
      obtain ⟨b0, rec, A, B, v1, -, v3, -⟩ := inv.vert e he
      exact ⟨(E b0).score, by simp only [bestScore, v1, v3]⟩

theorem HeapExtends.headOf {σ : Type} {a b : Heap σ} (h : HeapExtends a b) {x : HPtr}
    {v : VPtr} (hx : a.headOf x = some v) : b.headOf x = some v := by
  unfold Heap.headOf at hx ⊢
  cases he : a.edges x with
  | none => simp [he] at hx
  | some e =>
    simp only [he] at hx
    rw [h.2 x e he]
    exact hx

/-- Claim C5.  Let `sorted` be the beams of a span at the point where the pruning step of
`Decode` starts, in the object store `hmid` of that point.  They are one beam for each
category among the popped hyperedges, and the beam of a category lists the distinct
recombined vertices of the category (the heads of its popped hyperedges, as many as there
are equivalence classes of states), each once, in non-increasing order of score.  The
beams left in the cell of the span are these beams, each cut to its first
`min(beamLimit, m)` entries when `beamLimit > 0` and whole when `beamLimit = 0`;
every retained vertex scores at least as high as every vertex cut from the same beam, and
keeps its score in the object store.  This holds right after the span (`mid = []`) and at
every later point of `Decode`.  The vertices cut from a beam are deleted by the pruning
step: they are no longer in the object store `st0.heap` right after the span. -/
theorem beam_is_take_of_sorted_vertices {σ : Type} [Inhabited σ] (srt : StdSort)
    (ord : HashOrder) (lt : σ → σ → Bool) (hs : StrictWeak lt) (sd : StaticData)
    (source : List Word) (addr : Nat → VPtr) (cube : Nat × Nat → CubeQueue σ) (hp : Heap σ)
    (st : Manager σ) (pre mid post : List (Nat × Nat)) (range : Nat × Nat)
    (hord : spanOrder source.length = pre ++ range :: (mid ++ post))
    (hrun : decodeUpTo srt ord lt sd source addr cube hp (pre ++ range :: mid) = some st) :
    ∃ (mp st0 : Manager σ) (hmid : Heap σ) (sorted : List (Word × List VPtr))
      (cell : SCell),
      decodeUpTo srt ord lt sd source addr cube hp pre = some mp ∧
      beforePruning srt ord lt sd cube mp range = some (hmid, sorted) ∧
      decodeUpTo srt ord lt sd source addr cube hp (pre ++ [range]) = some st0 ∧
      getCell st.schart range.1 range.2 = some cell ∧
      (sorted.map Prod.fst).Nodup ∧
      (∀ c, c ∈ sorted.map Prod.fst ↔
        ∃ it ∈ (cube range).take sd.cubePruningPopLimit, it.lhs = c) ∧
      (∀ f ∈ sorted,
        f.2.Nodup ∧
        (∀ v, v ∈ f.2 ↔ ∃ it ∈ (cube range).take sd.cubePruningPopLimit,
          it.lhs = f.1 ∧ hmid.headOf it.ptr = some v) ∧
        f.2.length = countClasses lt []
          ((((cube range).take sd.cubePruningPopLimit).filter
            (fun it => decide (it.lhs = f.1))).map (fun it => it.state)) ∧
        (∀ i j (hi : i < f.2.length) (hj : j < f.2.length), i < j →
          ScoreGE hmid f.2[i] f.2[j])) ∧
      cell.nonTerminalBeams = sorted.map (fun f =>
        (f.1, if 0 < sd.maxHypoStackSize then
          f.2.take (min sd.maxHypoStackSize f.2.length) else f.2)) ∧
      (∀ f ∈ sorted, ∀ b ∈ cell.nonTerminalBeams, b.1 = f.1 →
        ∀ v ∈ b.2, ∀ w ∈ f.2.drop b.2.length, ScoreGE hmid v w) ∧
      (∀ b ∈ cell.nonTerminalBeams, ∀ v ∈ b.2,
        ∃ s, bestScore hmid v = some s ∧ bestScore st.heap v = some s) ∧
      (∀ f ∈ sorted, ∀ b ∈ cell.nonTerminalBeams, b.1 = f.1 →
        ∀ w ∈ f.2.drop b.2.length, st0.heap.verts w = none) := by
  obtain ⟨st0, h0, h1, hcell⟩ :=
    decode_after_span_cell srt ord lt sd source addr cube hp st pre mid post range hord hrun
  have hext := decode_after_span_heap srt ord hs sd source addr cube hp st0 st pre mid post
    range hord h0 h1
  obtain ⟨mp, e1, e2, hempty⟩ :=
    decode_reaches_span srt ord lt sd source addr cube hp st0 pre (mid ++ post) range hord h0
  obtain ⟨hmid, sorted, scell, hbp, hc, pf, hk1, hk2, hf⟩ :=
    sorted_vertices_at_span srt ord hs sd cube mp st0 range e2 hempty
  have hmap := truncateBeams_eq_map sd.maxHypoStackSize sorted
  have hsame : ∀ f ∈ sorted, ∀ b ∈ truncateBeams sd.maxHypoStackSize sorted, b.1 = f.1 →
      b.2 = (if 0 < sd.maxHypoStackSize then
        f.2.take (min sd.maxHypoStackSize f.2.length) else f.2) := by
    intro f hfm b hb hbf
    obtain ⟨cv, hcv, hb1, hb2⟩ := mem_truncateBeams _ _ b hb
    have : cv = f := List.inj_on_of_nodup_map hk1 hcv hfm (by rw [← hb1, hbf])
    rw [hb2, this]
  have htake : ∀ f ∈ sorted, ∀ b ∈ truncateBeams sd.maxHypoStackSize sorted, b.1 = f.1 →
      b.2 = f.2.take b.2.length := by
    intro f hfm b hb hbf
    have := hsame f hfm b hb hbf
    rw [this]
    split
    · rw [List.length_take, Nat.min_assoc, Nat.min_self]
    · rw [List.take_length]
  refine ⟨mp, st0, hmid, sorted, _, e1, hbp, h0, by rw [hcell]; exact hc, hk1, hk2, ?_, hmap, ?_, ?_, ?_⟩
  · intro f hfm
    obtain ⟨g1, g2, g3, g4, -⟩ := hf f hfm
    exact ⟨g1, g2, g3, fun i j hi hj hij => List.pairwise_iff_getElem.mp g4 i j hi hj hij⟩
  · intro f hfm b hb hbf v hv w hw
    obtain ⟨-, -, -, g4, -⟩ := hf f hfm
    have hsplit := List.take_append_drop b.2.length f.2
    rw [← hsplit] at g4
    rw [htake f hfm b hb hbf] at hv
    exact (List.pairwise_append.mp g4).2.2 v hv w hw
  · intro b hb v hv
    obtain ⟨cv, hcv, -, hvc⟩ := pf.mem_beams hb hv
    obtain ⟨-, -, -, -, g5⟩ := hf cv hcv
    obtain ⟨s, hsv⟩ := g5 v hvc
    refine ⟨s, hsv, hext.bestScore ?_⟩
    rw [pf.kept_score hb hv]
    exact hsv
  · intro f hfm b hb hbf w hw
    refine pf.vertsCut w ?_
    have hb2 := hsame f hfm b hb hbf
    unfold droppedVertices
    by_cases hl : 0 < sd.maxHypoStackSize
    · rw [if_pos hl] at hb2 ⊢
      rw [hb2, List.length_take, Nat.min_assoc, Nat.min_self] at hw
      refine List.mem_flatMap.mpr ⟨f, hfm, ?_⟩
      by_cases hlen : sd.maxHypoStackSize ≤ f.2.length
      · rw [Nat.min_eq_left hlen] at hw
        exact hw
      · rw [Nat.min_eq_right (by omega), List.drop_length] at hw
        cases hw
    · rw [if_neg hl] at hb2
      rw [hb2, List.drop_length] at hw
      cases hw

theorem spanOrder_last (n : Nat) (hn : 0 < n) :
    ∃ pre, spanOrder n = pre ++ [(0, n - 1)] := by
  obtain ⟨k, rfl⟩ : ∃ k, n = k + 1 := ⟨n - 1, by omega⟩
  unfold spanOrder
  rw [List.range_succ_eq_map, List.reverse_cons, List.flatMap_append]
  simp only [List.flatMap_cons, List.flatMap_nil, List.append_nil, Nat.sub_zero]
  rw [List.range'_concat, List.map_append]
  refine ⟨((List.map Nat.succ (List.range k)).reverse.flatMap fun start =>
          List.map (fun width => (start, start + width - 1)) (List.range' 1 (k + 1 - start))) ++
        List.map (fun width => (0, 0 + width - 1)) (List.range' 1 k), ?_⟩
  rw [List.append_assoc]
  congr 2
  simp


/-- When every popped item has the left-hand side `c`, the buffer map has the one entry
of `c`. -/
theorem BufWF.single {σ : Type} {bufs : List (Word × List HPtr)} {L : List (CubeItem σ)}
    (w : BufWF bufs L) (c : Word) (hne : L ≠ []) (hcat : ∀ it ∈ L, it.lhs = c) :
    bufs = [(c, bufferOf c L)] := by
  have hkey : ∀ x ∈ bufs, x = (c, bufferOf c L) := by
    intro x hx
    obtain ⟨g1, g2⟩ := w.group x hx
    obtain ⟨h, hh⟩ := List.exists_mem_of_ne_nil _ g2
    rw [g1, mem_bufferOf] at hh
    obtain ⟨it, hit, hl, -⟩ := hh
    have hc : x.1 = c := by rw [← hl]; exact hcat it hit
    exact Prod.ext hc (by rw [g1, hc])
  obtain ⟨it, hit⟩ := List.exists_mem_of_ne_nil _ hne
  have hmem : c ∈ bufs.map Prod.fst := by
    have := w.cover it hit
    rw [hcat it hit] at this
    exact this
  have hnd := w.keys
  match bufs, hkey, hmem, hnd with
  | [], _, hmem, _ => cases hmem
  | [x], hkey, _, _ => rw [hkey x (List.mem_cons_self _ _)]
  | x :: y :: rest, hkey, _, hnd =>
    exfalso
    have hx := hkey x (List.mem_cons_self _ _)
    have hy := hkey y (List.mem_cons_of_mem _ (List.mem_cons_self _ _))
    simp only [List.map_cons, List.nodup_cons, List.mem_cons, not_or] at hnd
    exact hnd.1.1 (by rw [hx, hy])

/-- Claim C10.  When at least one hyperedge was popped for the full-sentence span and all
hyperedges popped for it have the same head category, `GetBestSHyperedge` returns after
`Decode` a hyperedge whose score is the maximum score of the hyperedges popped for that
span, whatever the beam limit. -/
theorem one_best_is_maximum {σ : Type} [Inhabited σ] (srt : StdSort) (ord : HashOrder)
    (lt : σ → σ → Bool) (hs : StrictWeak lt) (sd : StaticData) (source : List Word)
    (addr : Nat → VPtr) (cube : Nat × Nat → CubeQueue σ) (hp : Heap σ) (st : Manager σ)
    (c : Word) (hrun : Decode srt ord lt sd source addr cube hp = some st)
    (hpop : (cube (0, source.length - 1)).take sd.cubePruningPopLimit ≠ [])
    (hcat : ∀ it ∈ (cube (0, source.length - 1)).take sd.cubePruningPopLimit, it.lhs = c)
    (hn : source ≠ []) :
    ∃ h e, GetBestSHyperedge st source = some (some h) ∧ st.heap.edges h = some e ∧
      (∃ it ∈ (cube (0, source.length - 1)).take sd.cubePruningPopLimit,
        it.ptr = h ∧ it.score = e.score) ∧
      ∀ it ∈ (cube (0, source.length - 1)).take sd.cubePruningPopLimit,
        it.score ≤ e.score := by
  have hlen : 0 < source.length := List.length_pos.mpr hn
  obtain ⟨pre, hord⟩ := spanOrder_last source.length hlen
  unfold Decode at hrun
  rw [hord] at hrun
  obtain ⟨mp, -, e2, hempty⟩ :=
    decode_reaches_span srt ord lt sd source addr cube hp st pre [] (0, source.length - 1)
      hord hrun
  obtain ⟨E, S, PV, bufs, news, scell, hmid, hwf, -, hES, hF, hcell, -, -, pf⟩ :=
    processSpan_spec srt ord hs sd cube mp st (0, source.length - 1) e2 hempty
  have hbufs := hwf.single c hpop hcat
  subst hbufs
  match news, hF with
  | [cv], List.Forall₂.cons hcd List.Forall₂.nil =>
    obtain ⟨-, map, inv, hperm, hsorted⟩ := hcd
    simp only at inv
    obtain ⟨it0, hit0⟩ := List.exists_mem_of_ne_nil _ hpop
    have hit0m : it0.ptr ∈ bufferOf c ((cube (0, source.length - 1)).take
        sd.cubePruningPopLimit) := (mem_bufferOf _ _ _).mpr ⟨it0, hit0, hcat it0 hit0, rfl⟩
    obtain ⟨e0, he0, -, -⟩ := inv.done _ hit0m
    have hcvne : cv.2 ≠ [] := by
      intro hc
      have := hperm.symm.subset (List.mem_map.mpr ⟨e0, he0, rfl⟩)
      rw [hc] at this
      cases this
    obtain ⟨v0, tail, hv0⟩ := List.exists_cons_of_ne_nil hcvne
    have hv0mem : v0 ∈ map.map Prod.fst := hperm.subset (by rw [hv0]; simp)
    obtain ⟨ev, hev, hev1⟩ := List.mem_map.mp hv0mem
    obtain ⟨b0, rec, A, B, w1, w2, w3, -⟩ := inv.vert ev hev
    rw [hev1] at w1 w3
    have hbeam : ∃ t, truncateBeams sd.maxHypoStackSize [cv] = [(cv.1, v0 :: t)] := by
      unfold truncateBeams
      by_cases hl : sd.maxHypoStackSize > 0
      · rw [if_pos hl]
        simp only [List.map_cons, List.map_nil]
        by_cases hlen2 : cv.2.length > sd.maxHypoStackSize
        · rw [if_pos hlen2, hv0]
          obtain ⟨l, hl2⟩ : ∃ l, sd.maxHypoStackSize = l + 1 := ⟨sd.maxHypoStackSize - 1, by omega⟩
          rw [hl2, List.take_succ_cons]
          exact ⟨_, rfl⟩
        · rw [if_neg hlen2, hv0]
          exact ⟨_, rfl⟩
      · rw [if_neg hl]
        exact ⟨tail, by rw [← hv0]⟩
    obtain ⟨t, ht⟩ := hbeam
    have hb0P : b0 ∈ bufferOf c ((cube (0, source.length - 1)).take
        sd.cubePruningPopLimit) := by rw [w2]; simp
    obtain ⟨itb, hitb, -, hitb2⟩ := (mem_bufferOf _ _ _).mp hb0P
    have hscore0 : bestScore hmid v0 = some (E b0).score := by
      simp only [bestScore, w1, w3]
    have hkept := pf.retained (cv.1, v0 :: t) (by rw [ht]; exact List.mem_singleton.mpr rfl) v0
      (List.mem_cons_self _ _)
    have w1s : st.heap.verts v0 = some ⟨some b0, rec, PV v0, S v0⟩ := by
      rw [pf.vertsKept v0 hkept]; exact w1
    have w3s : st.heap.edges b0 = some { E b0 with head := v0 } := pf.keep_edge w3 hkept
    refine ⟨b0, { E b0 with head := v0 }, ?_, w3s, ⟨itb, hitb, hitb2, ?_⟩, ?_⟩
    · simp only [GetBestSHyperedge, hcell, ht, List.length_singleton, one_ne_zero, if_false,
        ne_eq, not_true_eq_false, List.getElem?_cons_zero, w1s]
    · have := (hES itb hitb).1
      rw [hitb2] at this
      rw [this]
    · intro it hit
      have hm : it.ptr ∈ bufferOf c ((cube (0, source.length - 1)).take
          sd.cubePruningPopLimit) := (mem_bufferOf _ _ _).mpr ⟨it, hit, hcat it hit, rfl⟩
      obtain ⟨ek, hek, -, dq⟩ := inv.done _ hm
      obtain ⟨bk, -, hbk, -, hmax⟩ := inv.bestScore_key hek
      have h1 : it.score ≤ (E bk).score := by
        have := hmax _ hm dq
        rw [(hES it hit).1] at this
        exact this
      have hkin : ek.1 ∈ cv.2 := hperm.symm.subset (List.mem_map.mpr ⟨ek, hek, rfl⟩)
      rw [hv0] at hkin hsorted
      show it.score ≤ (E b0).score
      rcases List.mem_cons.mp hkin with hk | hk
      · rw [hk, hscore0] at hbk
        have := Option.some.inj hbk
        rw [this]; exact h1
      · obtain ⟨sx, sy, g1, g2, g3⟩ := (List.pairwise_cons.mp hsorted).1 _ hk
        rw [hscore0] at g1
        rw [hbk] at g2
        have e1 := Option.some.inj g1
        have e2 := Option.some.inj g2
        omega

/-- The example sentence decoded with beam limit 1: the search chart, the one-best
hyperedge and the passive chart. -/
theorem Decode_demo :
    (Decode demoSort demoOrder demoLt demoStaticData [7, 8] demoAddr demoCube emptyHeap).map
      (fun st => (st.schart, GetBestSHyperedge st [7, 8], st.pchart)) =
    some ([[⟨[(7, [100])], [(2, [2]), (1, [0])]⟩, ⟨[], [(1, [4])]⟩],
        [⟨[], []⟩, ⟨[(8, [101])], []⟩]], some (some 21),
      [[⟨[(7, ⟨(0, 0), 7⟩)], [(1, ⟨(0, 0), 1⟩), (2, ⟨(0, 0), 2⟩)]⟩,
          ⟨[], [(1, ⟨(0, 1), 1⟩)]⟩],
        [⟨[], []⟩, ⟨[(8, ⟨(1, 1), 8⟩)], []⟩]]) := by
  decide

/-- The example sentence decoded with an unlimited beam: the search chart. -/
theorem Decode_demo_wide :
    (Decode demoSort demoOrder demoLt demoStaticDataWide [7, 8] demoAddr demoCube
      emptyHeap).map (fun st => st.schart) =
    some [[⟨[(7, [100])], [(2, [2]), (1, [0, 3])]⟩, ⟨[], [(1, [4, 6])]⟩],
        [⟨[], []⟩, ⟨[(8, [101])], []⟩]] := by
  decide

/-- Witness of C3: span (0,0) of the example sentence after the whole of `Decode`,
unlimited beam, where the beam of category 1 has two entries. -/
theorem beams_sorted_after_span_witness :
    StrictWeak demoLt ∧
    spanOrder ([7, 8] : List Word).length = [(1, 1)] ++ (0, 0) :: ([(0, 1)] ++ []) ∧
    ∃ st, decodeUpTo demoSort demoOrder demoLt demoStaticDataWide [7, 8] demoAddr demoCube
        emptyHeap ([(1, 1)] ++ (0, 0) :: [(0, 1)]) = some st ∧
      ∃ cell, getCell st.schart ((0, 0) : Nat × Nat).1 ((0, 0) : Nat × Nat).2 = some cell ∧
        ∀ b ∈ cell.nonTerminalBeams, ∀ i j (hi : i < b.2.length) (hj : j < b.2.length),
          i < j →
          ∃ si sj, bestScore st.heap b.2[i] = some si ∧ bestScore st.heap b.2[j] = some sj ∧
            sj ≤ si := by
  obtain ⟨st, hst⟩ := Option.isSome_iff_exists.mp
    (show (decodeUpTo demoSort demoOrder demoLt demoStaticDataWide [7, 8] demoAddr demoCube
      emptyHeap ([(1, 1)] ++ (0, 0) :: [(0, 1)])).isSome = true by decide)
  exact ⟨demoLt_strictWeak, by decide, st, hst,
    beams_sorted_after_span demoSort demoOrder demoLt demoLt_strictWeak demoStaticDataWide
      [7, 8] demoAddr demoCube emptyHeap st [(1, 1)] [(0, 1)] [] (0, 0) (by decide) hst⟩

/-- Witness of C4: span (0,0) of the example sentence after the whole of `Decode`, with
beam limit 1. -/
theorem beams_within_beamLimit_witness :
    0 < demoStaticData.maxHypoStackSize ∧
    spanOrder ([7, 8] : List Word).length = [(1, 1)] ++ (0, 0) :: ([(0, 1)] ++ []) ∧
    ∃ st, decodeUpTo demoSort demoOrder demoLt demoStaticData [7, 8] demoAddr demoCube
        emptyHeap ([(1, 1)] ++ (0, 0) :: [(0, 1)]) = some st ∧
      ∃ cell, getCell st.schart ((0, 0) : Nat × Nat).1 ((0, 0) : Nat × Nat).2 = some cell ∧
        ∀ b ∈ cell.nonTerminalBeams, b.2.length ≤ demoStaticData.maxHypoStackSize := by
  obtain ⟨st, hst⟩ := Option.isSome_iff_exists.mp
    (show (decodeUpTo demoSort demoOrder demoLt demoStaticData [7, 8] demoAddr demoCube
      emptyHeap ([(1, 1)] ++ (0, 0) :: [(0, 1)])).isSome = true by decide)
  exact ⟨by decide, by decide, st, hst,
    beams_within_beamLimit demoSort demoOrder demoLt demoStaticData [7, 8] demoAddr demoCube
      emptyHeap st [(1, 1)] [(0, 1)] [] (0, 0) (by decide) (by decide) hst⟩

/-- Witness of C5: span (0,0) of the example sentence after the whole of `Decode`, with
beam limit 1, where category 1 has two recombined vertices and one is dropped. -/
theorem beam_is_take_of_sorted_vertices_witness :
    StrictWeak demoLt ∧
    spanOrder ([7, 8] : List Word).length = [(1, 1)] ++ (0, 0) :: ([(0, 1)] ++ []) ∧
    ∃ st, decodeUpTo demoSort demoOrder demoLt demoStaticData [7, 8] demoAddr demoCube
        emptyHeap ([(1, 1)] ++ (0, 0) :: [(0, 1)]) = some st ∧
      ∃ (mp st0 : Manager Nat) (hmid : Heap Nat) (sorted : List (Word × List VPtr))
        (cell : SCell),
        decodeUpTo demoSort demoOrder demoLt demoStaticData [7, 8] demoAddr demoCube
          emptyHeap [(1, 1)] = some mp ∧
        beforePruning demoSort demoOrder demoLt demoStaticData demoCube mp (0, 0) =
          some (hmid, sorted) ∧
        decodeUpTo demoSort demoOrder demoLt demoStaticData [7, 8] demoAddr demoCube
          emptyHeap ([(1, 1)] ++ [(0, 0)]) = some st0 ∧
        getCell st.schart ((0, 0) : Nat × Nat).1 ((0, 0) : Nat × Nat).2 = some cell ∧
        (sorted.map Prod.fst).Nodup ∧
        (∀ c, c ∈ sorted.map Prod.fst ↔
          ∃ it ∈ (demoCube (0, 0)).take demoStaticData.cubePruningPopLimit, it.lhs = c) ∧
        (∀ f ∈ sorted,
          f.2.Nodup ∧
          (∀ v, v ∈ f.2 ↔ ∃ it ∈ (demoCube (0, 0)).take demoStaticData.cubePruningPopLimit,
            it.lhs = f.1 ∧ hmid.headOf it.ptr = some v) ∧
          f.2.length = countClasses demoLt []
            ((((demoCube (0, 0)).take demoStaticData.cubePruningPopLimit).filter
              (fun it => decide (it.lhs = f.1))).map (fun it => it.state)) ∧
          (∀ i j (hi : i < f.2.length) (hj : j < f.2.length), i < j →
            ScoreGE hmid f.2[i] f.2[j])) ∧
        cell.nonTerminalBeams = sorted.map (fun f =>
          (f.1, if 0 < demoStaticData.maxHypoStackSize then
            f.2.take (min demoStaticData.maxHypoStackSize f.2.length) else f.2)) ∧
        (∀ f ∈ sorted, ∀ b ∈ cell.nonTerminalBeams, b.1 = f.1 →
          ∀ v ∈ b.2, ∀ w ∈ f.2.drop b.2.length, ScoreGE hmid v w) ∧
        (∀ b ∈ cell.nonTerminalBeams, ∀ v ∈ b.2,
          ∃ s, bestScore hmid v = some s ∧ bestScore st.heap v = some s) ∧
        (∀ f ∈ sorted, ∀ b ∈ cell.nonTerminalBeams, b.1 = f.1 →
          ∀ w ∈ f.2.drop b.2.length, st0.heap.verts w = none) := by
  obtain ⟨st, hst⟩ := Option.isSome_iff_exists.mp
    (show (decodeUpTo demoSort demoOrder demoLt demoStaticData [7, 8] demoAddr demoCube
      emptyHeap ([(1, 1)] ++ (0, 0) :: [(0, 1)])).isSome = true by decide)
  exact ⟨demoLt_strictWeak, by decide, st, hst,
    beam_is_take_of_sorted_vertices demoSort demoOrder demoLt demoLt_strictWeak
      demoStaticData [7, 8] demoAddr demoCube emptyHeap st [(1, 1)] [(0, 1)] [] (0, 0)
      (by decide) hst⟩

/-- Witness of C6: the top span (0,1) of the example sentence, whose cube queue runs empty
after three pops, below the pop limit 4. -/
theorem pop_count_within_popLimit_witness :
    spanOrder ([7, 8] : List Word).length = [(1, 1), (0, 0)] ++ (0, 1) :: [] ∧
    ∃ st, decodeUpTo demoSort demoOrder demoLt demoStaticData [7, 8] demoAddr demoCube
        emptyHeap ([(1, 1), (0, 0)] ++ [(0, 1)]) = some st ∧
      ∃ mp pcell ps, decodeUpTo demoSort demoOrder demoLt demoStaticData [7, 8] demoAddr
          demoCube emptyHeap [(1, 1), (0, 0)] = some mp ∧
        getCell mp.pchart ((0, 1) : Nat × Nat).1 ((0, 1) : Nat × Nat).2 = some pcell ∧
        popLoop demoStaticData.cubePruningPopLimit (0, 1) (demoCube (0, 1)) 0 mp.heap pcell []
          = some ps ∧
        ps.count ≤ demoStaticData.cubePruningPopLimit ∧
        (ps.count < demoStaticData.cubePruningPopLimit → ps.queue.IsEmpty = true) ∧
        (demoCube (0, 1)).take ps.count ++ ps.queue = demoCube (0, 1) ∧
        (ps.buffers.map (fun b => b.2.length)).sum = ps.count := by
  obtain ⟨st, hst⟩ := Option.isSome_iff_exists.mp
    (show (decodeUpTo demoSort demoOrder demoLt demoStaticData [7, 8] demoAddr demoCube
      emptyHeap ([(1, 1), (0, 0)] ++ [(0, 1)])).isSome = true by decide)
  exact ⟨by decide, st, hst,
    pop_count_within_popLimit demoSort demoOrder demoLt demoStaticData [7, 8] demoAddr
      demoCube emptyHeap st [(1, 1), (0, 0)] [] (0, 1) (by decide) hst⟩

/-- Witness of C10: the example sentence, whose top span pops three hyperedges of
category 1 with scores 3, 9 and 4. -/
theorem one_best_is_maximum_witness :
    StrictWeak demoLt ∧ ([7, 8] : List Word) ≠ [] ∧
    (demoCube (0, ([7, 8] : List Word).length - 1)).take demoStaticData.cubePruningPopLimit
      ≠ [] ∧
    (∀ it ∈ (demoCube (0, ([7, 8] : List Word).length - 1)).take
      demoStaticData.cubePruningPopLimit, it.lhs = 1) ∧
    ∃ st, Decode demoSort demoOrder demoLt demoStaticData [7, 8] demoAddr demoCube emptyHeap
        = some st ∧
      ∃ h e, GetBestSHyperedge st [7, 8] = some (some h) ∧ st.heap.edges h = some e ∧
        (∃ it ∈ (demoCube (0, ([7, 8] : List Word).length - 1)).take
            demoStaticData.cubePruningPopLimit, it.ptr = h ∧ it.score = e.score) ∧
        ∀ it ∈ (demoCube (0, ([7, 8] : List Word).length - 1)).take
            demoStaticData.cubePruningPopLimit, it.score ≤ e.score := by
  obtain ⟨st, hst⟩ := Option.isSome_iff_exists.mp
    (show (Decode demoSort demoOrder demoLt demoStaticData [7, 8] demoAddr demoCube
      emptyHeap).isSome = true by decide)
  exact ⟨demoLt_strictWeak, by decide, by decide, by decide, st, hst,
    one_best_is_maximum demoSort demoOrder demoLt demoLt_strictWeak demoStaticData [7, 8]
      demoAddr demoCube emptyHeap st 1 hst (by decide) (by decide) (by decide)⟩

theorem flatMap_perm_update {α β κ : Type} (k : α → κ) (f g : α → List β) (x : α) (y : β) :
    ∀ (l : List α), x ∈ l → (l.map k).Nodup → (g x).Perm (f x ++ [y]) →
      (∀ a ∈ l, k a ≠ k x → g a = f a) → (l.flatMap g).Perm (l.flatMap f ++ [y]) := by
  intro l
  induction l with
  | nil => intro hx; cases hx
  | cons a t ih =>
    intro hx hnd h1 h2
    simp only [List.map_cons, List.nodup_cons, List.mem_map, not_exists, not_and] at hnd
    simp only [List.flatMap_cons]
    by_cases hax : a = x
    · subst hax
      have ht : t.flatMap g = t.flatMap f := by
        refine List.flatMap_congr ?_
        intro b hb
        exact h2 b (List.mem_cons_of_mem _ hb) (fun hc => hnd.1 b hb hc)
      rw [ht]
      refine (h1.append_right _).trans ?_
      rw [List.append_assoc, List.append_assoc]
      exact List.Perm.append_left _ List.perm_append_comm
    · have hxt : x ∈ t := by
        rcases List.mem_cons.mp hx with h | h
        · exact absurd h.symm hax
        · exact h
      have hka : k a ≠ k x := fun hc => hnd.1 x hxt hc.symm
      rw [h2 a (List.mem_cons_self _ _) hka, List.append_assoc]
      exact List.Perm.append_left _
        (ih hxt hnd.2 h1 (fun b hb => h2 b (List.mem_cons_of_mem _ hb)))

/-- One loop iteration keeps the recorded hyperedges a rearrangement of the processed part
of the buffer. -/
theorem recombineOne_recorded {σ : Type} {lt : σ → σ → Bool} (hs : StrictWeak lt)
    {E : HPtr → SHyperedge} {S : VPtr → σ}
    {PV : VPtr → Option PVertex} {hp0 : Heap σ} {buffer : List HPtr}
    (hi : InitOK E S PV hp0 buffer) (hnd : buffer.Nodup)
    {P R : List HPtr} {h : HPtr} (hb : buffer = P ++ h :: R)
    {hp : Heap σ} {map : List (VPtr × VPtr)} (inv : RInv lt E S PV hp0 P hp map)
    (hc : (map.flatMap (fun e => recorded hp e.1)).Perm P)
    (hp1 : Heap σ) (map1 : List (VPtr × VPtr))
    (hrun : recombineOne lt hp map h = some (hp1, map1)) :
    (map1.flatMap (fun e => recorded hp1 e.1)).Perm (P ++ [h]) := by
  have hmem : h ∈ buffer := by rw [hb]; simp
  have hPsub : ∀ h' ∈ P, h' ∈ buffer := fun h' hh' => by rw [hb]; simp [hh']
  have hnP : h ∉ P := by
    rw [hb] at hnd
    have := (List.nodup_append.mp hnd).2.2
    intro hc
    exact this hc (List.mem_cons_self _ _)
  have hinj : ∀ h' ∈ P, (E h').head ≠ (E h).head := by
    intro h' hh' hc
    have := hi.head_inj (hPsub h' hh') hmem hc
    exact hnP (this ▸ hh')
  have hE : hp.edges h = some (E h) := by
    rw [inv.frameE h hnP]; exact (hi h hmem).1
  have hV : hp.verts (E h).head = some ⟨some h, [], PV (E h).head, S (E h).head⟩ := by
    rw [inv.frameV _ (fun h' hh' => (hinj h' hh').symm)]; exact (hi h hmem).2
  have hI := mapInsert_eq_pure lt hp S ((E h).head, (E h).head) map ⟨_, hV, rfl⟩
    (fun e he => by
      obtain ⟨b, rec, A, B, v1, _⟩ := inv.vert e he
      exact ⟨_, v1, rfl⟩)
  rcases hr : insertPure (fun x y => lt (S x) (S y)) ((E h).head, (E h).head) map with
    ⟨m1, en, fl⟩
  rw [hr] at hI
  cases fl
  · have hf := insertPure_found (fun x y => lt (S x) (S y)) ((E h).head, (E h).head) map
      (by rw [hr])
    rw [hr] at hf
    obtain ⟨f1, f2, f3, f4⟩ := hf
    simp only at f1 f2 f3 f4
    subst f1
    obtain ⟨b, rec, A, B, v1, v2, v3, v4, v5, v6, v7⟩ := inv.vert en f2
    have hk := (inv.keys en f2).1
    have hne : (E h).head ≠ en.2 := by
      rw [hk]
      obtain ⟨_, h', hh', k2⟩ := inv.keys en f2
      rw [k2]; exact (hinj h' hh').symm
    obtain ⟨hp2, e1, e2, e3⟩ := recombineOne_dup lt hp m1 m1 h (E h) _ _ en b rec _ _ _
      hE hV hI (by rw [hk]; exact v1) v3 hne
    rw [e1] at hrun
    simp only [Option.some.injEq, Prod.mk.injEq] at hrun
    obtain ⟨r1, r2⟩ := hrun
    subst r1 r2
    have hkey : ∀ e ∈ m1, e.1 ≠ (E h).head := by
      intro e he
      obtain ⟨_, h', hh', k2⟩ := inv.keys e he
      rw [k2]; exact hinj h' hh'
    have hupd := flatMap_perm_update (fun e : VPtr × VPtr => e.1)
      (fun e => recorded hp e.1) (fun e => recorded hp2 e.1) en h m1 f2 (inv.keys_nodup hs)
      (by
        simp only [recorded, e2 en.1, hkey en f2, if_false, hk, if_true, v1]
        by_cases hsc : (E h).score > ({ E b with head := en.1 } : SHyperedge).score
        · simp only [hsc, if_true, Option.toList_some]
          simp only [List.singleton_append, List.cons_append, List.nil_append]
          exact (List.Perm.cons h (List.perm_append_singleton b rec)).trans
            (List.perm_append_singleton h (b :: rec)).symm
        · simp only [hsc, if_false, Option.toList_some, List.singleton_append,
            List.cons_append, List.perm_cons]
          exact List.Perm.refl _)
      (by
        intro a ha hka
        simp only [recorded, e2 a.1, hkey a ha, if_false]
        rw [if_neg (by rw [hk]; exact hka)])
    exact hupd.trans (hc.append_right _)
  · have hgo : recombineOne lt hp map h = some (hp, m1) := by
      simp only [recombineOne, hE, hV, hI, ne_eq, not_true_eq_false, if_false]
    rw [hgo] at hrun
    simp only [Option.some.injEq, Prod.mk.injEq] at hrun
    obtain ⟨r1, r2⟩ := hrun
    subst r1 r2
    obtain ⟨_, iperm, -, -⟩ :=
      insertPure_inserted (fun x y => lt (S x) (S y)) (fun a b c => hs.trans _ _ _) _ map
        inv.sorted (by rw [hr])
    rw [hr] at iperm
    simp only at iperm
    refine (iperm.flatMap_right _).trans ?_
    simp only [List.flatMap_cons]
    have : recorded hp (E h).head = [h] := by simp only [recorded, hV, Option.toList_some,
      List.append_nil]
    rw [this]
    exact (List.perm_append_comm).trans (hc.append_right _)

theorem recombineLoop_recorded {σ : Type} {lt : σ → σ → Bool} (hs : StrictWeak lt)
    {E : HPtr → SHyperedge} {S : VPtr → σ}
    {PV : VPtr → Option PVertex} {hp0 : Heap σ} {buffer : List HPtr}
    (hi : InitOK E S PV hp0 buffer) (hnd : buffer.Nodup) :
    ∀ (R P : List HPtr) (hp : Heap σ) (map : List (VPtr × VPtr)), buffer = P ++ R →
      RInv lt E S PV hp0 P hp map →
      (map.flatMap (fun e => recorded hp e.1)).Perm P →
      ∀ hp1 map1, recombineLoop lt R hp map = some (hp1, map1) →
        (map1.flatMap (fun e => recorded hp1 e.1)).Perm buffer := by
  intro R
  induction R with
  | nil =>
    intro P hp map hb inv hc hp1 map1 hrun
    rw [List.append_nil] at hb
    subst hb
    simp only [recombineLoop, Option.some.injEq, Prod.mk.injEq] at hrun
    obtain ⟨r1, r2⟩ := hrun
    subst r1 r2
    exact hc
  | cons h R ih =>
    intro P hp map hb inv hc hp1 map1 hrun
    obtain ⟨hp2, map2, e1, inv1⟩ := recombineOne_step hs hi hnd hb inv
    have hc1 := recombineOne_recorded hs hi hnd hb inv hc hp2 map2 e1
    simp only [recombineLoop, e1] at hrun
    exact ih (P ++ [h]) hp2 map2 (by rw [hb]; simp) inv1 hc1 hp1 map1 hrun

/-- Result of `RecombineAndSort` in terms of the loop invariant, with the conservation of
the buffer's hyperedges. -/
theorem RecombineAndSort_recorded {σ : Type} (srt : StdSort) {lt : σ → σ → Bool}
    (hs : StrictWeak lt) {E : HPtr → SHyperedge} {S : VPtr → σ}
    {PV : VPtr → Option PVertex} {hp0 : Heap σ} {buffer : List HPtr}
    (hi : InitOK E S PV hp0 buffer) (hnd : buffer.Nodup) :
    ∃ hp1 map beam, RecombineAndSort srt lt hp0 buffer = some (hp1, beam) ∧
      RInv lt E S PV hp0 buffer hp1 map ∧ beam.Perm (map.map Prod.fst) ∧
      (beam.flatMap (recorded hp1)).Perm buffer := by
  obtain ⟨hp1, map, e1, inv⟩ :=
    recombineLoop_inv hs hi hnd buffer [] hp0 [] rfl (RInv.init lt E S PV hp0)
  have hrec := recombineLoop_recorded hs hi hnd buffer [] hp0 [] rfl (RInv.init lt E S PV hp0)
    (List.Perm.refl _) hp1 map e1
  have htot : ∀ v ∈ map.map Prod.fst, ∃ s, bestScore hp1 v = some s := by
    intro v hv
    obtain ⟨e, he, rfl⟩ := List.mem_map.mp hv
    obtain ⟨b, _, hb, _⟩ := inv.bestScore_key he
    exact ⟨_, hb⟩
  obtain ⟨beam, hbeam⟩ := sortBeam_total srt hp1 _ htot
  obtain ⟨p1, -⟩ := sortBeam_some srt hp1 _ beam hbeam
  refine ⟨hp1, map, beam, by simp only [RecombineAndSort, e1, hbeam], inv, p1, ?_⟩
  refine (p1.flatMap_right _).trans ?_
  rw [List.flatMap_map]
  exact hrec

/-- Claim C17.  `RecombineAndSort` on a buffer of pairwise different hyperedges, each
arriving with its own fresh head vertex, returns, and it conserves the hyperedges: the
best hyperedges and `recombined` lists of the beam's vertices, put together, are a
rearrangement of the buffer, so every buffer hyperedge occurs there exactly once and
nothing else occurs; every hyperedge recorded under a beam vertex has that vertex as its
head; hence the head of every buffer hyperedge is a vertex of the beam, the one that
records it, and none points at a deleted duplicate. -/
theorem recombine_conserves_hyperedges {σ : Type} [Inhabited σ] (srt : StdSort)
    (lt : σ → σ → Bool) (hs : StrictWeak lt) (hp : Heap σ) (buffer : List HPtr)
    (hf : FreshBuffer hp buffer) :
    ∃ hp1 beam, RecombineAndSort srt lt hp buffer = some (hp1, beam) ∧
      (beam.flatMap (recorded hp1)).Perm buffer ∧
      (∀ h ∈ buffer, (beam.flatMap (recorded hp1)).count h = 1) ∧
      (∀ h ∈ beam.flatMap (recorded hp1), h ∈ buffer) ∧
      (∀ v ∈ beam, ∀ h ∈ recorded hp1 v, hp1.headOf h = some v) ∧
      (∀ h ∈ buffer, ∃ v ∈ beam, h ∈ recorded hp1 v ∧ hp1.headOf h = some v ∧
        (hp1.verts v).isSome = true) := by
  obtain ⟨E, S, PV, hi, -, -⟩ := hf.initOK
  obtain ⟨hp1, map, beam, hrun, inv, hperm, hrec⟩ := RecombineAndSort_recorded srt hs hi hf.1
  have hhead : ∀ v ∈ beam, ∀ h ∈ recorded hp1 v, hp1.headOf h = some v := by
    intro v hv h hh
    obtain ⟨e, he, rfl⟩ := List.mem_map.mp (hperm.subset hv)
    obtain ⟨b, rec, A, B, v1, -, v3, -, -, -, v7⟩ := inv.vert e he
    simp only [recorded, v1, Option.toList_some, List.singleton_append, List.mem_cons] at hh
    rcases hh with rfl | hh
    · simp only [Heap.headOf, v3]
    · simp only [Heap.headOf, (v7 h hh).2.1]
  refine ⟨hp1, beam, hrun, hrec, ?_, fun h hh => hrec.subset hh, hhead, ?_⟩
  · intro h hh
    rw [hrec.count_eq]
    exact List.count_eq_one_of_mem hf.1 hh
  · intro h hh
    obtain ⟨v, hv, hm⟩ := List.mem_flatMap.mp (hrec.symm.subset hh)
    refine ⟨v, hv, hm, hhead v hv h hm, ?_⟩
    obtain ⟨e, he, rfl⟩ := List.mem_map.mp (hperm.subset hv)
    obtain ⟨b, rec, A, B, v1, -⟩ := inv.vert e he
    rw [v1]; rfl

/-- Witness of C17 on the concrete buffer of three hyperedges. -/
theorem recombine_conserves_hyperedges_witness :
    StrictWeak demoLt ∧ FreshBuffer demoHeap [10, 11, 12] ∧
    ∃ hp1 beam, RecombineAndSort demoSort demoLt demoHeap [10, 11, 12] = some (hp1, beam) ∧
      (beam.flatMap (recorded hp1)).Perm [10, 11, 12] ∧
      (∀ h ∈ [10, 11, 12], (beam.flatMap (recorded hp1)).count h = 1) ∧
      (∀ h ∈ beam.flatMap (recorded hp1), h ∈ [10, 11, 12]) ∧
      (∀ v ∈ beam, ∀ h ∈ recorded hp1 v, hp1.headOf h = some v) ∧
      (∀ h ∈ [10, 11, 12], ∃ v ∈ beam, h ∈ recorded hp1 v ∧ hp1.headOf h = some v ∧
        (hp1.verts v).isSome = true) :=
  ⟨demoLt_strictWeak, ⟨by decide, by decide⟩,
    recombine_conserves_hyperedges demoSort demoLt demoLt_strictWeak demoHeap [10, 11, 12]
      ⟨by decide, by decide⟩⟩

/-- The recorded hyperedges on the concrete buffer: vertex 0 records 11 (best) and 10,
vertex 2 records 12. -/
theorem recorded_demo :
    (RecombineAndSort demoSort demoLt demoHeap [10, 11, 12]).map
      (fun r => (r.2, r.2.map (recorded r.1))) = some ([0, 2], [[11, 10], [12]]) := by
  rfl

/-- Claim C18.  `RecombineAndSort` returns, and afterwards every vertex of the beam has a
best hyperedge, every hyperedge of its `recombined` list scores at most as high as the best
one, and the best one is the first hyperedge of maximum score of its equivalence class in
buffer order: the class members before it in the buffer score strictly less, those after
it at most as much.  Every equivalence class of the buffer has such a vertex: the head of
every buffer hyperedge `h` is a vertex of the beam, whose best hyperedge is a buffer
hyperedge of the class of `h` that scores at least as high as `h`. -/
theorem recombined_not_above_best {σ : Type} [Inhabited σ] (srt : StdSort)
    (lt : σ → σ → Bool) (hs : StrictWeak lt) (hp : Heap σ) (buffer : List HPtr)
    (hf : FreshBuffer hp buffer) :
    ∃ hp1 beam, RecombineAndSort srt lt hp buffer = some (hp1, beam) ∧
      (∀ v ∈ beam, ∃ sv b m, hp1.verts v = some sv ∧ sv.best = some b ∧
        hp1.scoreOf b = some m ∧ hp.scoreOf b = some m ∧
        (∀ r ∈ sv.recombined, ∃ x, hp1.scoreOf r = some x ∧ x ≤ m) ∧
        ∃ A B, buffer = A ++ b :: B ∧
          (∀ h ∈ A, headsEquiv lt hp h b = true → ∃ x, hp.scoreOf h = some x ∧ x < m) ∧
          (∀ h ∈ B, headsEquiv lt hp h b = true → ∃ x, hp.scoreOf h = some x ∧ x ≤ m)) ∧
      (∀ h ∈ buffer, ∃ v ∈ beam, ∃ sv b m x, hp1.headOf h = some v ∧
        hp1.verts v = some sv ∧ sv.best = some b ∧ b ∈ buffer ∧
        headsEquiv lt hp h b = true ∧
        hp.scoreOf b = some m ∧ hp.scoreOf h = some x ∧ x ≤ m) := by
  obtain ⟨E, S, PV, hi, -, -⟩ := hf.initOK
  obtain ⟨hp1, map, beam, hrun, inv, hperm, -⟩ := RecombineAndSort_inv srt hs hi hf.1
  refine ⟨hp1, beam, hrun, ?_, ?_⟩
  · intro v hv
    obtain ⟨e, he, rfl⟩ := List.mem_map.mp (hperm.subset hv)
    obtain ⟨b, rec, A, B, v1, v2, v3, v4, v5, v6, v7⟩ := inv.vert e he
    have hbm : b ∈ buffer := by rw [v2]; simp
    refine ⟨_, b, (E b).score, v1, rfl, by simp only [Heap.scoreOf, v3], hi.scoreOf hbm, ?_,
      A, B, v2, ?_, ?_⟩
    · intro r hr
      exact ⟨(E r).score, by simp only [Heap.scoreOf, (v7 r hr).2.1], (v7 r hr).2.2⟩
    · intro h hh hq
      have hhm : h ∈ buffer := by rw [v2]; simp [hh]
      rw [hi.headsEquiv lt hhm hbm] at hq
      exact ⟨(E h).score, hi.scoreOf hhm, v5 h hh (equivState_trans hs hq v4)⟩
    · intro h hh hq
      have hhm : h ∈ buffer := by rw [v2]; simp [hh]
      rw [hi.headsEquiv lt hhm hbm] at hq
      exact ⟨(E h).score, hi.scoreOf hhm, v6 h hh (equivState_trans hs hq v4)⟩
  · intro h hhm
    obtain ⟨e, he, d1, d2⟩ := inv.done h hhm
    obtain ⟨b, rec, A, B, v1, v2, v3, v4, v5, v6, v7⟩ := inv.vert e he
    have hbm : b ∈ buffer := by rw [v2]; simp
    obtain ⟨b2, -, hb2, -, hmax⟩ := inv.bestScore_key he
    have hsc : (E b2).score = (E b).score := by
      simp only [bestScore, v1, v3, Option.some.injEq] at hb2
      exact hb2.symm
    refine ⟨e.1, hperm.symm.subset (List.mem_map.mpr ⟨e, he, rfl⟩), _, b, (E b).score,
      (E h).score, by simp only [Heap.headOf, d1], v1, rfl, hbm, ?_, hi.scoreOf hbm,
      hi.scoreOf hhm, ?_⟩
    · rw [hi.headsEquiv lt hhm hbm]
      exact equivState_trans hs d2 (equivState_symm v4)
    · rw [← hsc]
      exact hmax h hhm d2

/-- With a tie for the maximum the first hyperedge in buffer order stays the best one:
10 and 11 both score 9, and vertex 0 keeps 10 as best and records 11 and 12. -/
theorem RecombineAndSort_tie_demo :
    (RecombineAndSort demoSort demoLt demoTieHeap [10, 11, 12]).map
      (fun r => (r.2, (r.1.verts 0).map (fun sv => (sv.best, sv.recombined)))) =
      some ([0], some (some 10, [11, 12])) := by
  rfl

/-- Witness of C18 on a concrete buffer of three hyperedges with equivalent heads, two of
them tied for the maximum score. -/
theorem recombined_not_above_best_witness :
    StrictWeak demoLt ∧ FreshBuffer demoTieHeap [10, 11, 12] ∧
    ∃ hp1 beam, RecombineAndSort demoSort demoLt demoTieHeap [10, 11, 12] = some (hp1, beam) ∧
      (∀ v ∈ beam, ∃ sv b m, hp1.verts v = some sv ∧ sv.best = some b ∧
        hp1.scoreOf b = some m ∧ demoTieHeap.scoreOf b = some m ∧
        (∀ r ∈ sv.recombined, ∃ x, hp1.scoreOf r = some x ∧ x ≤ m) ∧
        ∃ A B, [10, 11, 12] = A ++ b :: B ∧
          (∀ h ∈ A, headsEquiv demoLt demoTieHeap h b = true →
            ∃ x, demoTieHeap.scoreOf h = some x ∧ x < m) ∧
          (∀ h ∈ B, headsEquiv demoLt demoTieHeap h b = true →
            ∃ x, demoTieHeap.scoreOf h = some x ∧ x ≤ m)) ∧
      (∀ h ∈ [10, 11, 12], ∃ v ∈ beam, ∃ sv b m x, hp1.headOf h = some v ∧
        hp1.verts v = some sv ∧ sv.best = some b ∧ b ∈ [10, 11, 12] ∧
        headsEquiv demoLt demoTieHeap h b = true ∧
        demoTieHeap.scoreOf b = some m ∧ demoTieHeap.scoreOf h = some x ∧ x ≤ m) :=
  ⟨demoLt_strictWeak, ⟨by decide, by decide⟩,
    recombined_not_above_best demoSort demoLt demoLt_strictWeak demoTieHeap [10, 11, 12]
      ⟨by decide, by decide⟩⟩

/-- Claim C11.  When the top search cell `(0, n-1)` exists and holds no nonterminal beam,
`GetBestSHyperedge` returns the null pointer and `ExtractKBest` returns with an empty list
for every `k` and both values of `onlyDistinct`, neither of them failing; and
`ExtractKBest` returns with an empty list, whatever the chart holds, when `k = 0` or the
source sentence is empty.  The list is the content of `kBestList` after the call, which
line 291 clears first, so nothing of its previous content is left. -/
theorem no_derivation_gives_null_and_empty {σ δ : Type} (sd : StaticData)
    (Extract : List VPtr → Nat → List δ) (GetOutputPhrase : δ → List Word) (m : Manager σ)
    (source : List Word) (cell : SCell)
    (hcell : getCell m.schart 0 (source.length - 1) = some cell)
    (hno : cell.nonTerminalBeams = []) :
    GetBestSHyperedge m source = some none ∧
    (∀ (k : Nat) (onlyDistinct : Bool),
      ExtractKBest sd Extract GetOutputPhrase m source k onlyDistinct = some []) ∧
    (∀ (m1 : Manager σ) (source1 : List Word) (k : Nat) (onlyDistinct : Bool),
      k = 0 ∨ source1 = [] →
      ExtractKBest sd Extract GetOutputPhrase m1 source1 k onlyDistinct = some []) := by
  refine ⟨?_, ?_, ?_⟩
  · simp only [GetBestSHyperedge, hcell, hno, List.length_nil, if_true]
  · intro k od
    simp only [ExtractKBest, hcell, hno, List.length_nil, if_true]
    split <;> rfl
  · intro m1 source1 k od h
    have : k = 0 ∨ source1.length = 0 := by
      rcases h with h | h
      · exact Or.inl h
      · exact Or.inr (by rw [h]; rfl)
    simp only [ExtractKBest, this, if_true]

/-- Witness of C11: a one-word sentence whose top cell holds the terminal beam only. -/
theorem no_derivation_gives_null_and_empty_witness :
    getCell demoManagerNoParse.schart 0 (([7] : List Word).length - 1) =
      some ⟨[(7, [100])], []⟩ ∧
    (⟨[(7, [100])], []⟩ : SCell).nonTerminalBeams = [] ∧
    GetBestSHyperedge demoManagerNoParse [7] = some none ∧
    (∀ (k : Nat) (onlyDistinct : Bool),
      ExtractKBest demoStaticData demoExtract Prod.snd demoManagerNoParse [7] k onlyDistinct
        = some []) ∧
    (∀ (m1 : Manager Nat) (source1 : List Word) (k : Nat) (onlyDistinct : Bool),
      k = 0 ∨ source1 = [] →
      ExtractKBest demoStaticData demoExtract Prod.snd m1 source1 k onlyDistinct = some []) :=
  ⟨by decide, rfl,
    no_derivation_gives_null_and_empty demoStaticData demoExtract Prod.snd demoManagerNoParse
      [7] ⟨[(7, [100])], []⟩ (by decide) rfl⟩

/-- The first entry of a score-sorted beam of a recombined buffer carries the maximum
score of the whole buffer. -/
theorem RInv.first_is_max {σ : Type} {lt : σ → σ → Bool} {E : HPtr → SHyperedge}
    {S : VPtr → σ} {PV : VPtr → Option PVertex} {hp0 hp1 : Heap σ} {buf : List HPtr}
    {map : List (VPtr × VPtr)} (inv : RInv lt E S PV hp0 buf hp1 map)
    {v0 : VPtr} {tail : List VPtr} (hperm : (v0 :: tail).Perm (map.map Prod.fst))
    (hsorted : (v0 :: tail).Pairwise (ScoreGE hp1)) :
    ∃ b0 rec, b0 ∈ buf ∧ hp1.verts v0 = some ⟨some b0, rec, PV v0, S v0⟩ ∧
      hp1.edges b0 = some { E b0 with head := v0 } ∧
      ∀ h ∈ buf, (E h).score ≤ (E b0).score := by
  have hv0mem : v0 ∈ map.map Prod.fst := hperm.subset (List.mem_cons_self _ _)
  obtain ⟨ev, hev, hev1⟩ := List.mem_map.mp hv0mem
  obtain ⟨b0, rec, A, B, w1, w2, w3, -⟩ := inv.vert ev hev
  rw [hev1] at w1 w3
  have hscore0 : bestScore hp1 v0 = some (E b0).score := by
    simp only [bestScore, w1, w3]
  refine ⟨b0, rec, by rw [w2]; simp, w1, w3, ?_⟩
  intro h hm
  obtain ⟨ek, hek, -, dq⟩ := inv.done _ hm
  obtain ⟨bk, -, hbk, -, hmax⟩ := inv.bestScore_key hek
  have h1 : (E h).score ≤ (E bk).score := hmax _ hm dq
  have hkin : ek.1 ∈ v0 :: tail := hperm.symm.subset (List.mem_map.mpr ⟨ek, hek, rfl⟩)
  rcases List.mem_cons.mp hkin with hk | hk
  · rw [hk, hscore0] at hbk
    have := Option.some.inj hbk
    rw [this]; exact h1
  · obtain ⟨sx, sy, g1, g2, g3⟩ := (List.pairwise_cons.mp hsorted).1 _ hk
    rw [hscore0] at g1
    rw [hbk] at g2
    have e1 := Option.some.inj g1
    have e2 := Option.some.inj g2
    omega

/-- Shape of the search cell right after a span was processed with beam limit 1. -/
theorem categories_at_span {σ : Type} [Inhabited σ] (srt : StdSort)
    (ord : HashOrder) (lt : σ → σ → Bool) (hs : StrictWeak lt) (sd : StaticData)
    (source : List Word) (addr : Nat → VPtr) (cube : Nat × Nat → CubeQueue σ) (hp : Heap σ)
    (st : Manager σ) (pre post : List (Nat × Nat)) (range : Nat × Nat)
    (hord : spanOrder source.length = pre ++ range :: post)
    (hrun : decodeUpTo srt ord lt sd source addr cube hp (pre ++ [range]) = some st) :
    ∃ cell, getCell st.schart range.1 range.2 = some cell ∧
      (cell.nonTerminalBeams.map Prod.fst).Nodup ∧
      (∀ c, c ∈ cell.nonTerminalBeams.map Prod.fst ↔
        ∃ it ∈ (cube range).take sd.cubePruningPopLimit, it.lhs = c) ∧
      (sd.maxHypoStackSize = 1 → ∀ b ∈ cell.nonTerminalBeams, ∃ v h rec pv s e,
        b.2 = [v] ∧ st.heap.verts v = some ⟨some h, rec, pv, s⟩ ∧ st.heap.edges h = some e ∧
        (∃ it ∈ (cube range).take sd.cubePruningPopLimit,
          it.lhs = b.1 ∧ it.ptr = h ∧ it.score = e.score) ∧
        ∀ it ∈ (cube range).take sd.cubePruningPopLimit, it.lhs = b.1 →
          it.score ≤ e.score) := by
  obtain ⟨mp, -, e2, hempty⟩ :=
    decode_reaches_span srt ord lt sd source addr cube hp st pre post range hord hrun
  obtain ⟨E, S, PV, bufs, news, scell, hmid, hwf, -, hES, hF, hcell, -, -, pf⟩ :=
    processSpan_spec srt ord hs sd cube mp st range e2 hempty
  have hkeys : (truncateBeams sd.maxHypoStackSize news).map Prod.fst = bufs.map Prod.fst := by
    rw [truncateBeams_keys, forall₂_catDone_keys hF]
  refine ⟨_, hcell, ?_, ?_, ?_⟩
  · show ((truncateBeams sd.maxHypoStackSize news).map Prod.fst).Nodup
    rw [hkeys]; exact hwf.keys
  · intro c
    show c ∈ (truncateBeams sd.maxHypoStackSize news).map Prod.fst ↔ _
    rw [hkeys]
    constructor
    · intro hc
      obtain ⟨x, hx, rfl⟩ := List.mem_map.mp hc
      obtain ⟨g1, g2⟩ := hwf.group x hx
      obtain ⟨h, hh⟩ := List.exists_mem_of_ne_nil _ g2
      rw [g1, mem_bufferOf] at hh
      obtain ⟨it, hit, hl, -⟩ := hh
      exact ⟨it, hit, hl⟩
    · rintro ⟨it, hit, rfl⟩
      exact hwf.cover it hit
  · intro hlim b hb
    obtain ⟨cv, hcv, hb1, hb2⟩ := mem_truncateBeams _ _ b hb
    obtain ⟨cb, hcb, hc1, map, inv, hperm, hsorted⟩ := forall₂_mem_right hF hcv
    have hbuf : cb.2 = bufferOf b.1 ((cube range).take sd.cubePruningPopLimit) := by
      rw [hb1, ← hc1]; exact (hwf.group cb hcb).1
    obtain ⟨h0, hh0⟩ := List.exists_mem_of_ne_nil _ (hwf.group cb hcb).2
    obtain ⟨e0, he0, -, -⟩ := inv.done _ hh0
    have hcvne : cv.2 ≠ [] := by
      intro hc
      have := hperm.symm.subset (List.mem_map.mpr ⟨e0, he0, rfl⟩)
      rw [hc] at this
      cases this
    obtain ⟨v0, tail, hv0⟩ := List.exists_cons_of_ne_nil hcvne
    rw [hv0] at hperm hsorted
    obtain ⟨b0, rec, hb0, w1, w3, hmax⟩ := inv.first_is_max hperm hsorted
    rw [hbuf, mem_bufferOf] at hb0
    obtain ⟨itb, hitb, hl, hitb2⟩ := hb0
    have hb3 : b.2 = [v0] := by
      rw [hb2, hlim, if_pos (by decide), hv0]
      simp
    have hkept := pf.retained b hb v0 (by rw [hb3]; exact List.mem_singleton.mpr rfl)
    refine ⟨v0, b0, rec, _, _, _, hb3, by rw [pf.vertsKept v0 hkept]; exact w1,
      pf.keep_edge w3 hkept, ⟨itb, hitb, hl, hitb2, ?_⟩, ?_⟩
    · have := (hES itb hitb).1
      rw [hitb2] at this
      rw [this]
    · intro it hit hl2
      have hm : it.ptr ∈ cb.2 := by rw [hbuf, mem_bufferOf]; exact ⟨it, hit, hl2, rfl⟩
      have := hmax _ hm
      rw [(hES it hit).1] at this
      exact this

/-- Claim C15.  With `beamLimit = 1`, after a span was processed (right after it, `mid = []`,
and at every later point of `Decode`) its search cell holds one nonterminal beam for each
category among the heads of the popped hyperedges and no other: the keys are pairwise
different, they are the categories of the popped hyperedges, and their number is the number
`c` of distinct categories.  Every beam holds exactly one vertex, whose best hyperedge is
one of the hyperedges popped for the category and scores at least as high as each of them.
The vertices that survive in the cell are `c` in number. -/
theorem one_beam_per_category {σ : Type} [Inhabited σ] (srt : StdSort)
    (ord : HashOrder) (lt : σ → σ → Bool) (hs : StrictWeak lt) (sd : StaticData)
    (source : List Word) (addr : Nat → VPtr) (cube : Nat × Nat → CubeQueue σ) (hp : Heap σ)
    (st : Manager σ) (pre mid post : List (Nat × Nat)) (range : Nat × Nat)
    (hord : spanOrder source.length = pre ++ range :: (mid ++ post))
    (hrun : decodeUpTo srt ord lt sd source addr cube hp (pre ++ range :: mid) = some st)
    (hlim : sd.maxHypoStackSize = 1) :
    ∃ cell, getCell st.schart range.1 range.2 = some cell ∧
      (cell.nonTerminalBeams.map Prod.fst).Nodup ∧
      (∀ c, c ∈ cell.nonTerminalBeams.map Prod.fst ↔
        ∃ it ∈ (cube range).take sd.cubePruningPopLimit, it.lhs = c) ∧
      cell.nonTerminalBeams.length =
        ((((cube range).take sd.cubePruningPopLimit).map (fun it => it.lhs)).dedup).length ∧
      (∀ b ∈ cell.nonTerminalBeams, ∃ v h rec pv s e,
        b.2 = [v] ∧ st.heap.verts v = some ⟨some h, rec, pv, s⟩ ∧ st.heap.edges h = some e ∧
        (∃ it ∈ (cube range).take sd.cubePruningPopLimit,
          it.lhs = b.1 ∧ it.ptr = h ∧ it.score = e.score) ∧
        ∀ it ∈ (cube range).take sd.cubePruningPopLimit, it.lhs = b.1 →
          it.score ≤ e.score) ∧
      (cell.nonTerminalBeams.map (fun b => b.2.length)).sum =
        ((((cube range).take sd.cubePruningPopLimit).map (fun it => it.lhs)).dedup).length := by
  obtain ⟨st0, h0, h1, hcell⟩ :=
    decode_after_span_cell srt ord lt sd source addr cube hp st pre mid post range hord hrun
  have hext := decode_after_span_heap srt ord hs sd source addr cube hp st0 st pre mid post
    range hord h0 h1
  obtain ⟨cell, hc, hnd, hkeys, hone⟩ := categories_at_span srt ord lt hs sd source addr cube
    hp st0 pre (mid ++ post) range hord h0
  have hlen : cell.nonTerminalBeams.length =
      ((((cube range).take sd.cubePruningPopLimit).map (fun it => it.lhs)).dedup).length := by
    rw [← List.length_map cell.nonTerminalBeams Prod.fst]
    refine List.Perm.length_eq ?_
    rw [List.perm_ext_iff_of_nodup hnd (List.nodup_dedup _)]
    intro c
    rw [hkeys c, List.mem_dedup, List.mem_map]
  have hones : ∀ b ∈ cell.nonTerminalBeams, b.2.length = 1 := by
    intro b hb
    obtain ⟨v, _, _, _, _, _, hv, -⟩ := hone hlim b hb
    rw [hv]; rfl
  refine ⟨cell, by rw [hcell]; exact hc, hnd, hkeys, hlen, ?_, ?_⟩
  · intro b hb
    obtain ⟨v, h, rec, pv, s, e, q1, q2, q3, q4, q5⟩ := hone hlim b hb
    exact ⟨v, h, rec, pv, s, e, q1, hext.1 _ _ q2, hext.2 _ _ q3, q4, q5⟩
  · rw [← hlen]
    have : cell.nonTerminalBeams.map (fun b => b.2.length) =
        cell.nonTerminalBeams.map (fun _ => 1) :=
      List.map_congr_left hones
    rw [this]
    simp

/-- Span (0,0) of the example sentence with pop limit 3 and beam limit 1: three
hyperedges over the two categories 1 and 2 leave two beams of one vertex each, two
vertices in all. -/
theorem Decode_demo_three :
    (Decode demoSort demoOrder demoLt demoStaticDataThree [7, 8] demoAddr demoCube
      emptyHeap).map (fun st => ((getCell st.schart 0 0).map (fun c => c.nonTerminalBeams),
        bestScore st.heap 0, bestScore st.heap 2)) =
    some (some [(2, [2]), (1, [0])], some 9, some 4) := by
  decide

/-- Witness of C15: span (0,0) of the example sentence with pop limit 3 and beam limit 1,
after the whole of `Decode`. -/
theorem one_beam_per_category_witness :
    StrictWeak demoLt ∧
    spanOrder ([7, 8] : List Word).length = [(1, 1)] ++ (0, 0) :: ([(0, 1)] ++ []) ∧
    demoStaticDataThree.maxHypoStackSize = 1 ∧
    ((((demoCube (0, 0)).take demoStaticDataThree.cubePruningPopLimit).map
      (fun it => it.lhs)).dedup).length = 2 ∧
    ∃ st, decodeUpTo demoSort demoOrder demoLt demoStaticDataThree [7, 8] demoAddr demoCube
        emptyHeap ([(1, 1)] ++ (0, 0) :: [(0, 1)]) = some st ∧
      ∃ cell, getCell st.schart ((0, 0) : Nat × Nat).1 ((0, 0) : Nat × Nat).2 = some cell ∧
        (cell.nonTerminalBeams.map Prod.fst).Nodup ∧
        (∀ c, c ∈ cell.nonTerminalBeams.map Prod.fst ↔
          ∃ it ∈ (demoCube (0, 0)).take demoStaticDataThree.cubePruningPopLimit,
            it.lhs = c) ∧
        cell.nonTerminalBeams.length =
          ((((demoCube (0, 0)).take demoStaticDataThree.cubePruningPopLimit).map
            (fun it => it.lhs)).dedup).length ∧
        (∀ b ∈ cell.nonTerminalBeams, ∃ v h rec pv s e,
          b.2 = [v] ∧ st.heap.verts v = some ⟨some h, rec, pv, s⟩ ∧
          st.heap.edges h = some e ∧
          (∃ it ∈ (demoCube (0, 0)).take demoStaticDataThree.cubePruningPopLimit,
            it.lhs = b.1 ∧ it.ptr = h ∧ it.score = e.score) ∧
          ∀ it ∈ (demoCube (0, 0)).take demoStaticDataThree.cubePruningPopLimit,
            it.lhs = b.1 → it.score ≤ e.score) ∧
        (cell.nonTerminalBeams.map (fun b => b.2.length)).sum =
          ((((demoCube (0, 0)).take demoStaticDataThree.cubePruningPopLimit).map
            (fun it => it.lhs)).dedup).length := by
  obtain ⟨st, hst⟩ := Option.isSome_iff_exists.mp
    (show (decodeUpTo demoSort demoOrder demoLt demoStaticDataThree [7, 8] demoAddr demoCube
      emptyHeap ([(1, 1)] ++ (0, 0) :: [(0, 1)])).isSome = true by decide)
  exact ⟨demoLt_strictWeak, by decide, rfl, by decide, st, hst,
    one_beam_per_category demoSort demoOrder demoLt demoLt_strictWeak demoStaticDataThree
      [7, 8] demoAddr demoCube emptyHeap st [(1, 1)] [(0, 1)] [] (0, 0) (by decide) hst rfl⟩

theorem getCell_replicate_some {α : Type} (n : Nat) (a : α) (i j : Nat) (hi : i < n)
    (hj : j < n) : getCell (List.replicate n (List.replicate n a)) i j = some a := by
  simp [getCell, List.getElem?_replicate, hi, hj]

theorem setCell_shape {α : Type} (cells : List (List α)) (i j : Nat) (x : α) :
    (setCell cells i j x).map List.length = cells.map List.length := by
  unfold setCell
  cases hr : cells[i]? with
  | none => rfl
  | some row =>
    simp only
    rw [List.map_set, List.length_set]
    have hi : i < cells.length := by
      by_contra hc
      rw [List.getElem?_eq_none (by omega)] at hr
      cases hr
    have : row = cells[i] := by
      rw [List.getElem?_eq_getElem hi] at hr
      exact (Option.some.inj hr).symm
    rw [this]
    refine List.ext_getElem (by simp) ?_
    intro t h1 h2
    rw [List.getElem_set]
    split
    · rename_i h; subst h; simp
    · rfl

/-- A loop over the source positions that fills the empty diagonal cells. -/
theorem diagonal_fold {α : Type} (empty : α) (full : Nat → Word → α)
    (f : List (List α) → Nat × Word → List (List α))
    (hf : ∀ cells k w, getCell cells k k = some empty →
      f cells (k, w) = setCell cells k k (full k w)) :
    ∀ (ws : List Word) (k : Nat) (c : List (List α)),
      (∀ i, k ≤ i → i < k + ws.length → getCell c i i = some empty) →
      (∀ t (ht : t < ws.length),
        getCell ((indexed k ws).foldl f c) (k + t) (k + t) = some (full (k + t) ws[t])) ∧
      (∀ i j, (i ≠ j ∨ i < k ∨ k + ws.length ≤ i) →
        getCell ((indexed k ws).foldl f c) i j = getCell c i j) ∧
      ((indexed k ws).foldl f c).map List.length = c.map List.length := by
  intro ws
  induction ws with
  | nil =>
    intro k c _
    refine ⟨fun t ht => absurd ht (Nat.not_lt_zero _), fun _ _ _ => rfl, rfl⟩
  | cons w ws ih =>
    intro k c hc
    have hk : getCell c k k = some empty := hc k (le_refl _) (by simp)
    simp only [indexed, List.foldl_cons, hf c k w hk]
    have hc1 : ∀ i, k + 1 ≤ i → i < k + 1 + ws.length →
        getCell (setCell c k k (full k w)) i i = some empty := by
      intro i h1 h2
      rw [getCell_setCell_ne _ _ _ _ _ _ (by intro hq; injection hq with hq1; omega)]
      exact hc i (by omega) (by simp only [List.length_cons]; omega)
    obtain ⟨i1, i2, i3⟩ := ih (k + 1) _ hc1
    refine ⟨?_, ?_, ?_⟩
    · intro t ht
      cases t with
      | zero =>
        simp only [Nat.add_zero, List.getElem_cons_zero]
        rw [i2 k k (Or.inr (Or.inl (by omega)))]
        exact getCell_setCell_same _ _ _ _ _ hk
      | succ t =>
        have := i1 t (by simpa using ht)
        simp only [List.getElem_cons_succ]
        have e : k + (t + 1) = k + 1 + t := by omega
        rw [e]
        exact this
    · intro i j hij
      rw [i2 i j (by simp only [List.length_cons] at hij; omega)]
      refine getCell_setCell_ne _ _ _ _ _ _ ?_
      intro hq
      injection hq with hq1 hq2
      simp only [List.length_cons] at hij
      omega
    · rw [i3, setCell_shape]

/-- The passive chart `InitializePChart` builds, cell by cell. -/
theorem InitializePChart_cells (source : List Word) :
    (InitializePChart source).map List.length =
      List.replicate source.length source.length ∧
    (∀ i (hi : i < source.length), getCell (InitializePChart source) i i =
      some ⟨[(source[i], ⟨(i, i), source[i]⟩)], []⟩) ∧
    (∀ i j, i < source.length → j < source.length → i ≠ j →
      getCell (InitializePChart source) i j = some ⟨[], []⟩) := by
  unfold InitializePChart
  have gen : ∀ f : List (List PCell) → Nat × Word → List (List PCell),
      (∀ cells k w, getCell cells k k = some ⟨[], []⟩ →
        f cells (k, w) = setCell cells k k ⟨[(w, ⟨(k, k), w⟩)], []⟩) →
      ((indexed 0 source).foldl f
          (List.replicate source.length (List.replicate source.length ⟨[], []⟩))).map
        List.length = List.replicate source.length source.length ∧
      (∀ i (hi : i < source.length), getCell ((indexed 0 source).foldl f
          (List.replicate source.length (List.replicate source.length ⟨[], []⟩))) i i =
        some ⟨[(source[i], ⟨(i, i), source[i]⟩)], []⟩) ∧
      (∀ i j, i < source.length → j < source.length → i ≠ j →
        getCell ((indexed 0 source).foldl f
          (List.replicate source.length (List.replicate source.length ⟨[], []⟩))) i j =
        some ⟨[], []⟩) := by
    intro f hf
    obtain ⟨h1, h2, h3⟩ := diagonal_fold (⟨[], []⟩ : PCell)
      (fun k w => ⟨[(w, ⟨(k, k), w⟩)], []⟩) f hf source 0
      (List.replicate source.length (List.replicate source.length ⟨[], []⟩))
      (fun i _ hi => getCell_replicate_some _ _ _ _ (by omega) (by omega))
    refine ⟨?_, ?_, ?_⟩
    · rw [h3]
      simp
    · intro i hi
      have := h1 i hi
      simp only [Nat.zero_add] at this
      exact this
    · intro i j hi hj hij
      rw [h2 i j (Or.inl hij)]
      exact getCell_replicate_some _ _ _ _ hi hj
  exact gen _ (fun cells k w hk => by simp only [hk]; rfl)

/-- The second loop of `InitializeSChart` from position `k` on. -/
theorem initSVertices_run {σ : Type} [Inhabited σ] (pchart : List (List PCell))
    (addr : Nat → VPtr) :
    ∀ (ws : List Word) (k : Nat) (acc : Heap σ × List (List SCell)),
      (∀ t (ht : t < ws.length), ∃ pcell, getCell pchart (k + t) (k + t) = some pcell ∧
        NMapFind pcell.terminalVertices ws[t] = some ⟨(k + t, k + t), ws[t]⟩) →
      (∀ t, t < ws.length → acc.1.verts (addr (k + t)) = none) →
      (∀ t1 t2, t1 < ws.length → t2 < ws.length → addr (k + t1) = addr (k + t2) → t1 = t2) →
      (∀ i, k ≤ i → i < k + ws.length → getCell acc.2 i i = some ⟨[], []⟩) →
      ∃ acc1, initSVertices pchart addr (indexed k ws) acc = some acc1 ∧
        (∀ t (ht : t < ws.length),
          getCell acc1.2 (k + t) (k + t) = some ⟨[(ws[t], [addr (k + t)])], []⟩ ∧
          acc1.1.verts (addr (k + t)) =
            some ⟨none, [], some ⟨(k + t, k + t), ws[t]⟩, default⟩) ∧
        (∀ i j, (i ≠ j ∨ i < k ∨ k + ws.length ≤ i) →
          getCell acc1.2 i j = getCell acc.2 i j) ∧
        acc1.2.map List.length = acc.2.map List.length ∧
        (∀ p, (∀ t, t < ws.length → p ≠ addr (k + t)) → acc1.1.verts p = acc.1.verts p) ∧
        acc1.1.edges = acc.1.edges := by
  intro ws
  induction ws with
  | nil =>
    intro k acc _ _ _ _
    exact ⟨acc, rfl, fun t ht => absurd ht (Nat.not_lt_zero _), fun _ _ _ => rfl, rfl,
      fun _ _ => rfl, rfl⟩
  | cons w ws ih =>
    intro k acc hpc hfree hinj hcells
    obtain ⟨pcell, hp1, hp2⟩ := hpc 0 (by simp)
    simp only [Nat.add_zero, List.getElem_cons_zero] at hp1 hp2
    have hf0 := hfree 0 (by simp)
    rw [Nat.add_zero] at hf0
    have hk : getCell acc.2 k k = some ⟨[], []⟩ := hcells k (le_refl _) (by simp)
    have hstep : initSVertex pchart addr acc (k, w) =
        some (acc.1.setVert (addr k) (some ⟨none, [], some ⟨(k, k), w⟩, default⟩),
          setCell acc.2 k k ⟨[(w, [addr k])], []⟩) := by
      simp only [initSVertex, hf0, hp1, hp2, hk]
      rfl
    have hne : ∀ t, t < ws.length → addr (k + 1 + t) ≠ addr k := by
      intro t ht hc
      have := hinj (t + 1) 0 (by simpa using ht) (by simp)
        (by
          have e : k + (t + 1) = k + 1 + t := by omega
          rw [Nat.add_zero, e]; exact hc)
      omega
    obtain ⟨acc1, e1, q1, q2, q3, q4, q5⟩ := ih (k + 1)
      (acc.1.setVert (addr k) (some ⟨none, [], some ⟨(k, k), w⟩, default⟩),
        setCell acc.2 k k ⟨[(w, [addr k])], []⟩)
      (by
        intro t ht
        obtain ⟨pc, g1, g2⟩ := hpc (t + 1) (by simpa using ht)
        simp only [List.getElem_cons_succ] at g1 g2
        have e : k + (t + 1) = k + 1 + t := by omega
        rw [e] at g1 g2
        exact ⟨pc, g1, g2⟩)
      (by
        intro t ht
        simp only [Heap.setVert_verts, if_neg (hne t ht)]
        have := hfree (t + 1) (by simpa using ht)
        have e : k + (t + 1) = k + 1 + t := by omega
        rw [e] at this
        exact this)
      (by
        intro t1 t2 h1 h2 hc
        have := hinj (t1 + 1) (t2 + 1) (by simpa using h1) (by simpa using h2)
          (by
            have e1 : k + (t1 + 1) = k + 1 + t1 := by omega
            have e2 : k + (t2 + 1) = k + 1 + t2 := by omega
            rw [e1, e2]; exact hc)
        omega)
      (by
        intro i h1 h2
        simp only
        rw [getCell_setCell_ne _ _ _ _ _ _ (by intro hq; injection hq with hq1; omega)]
        exact hcells i (by omega) (by simp only [List.length_cons]; omega))
    refine ⟨acc1, by simp only [indexed, initSVertices, hstep, e1], ?_, ?_, ?_, ?_, ?_⟩
    · intro t ht
      cases t with
      | zero =>
        simp only [Nat.add_zero, List.getElem_cons_zero]
        rw [q2 k k (Or.inr (Or.inl (by omega))), q4 (addr k) (fun t ht => (hne t ht).symm)]
        exact ⟨getCell_setCell_same _ _ _ _ _ hk, by simp only [Heap.setVert_verts, if_true]⟩
      | succ t =>
        have := q1 t (by simpa using ht)
        simp only [List.getElem_cons_succ]
        have e : k + (t + 1) = k + 1 + t := by omega
        rw [e]
        exact this
    · intro i j hij
      rw [q2 i j (by simp only [List.length_cons] at hij; omega)]
      refine getCell_setCell_ne _ _ _ _ _ _ ?_
      intro hq
      injection hq with hq1 hq2
      simp only [List.length_cons] at hij
      omega
    · rw [q3, setCell_shape]
    · intro p hp
      rw [q4 p (fun t ht => by
        have := hp (t + 1) (by simpa using ht)
        have e : k + (t + 1) = k + 1 + t := by omega
        rw [e] at this
        exact this)]
      have := hp 0 (by simp)
      rw [Nat.add_zero] at this
      simp only [Heap.setVert_verts, if_neg this]
    · rw [q5]; rfl

/-- The method `InitializeSChart` on the chart of `InitializePChart`, with addresses that are free
and pairwise different: it returns, and the result is described cell by cell. -/
theorem InitializeSChart_cells {σ : Type} [Inhabited σ] (source : List Word)
    (addr : Nat → VPtr) (hp : Heap σ)
    (hfree : ∀ i, i < source.length → hp.verts (addr i) = none)
    (hinj : ∀ i j, i < source.length → j < source.length → addr i = addr j → i = j) :
    ∃ hp1 schart,
      InitializeSChart source addr (InitializePChart source) hp = some (hp1, schart) ∧
      schart.map List.length = List.replicate source.length source.length ∧
      (∀ i (hi : i < source.length),
        getCell schart i i = some ⟨[(source[i], [addr i])], []⟩ ∧
        hp1.verts (addr i) = some ⟨none, [], some ⟨(i, i), source[i]⟩, default⟩) ∧
      (∀ i j, i < source.length → j < source.length → i ≠ j →
        getCell schart i j = some ⟨[], []⟩) ∧
      (∀ p, (∀ i, i < source.length → p ≠ addr i) → hp1.verts p = hp.verts p) ∧
      hp1.edges = hp.edges := by
  obtain ⟨-, c2, -⟩ := InitializePChart_cells source
  obtain ⟨acc1, e1, q1, q2, q3, q4, q5⟩ := initSVertices_run (InitializePChart source) addr
    source 0 (hp, List.replicate source.length (List.replicate source.length ⟨[], []⟩))
    (by
      intro t ht
      refine ⟨_, by rw [Nat.zero_add]; exact c2 t ht, ?_⟩
      simp [NMapFind])
    (by intro t ht; rw [Nat.zero_add]; exact hfree t ht)
    (by intro t1 t2 h1 h2 hc; rw [Nat.zero_add, Nat.zero_add] at hc; exact hinj t1 t2 h1 h2 hc)
    (fun i _ hi => getCell_replicate_some _ _ _ _ (by omega) (by omega))
  refine ⟨acc1.1, acc1.2, e1, ?_, ?_, ?_, ?_, q5⟩
  · rw [q3]; simp
  · intro i hi
    have := q1 i hi
    simp only [Nat.zero_add] at this
    exact this
  · intro i j hi hj hij
    rw [q2 i j (Or.inl hij)]
    exact getCell_replicate_some _ _ _ _ hi hj
  · intro p hp1
    exact q4 p (fun t ht => by rw [Nat.zero_add]; exact hp1 t ht)

theorem square_of_lengths {α : Type} (cells : List (List α)) (n : Nat)
    (h : cells.map List.length = List.replicate n n) :
    cells.length = n ∧ ∀ row ∈ cells, row.length = n := by
  constructor
  · have := congrArg List.length h
    simpa using this
  · intro row hrow
    have : row.length ∈ cells.map List.length := List.mem_map.mpr ⟨row, hrow, rfl⟩
    rw [h] at this
    exact (List.mem_replicate.mp this).2

/-- Claim C20.  For a source sentence of length `n`, `InitializePChart` yields a chart of
`n` rows of `n` cells in which cell `(i,i)` holds exactly the terminal vertex with span
`(i,i)` and symbol the source word `i`, found there under that word, and every cell
`(i,j)` with `i ≠ j` holds no terminal vertex.  Run afterwards with vertex addresses that
are free and pairwise different, `InitializeSChart` returns (the lookup of the source word
in passive cell `(i,i)` succeeds for every `i`, so the assertion of line 65 holds) with
a chart of `n` rows of `n` cells in which cell `(i,i)` has one terminal beam, that of the
source word `i`, of exactly one vertex, which has no best hyperedge, no recombined
hyperedge and refers to the passive vertex of cell `(i,i)`. -/
theorem chart_initialisation {σ : Type} [Inhabited σ] (source : List Word)
    (addr : Nat → VPtr) (hp : Heap σ)
    (hfree : ∀ i, i < source.length → hp.verts (addr i) = none)
    (hinj : ∀ i j, i < source.length → j < source.length → addr i = addr j → i = j) :
    (InitializePChart source).length = source.length ∧
    (∀ row ∈ InitializePChart source, row.length = source.length) ∧
    (∀ i (hi : i < source.length), ∃ pcell,
      getCell (InitializePChart source) i i = some pcell ∧
      pcell.terminalVertices = [(source[i], ⟨(i, i), source[i]⟩)] ∧
      NMapFind pcell.terminalVertices source[i] = some ⟨(i, i), source[i]⟩) ∧
    (∀ i j, i < source.length → j < source.length → i ≠ j → ∃ pcell,
      getCell (InitializePChart source) i j = some pcell ∧ pcell.terminalVertices = []) ∧
    ∃ hp1 schart,
      InitializeSChart source addr (InitializePChart source) hp = some (hp1, schart) ∧
      schart.length = source.length ∧
      (∀ row ∈ schart, row.length = source.length) ∧
      ∀ i (hi : i < source.length), ∃ scell,
        getCell schart i i = some scell ∧
        scell.terminalBeams = [(source[i], [addr i])] ∧
        hp1.verts (addr i) = some ⟨none, [], some ⟨(i, i), source[i]⟩, default⟩ := by
  obtain ⟨c1, c2, c3⟩ := InitializePChart_cells source
  obtain ⟨hp1, schart, e1, s1, s2, -, -, -⟩ := InitializeSChart_cells source addr hp hfree hinj
  refine ⟨(square_of_lengths _ _ c1).1, (square_of_lengths _ _ c1).2, ?_, ?_, hp1, schart, e1,
    (square_of_lengths _ _ s1).1, (square_of_lengths _ _ s1).2, ?_⟩
  · intro i hi
    exact ⟨_, c2 i hi, rfl, by simp [NMapFind]⟩
  · intro i j hi hj hij
    exact ⟨_, c3 i j hi hj hij, rfl⟩
  · intro i hi
    exact ⟨_, (s2 i hi).1, rfl, (s2 i hi).2⟩

/-- The charts of the two-word example sentence. -/
theorem initial_charts_demo :
    InitializePChart [7, 8] =
      [[⟨[(7, ⟨(0, 0), 7⟩)], []⟩, ⟨[], []⟩], [⟨[], []⟩, ⟨[(8, ⟨(1, 1), 8⟩)], []⟩]] ∧
    (InitializeSChart [7, 8] demoAddr (InitializePChart [7, 8]) emptyHeap).map
      (fun r => (r.2, r.1.verts 100, r.1.verts 101)) =
      some ([[⟨[(7, [100])], []⟩, ⟨[], []⟩], [⟨[], []⟩, ⟨[(8, [101])], []⟩]],
        some ⟨none, [], some ⟨(0, 0), 7⟩, 0⟩, some ⟨none, [], some ⟨(1, 1), 8⟩, 0⟩) := by
  constructor
  · decide
  · rfl

/-- Witness of C20: the two-word example sentence on the empty object store. -/
theorem chart_initialisation_witness :
    (∀ i, i < ([7, 8] : List Word).length → emptyHeap.verts (demoAddr i) = none) ∧
    (∀ i j, i < ([7, 8] : List Word).length → j < ([7, 8] : List Word).length →
      demoAddr i = demoAddr j → i = j) ∧
    (InitializePChart [7, 8]).length = ([7, 8] : List Word).length ∧
    (∀ row ∈ InitializePChart [7, 8], row.length = ([7, 8] : List Word).length) ∧
    (∀ i (hi : i < ([7, 8] : List Word).length), ∃ pcell,
      getCell (InitializePChart [7, 8]) i i = some pcell ∧
      pcell.terminalVertices = [(([7, 8] : List Word)[i], ⟨(i, i), ([7, 8] : List Word)[i]⟩)] ∧
      NMapFind pcell.terminalVertices ([7, 8] : List Word)[i] =
        some ⟨(i, i), ([7, 8] : List Word)[i]⟩) ∧
    (∀ i j, i < ([7, 8] : List Word).length → j < ([7, 8] : List Word).length → i ≠ j →
      ∃ pcell, getCell (InitializePChart [7, 8]) i j = some pcell ∧
        pcell.terminalVertices = []) ∧
    ∃ hp1 schart,
      InitializeSChart [7, 8] demoAddr (InitializePChart [7, 8]) emptyHeap =
        some (hp1, schart) ∧
      schart.length = ([7, 8] : List Word).length ∧
      (∀ row ∈ schart, row.length = ([7, 8] : List Word).length) ∧
      ∀ i (hi : i < ([7, 8] : List Word).length), ∃ scell,
        getCell schart i i = some scell ∧
        scell.terminalBeams = [(([7, 8] : List Word)[i], [demoAddr i])] ∧
        hp1.verts (demoAddr i) =
          some ⟨none, [], some ⟨(i, i), ([7, 8] : List Word)[i]⟩, default⟩ :=
  ⟨fun _ _ => rfl, fun _ _ _ _ h => Nat.add_left_cancel h,
    chart_initialisation [7, 8] demoAddr emptyHeap (fun _ _ => rfl)
      (fun _ _ _ _ h => Nat.add_left_cancel h)⟩

theorem NMapFind_mem {α : Type} (c : Word) (v : α) :
    ∀ m : List (Word × α), NMapFind m c = some v → (c, v) ∈ m := by
  intro m
  induction m with
  | nil => intro h; cases h
  | cons kv rest ih =>
    obtain ⟨k, w⟩ := kv
    intro h
    simp only [NMapFind] at h
    by_cases hk : k = c
    · rw [if_pos hk] at h
      rw [hk, Option.some.inj h]
      exact List.mem_cons_self _ _
    · rw [if_neg hk] at h
      exact List.mem_cons_of_mem _ (ih h)

/-- The statement `Insert(lhs, PVertex(range, lhs))` on a map whose entries all have that form. -/
theorem NMapInsert_pvertex (range : Nat × Nat) (m : List (Word × PVertex)) (k : Word)
    (hm : ∀ x ∈ m, x.2 = ⟨range, x.1⟩) (hnd : (m.map Prod.fst).Nodup) :
    (NMapInsert m k ⟨range, k⟩).2 = ⟨range, k⟩ ∧
    (∀ x ∈ (NMapInsert m k ⟨range, k⟩).1, x.2 = ⟨range, x.1⟩) ∧
    ((NMapInsert m k ⟨range, k⟩).1.map Prod.fst).Nodup ∧
    (∀ c, c ∈ (NMapInsert m k ⟨range, k⟩).1.map Prod.fst ↔ c ∈ m.map Prod.fst ∨ c = k) := by
  unfold NMapInsert
  cases hf : NMapFind m k with
  | some v =>
    have hmem := NMapFind_mem k v m hf
    have hv := hm _ hmem
    simp only at hv
    refine ⟨hv, hm, hnd, ?_⟩
    intro c
    constructor
    · exact fun h => Or.inl h
    · rintro (h | h)
      · exact h
      · rw [h]; exact List.mem_map.mpr ⟨_, hmem, rfl⟩
  | none =>
    have hnk : k ∉ m.map Prod.fst := by
      intro hc
      obtain ⟨x, hx, hxk⟩ := List.mem_map.mp hc
      have : ∀ m : List (Word × PVertex), (∃ x ∈ m, x.1 = k) → NMapFind m k ≠ none := by
        intro m
        induction m with
        | nil => rintro ⟨x, hx, -⟩; cases hx
        | cons kv rest ih =>
          rintro ⟨x, hx, hxk⟩
          simp only [NMapFind]
          by_cases hk : kv.1 = k
          · rw [if_pos hk]; simp
          · rw [if_neg hk]
            rcases List.mem_cons.mp hx with rfl | hx
            · exact absurd hxk hk
            · exact ih ⟨x, hx, hxk⟩
      exact this m ⟨x, hx, hxk⟩ hf
    refine ⟨rfl, ?_, ?_, ?_⟩
    · intro x hx
      rcases List.mem_append.mp hx with hx | hx
      · exact hm x hx
      · have : x = (k, ⟨range, k⟩) := by simpa using hx
        rw [this]
    · simp only [List.map_append, List.map_cons, List.map_nil]
      refine List.Nodup.append hnd (List.nodup_singleton _) ?_
      intro a ha hb
      have : a = k := by simpa using hb
      exact hnk (this ▸ ha)
    · intro c
      simp [List.map_append]

/-- The passive cell and the passive-vertex links that the pop loop leaves. -/
theorem popLoop_pcell {σ : Type} (popLimit : Nat) (range : Nat × Nat) :
    ∀ (q : CubeQueue σ) (count : Nat) (hp : Heap σ) (pcell : PCell)
      (buffers : List (Word × List HPtr)) (ps : PopState σ),
      popLoop popLimit range q count hp pcell buffers = some ps →
      (∀ x ∈ pcell.nonTerminalVertices, x.2 = ⟨range, x.1⟩) →
      (pcell.nonTerminalVertices.map Prod.fst).Nodup →
      ps.pcell.terminalVertices = pcell.terminalVertices ∧
      (∀ x ∈ ps.pcell.nonTerminalVertices, x.2 = ⟨range, x.1⟩) ∧
      (ps.pcell.nonTerminalVertices.map Prod.fst).Nodup ∧
      (∀ c, c ∈ ps.pcell.nonTerminalVertices.map Prod.fst ↔
        c ∈ pcell.nonTerminalVertices.map Prod.fst ∨
          ∃ it ∈ q.take (popLimit - count), it.lhs = c) ∧
      ∀ it ∈ q.take (popLimit - count),
        ps.heap.verts it.head = some ⟨some it.ptr, [], some ⟨range, it.lhs⟩, it.state⟩ := by
  intro q
  induction q with
  | nil =>
    intro count hp pcell buffers ps h hm hnd
    simp only [popLoop, Option.some.injEq] at h
    subst h
    refine ⟨rfl, hm, hnd, ?_, ?_⟩
    · intro c; simp
    · intro it hit; simp at hit
  | cons it rest ih =>
    intro count hp pcell buffers ps h hm hnd
    simp only [popLoop] at h
    by_cases hc : count < popLimit
    · rw [if_pos hc] at h
      cases hcr : it.create hp with
      | none => simp [hcr] at h
      | some hp1 =>
        obtain ⟨f1, f2, rfl⟩ := CubeItem.create_some it hp hp1 hcr
        simp only [hcr, Heap.setVert_edges, Heap.setEdge_edges, if_true, Heap.setVert_verts] at h
        obtain ⟨n1, n2, n3, n4⟩ := NMapInsert_pvertex range pcell.nonTerminalVertices it.lhs hm hnd
        obtain ⟨i1, i2, i3, i4, i5⟩ := ih _ _ _ _ ps h n2 n3
        obtain ⟨-, -, -, ph⟩ := popLoop_spec _ _ _ _ _ _ _ ps h
        have hk : popLimit - count = (popLimit - (count + 1)) + 1 := by omega
        rw [hk, List.take_succ_cons]
        refine ⟨i1, i2, i3, ?_, ?_⟩
        · intro c
          rw [i4 c, n4 c]
          constructor
          · rintro ((h1 | h1) | ⟨x, hx, hxc⟩)
            · exact Or.inl h1
            · exact Or.inr ⟨it, List.mem_cons_self _ _, h1.symm⟩
            · exact Or.inr ⟨x, List.mem_cons_of_mem _ hx, hxc⟩
          · rintro (h1 | ⟨x, hx, hxc⟩)
            · exact Or.inl (Or.inl h1)
            · rcases List.mem_cons.mp hx with rfl | hx
              · exact Or.inl (Or.inr hxc.symm)
              · exact Or.inr ⟨x, hx, hxc⟩
        · intro x hx
          rcases List.mem_cons.mp hx with rfl | hx
          · have hrestV : ∀ y ∈ rest.take (popLimit - (count + 1)), x.head ≠ y.head := by
              intro y hy hcx
              have := (ph.free y hy).2
              simp [Heap.setVert_verts, hcx] at this
            rw [ph.frameV _ hrestV]
            simp only [Heap.setVert_verts, if_true, n1]
          · exact i5 x hx
    · rw [if_neg hc] at h
      simp only [Option.some.injEq] at h
      subst h
      have hk : popLimit - count = 0 := by omega
      rw [hk]
      refine ⟨rfl, hm, hnd, ?_, ?_⟩
      · intro c; simp
      · intro it hit; simp at hit

theorem forall₂_mem_left {α β : Type} {R : α → β → Prop} {l1 : List α} {l2 : List β}
    (h : List.Forall₂ R l1 l2) {a : α} (ha : a ∈ l1) : ∃ b ∈ l2, R a b := by
  induction h with
  | nil => cases ha
  | cons hab _ ih =>
    rcases List.mem_cons.mp ha with rfl | ha
    · exact ⟨_, List.mem_cons_self _ _, hab⟩
    · obtain ⟨b, hb, hr⟩ := ih ha
      exact ⟨b, List.mem_cons_of_mem _ hb, hr⟩

/-- What the body of the span loop does to a passive cell that holds no nonterminal vertex
yet, and where the heads of the popped hyperedges point when the pruning step starts. -/
theorem processSpan_pvertex {σ : Type} [Inhabited σ] (srt : StdSort) (ord : HashOrder)
    {lt : σ → σ → Bool} (hs : StrictWeak lt) (sd : StaticData)
    (cube : Nat × Nat → CubeQueue σ) (m st : Manager σ) (range : Nat × Nat)
    (h : processSpan srt ord lt sd cube m range = some st)
    (hempty : ∀ cell, getCell m.schart range.1 range.2 = some cell →
      cell.nonTerminalBeams = [])
    (hpempty : ∀ cell, getCell m.pchart range.1 range.2 = some cell →
      cell.nonTerminalVertices = []) :
    ∃ pcell0 pcell hmid news, getCell m.pchart range.1 range.2 = some pcell0 ∧
      getCell st.pchart range.1 range.2 = some pcell ∧
      pcell.terminalVertices = pcell0.terminalVertices ∧
      (pcell.nonTerminalVertices.map Prod.fst).Nodup ∧
      (∀ x ∈ pcell.nonTerminalVertices, x.2 = ⟨range, x.1⟩) ∧
      (∀ c, c ∈ pcell.nonTerminalVertices.map Prod.fst ↔
        ∃ it ∈ (cube range).take sd.cubePruningPopLimit, it.lhs = c) ∧
      beforePruning srt ord lt sd cube m range = some (hmid, news) ∧
      ∀ it ∈ (cube range).take sd.cubePruningPopLimit, ∃ e sv,
        hmid.edges it.ptr = some e ∧ e.lhs = it.lhs ∧
        hmid.verts e.head = some sv ∧ sv.pvertex = some ⟨range, it.lhs⟩ := by
  unfold processSpan at h
  split at h
  · rename_i pcell scell hpc hsc
    have hnb := hempty scell hsc
    have hnv := hpempty pcell hpc
    split at h
    · cases h
    · rename_i ps hps
      obtain ⟨-, -, hbufs, ph⟩ := popLoop_spec _ _ _ _ _ _ _ ps hps
      obtain ⟨c1, c2, c3, c4, c5⟩ := popLoop_pcell _ _ _ _ _ _ _ ps hps
        (by rw [hnv]; intro x hx; cases hx) (by rw [hnv]; exact List.nodup_nil)
      simp only [Nat.sub_zero] at hbufs ph c4 c5
      have hwf : BufWF (ord.run ps.buffers) ((cube range).take sd.cubePruningPopLimit) := by
        have := BufWF.foldl ((cube range).take sd.cubePruningPopLimit) [] [] BufWF.nil
        rw [← hbufs, List.nil_append] at this
        exact this.perm (ord.perm _)
      have hperm : ((ord.run ps.buffers).flatMap Prod.snd).Perm
          (((cube range).take sd.cubePruningPopLimit).map (fun it => it.ptr)) := by
        refine ((ord.perm ps.buffers).flatMap_right Prod.snd).trans ?_
        have := foldl_bufferPush_flatMap ((cube range).take sd.cubePruningPopLimit) []
        rw [← hbufs] at this
        simpa using this
      obtain ⟨E, S, PV, hi, hE, hV⟩ := ph.fresh.initOK
      have hi2 : InitOK E S PV ps.heap ((ord.run ps.buffers).flatMap Prod.snd) :=
        fun x hx => hi x (hperm.subset hx)
      obtain ⟨hp1, news, hrun, hF, -, -⟩ := recombineAll_spec srt hs (ord.run ps.buffers)
        ps.heap [] hi2 (hperm.nodup_iff.mpr ph.ptrs) hwf.keys (fun c _ hc => by cases hc)
      rw [hnb, hrun] at h
      simp only [List.nil_append] at h hrun
      have := Option.some.inj h
      subst this
      have hES : ∀ it ∈ (cube range).take sd.cubePruningPopLimit,
          E it.ptr = ⟨it.head, it.score, it.lhs⟩ ∧ PV it.head = some ⟨range, it.lhs⟩ := by
        intro it hit
        obtain ⟨o1, -⟩ := ph.objs it hit
        constructor
        · rcases hE it.ptr with h1 | h1
          · rw [o1] at h1; exact (Option.some.inj h1).symm
          · rw [o1] at h1; cases h1
        · exact ((hV it.head _ (c5 it hit)).2).symm
      refine ⟨pcell, ps.pcell, hp1, news, hpc, getCell_setCell_same _ _ _ _ _ hpc, c1, c3, c2,
        ?_, ?_, ?_⟩
      · intro c
        rw [c4 c, hnv]
        simp
      · unfold beforePruning
        simp only [hpc, hsc, hps, hnb]
        exact hrun
      · intro it hit
        obtain ⟨cb, hcb, hcb1⟩ := List.mem_map.mp (hwf.cover it hit)
        obtain ⟨cv, -, -, map, inv, -, -⟩ := forall₂_mem_left hF hcb
        have hbuf := (hwf.group cb hcb).1
        have hm : it.ptr ∈ cb.2 := by
          rw [hbuf, mem_bufferOf]; exact ⟨it, hit, hcb1.symm, rfl⟩
        obtain ⟨e, he, d1, -⟩ := inv.done _ hm
        obtain ⟨b, rec, A, B, v1, -⟩ := inv.vert e he
        obtain ⟨-, h0, hh0, k2⟩ := inv.keys e he
        rw [hbuf, mem_bufferOf] at hh0
        obtain ⟨it0, hit0, hl0, hp0⟩ := hh0
        have hk : e.1 = it0.head := by rw [k2, ← hp0, (hES it0 hit0).1]
        refine ⟨_, _, d1, by rw [(hES it hit).1], v1, ?_⟩
        show PV e.1 = _
        rw [hk, (hES it0 hit0).2, hl0, hcb1]
  · cases h

theorem processSpan_pcell_frame {σ : Type} (srt : StdSort) (ord : HashOrder)
    (lt : σ → σ → Bool) (sd : StaticData) (cube : Nat × Nat → CubeQueue σ)
    (m m1 : Manager σ) (range : Nat × Nat)
    (h : processSpan srt ord lt sd cube m range = some m1) (i j : Nat)
    (hne : (range.1, range.2) ≠ (i, j)) :
    getCell m1.pchart i j = getCell m.pchart i j := by
  unfold processSpan at h
  split at h
  · split at h
    · cases h
    · split at h
      · cases h
      · have := Option.some.inj h
        subst this
        exact getCell_setCell_ne _ _ _ _ _ _ hne
  · cases h

theorem decodeSpans_pcell_frame {σ : Type} (srt : StdSort) (ord : HashOrder)
    (lt : σ → σ → Bool) (sd : StaticData) (cube : Nat × Nat → CubeQueue σ) (i j : Nat) :
    ∀ (l : List (Nat × Nat)) (m m1 : Manager σ),
      decodeSpans srt ord lt sd cube l m = some m1 → (i, j) ∉ l →
      getCell m1.pchart i j = getCell m.pchart i j := by
  intro l
  induction l with
  | nil =>
    intro m m1 h _
    simp only [decodeSpans, Option.some.injEq] at h
    subst h; rfl
  | cons r rest ih =>
    intro m m1 h hn
    simp only [decodeSpans] at h
    cases h1 : processSpan srt ord lt sd cube m r with
    | none => simp [h1] at h
    | some m2 =>
      simp only [h1] at h
      simp only [List.mem_cons, not_or] at hn
      rw [ih m2 m1 h hn.2]
      exact processSpan_pcell_frame srt ord lt sd cube m m2 r h1 i j
        (fun hc => hn.1 (by rw [← hc]))

theorem getCell_some_lt {α : Type} (cells : List (List α)) (n : Nat)
    (hsq : cells.map List.length = List.replicate n n) (i j : Nat) (x : α)
    (h : getCell cells i j = some x) : i < n ∧ j < n := by
  obtain ⟨s1, s2⟩ := square_of_lengths cells n hsq
  unfold getCell at h
  cases hr : cells[i]? with
  | none => simp [hr] at h
  | some row =>
    simp only [hr] at h
    have hi : i < cells.length := by
      by_contra hc
      rw [List.getElem?_eq_none (by omega)] at hr
      cases hr
    have hrow : row ∈ cells := by
      rw [List.getElem?_eq_getElem hi] at hr
      rw [← Option.some.inj hr]
      exact List.getElem_mem hi
    have hj : j < row.length := by
      by_contra hc
      rw [List.getElem?_eq_none (by omega)] at h
      cases h
    rw [s2 row hrow] at hj
    exact ⟨by omega, hj⟩

/-- When the span loop starts no cell of the passive chart holds a nonterminal vertex. -/
theorem decodeInit_pchart {σ : Type} [Inhabited σ] (source : List Word) (addr : Nat → VPtr)
    (hp : Heap σ) (m0 : Manager σ) (h : decodeInit source addr hp = some m0) :
    m0.pchart = InitializePChart source ∧
    ∀ i j cell, getCell m0.pchart i j = some cell → cell.nonTerminalVertices = [] := by
  unfold decodeInit at h
  split at h
  · cases h
  · have := Option.some.inj h
    subst this
    refine ⟨rfl, ?_⟩
    intro i j cell hc
    simp only at hc
    obtain ⟨c1, c2, c3⟩ := InitializePChart_cells source
    obtain ⟨hi, hj⟩ := getCell_some_lt _ _ c1 i j cell hc
    by_cases hij : i = j
    · subst hij
      rw [c2 i hi] at hc
      rw [← Option.some.inj hc]
    · rw [c3 i j hi hj hij] at hc
      rw [← Option.some.inj hc]

/-- The passive cell of a span that `Decode` is about to process holds no nonterminal
vertex yet. -/
theorem decode_reaches_span_pchart {σ : Type} [Inhabited σ] (srt : StdSort) (ord : HashOrder)
    (lt : σ → σ → Bool) (sd : StaticData) (source : List Word) (addr : Nat → VPtr)
    (cube : Nat × Nat → CubeQueue σ) (hp : Heap σ) (mp : Manager σ)
    (pre post : List (Nat × Nat)) (range : Nat × Nat)
    (hord : spanOrder source.length = pre ++ range :: post)
    (hrun : decodeUpTo srt ord lt sd source addr cube hp pre = some mp) :
    getCell mp.pchart range.1 range.2 = getCell (InitializePChart source) range.1 range.2 ∧
    ∀ cell, getCell mp.pchart range.1 range.2 = some cell →
      cell.nonTerminalVertices = [] := by
  unfold decodeUpTo at hrun
  cases hinit : decodeInit source addr hp with
  | none => simp [hinit] at hrun
  | some m0 =>
  simp only [hinit] at hrun
  have hnd : (spanOrder source.length).Nodup := spanOrder_nodup _
  rw [hord] at hnd
  have hnot : (range.1, range.2) ∉ pre := by
    intro hm
    have := (List.nodup_append.mp hnd).2.2 hm
    exact this (List.mem_cons_self _ _)
  have hfr := decodeSpans_pcell_frame srt ord lt sd cube range.1 range.2 pre m0 mp hrun hnot
  obtain ⟨d1, d2⟩ := decodeInit_pchart source addr hp m0 hinit
  refine ⟨by rw [hfr, d1], ?_⟩
  intro cell hc
  rw [hfr] at hc
  exact d2 _ _ cell hc

theorem NMapFind_pvertex (range : Nat × Nat) (c : Word) :
    ∀ m : List (Word × PVertex), (∀ x ∈ m, x.2 = ⟨range, x.1⟩) → c ∈ m.map Prod.fst →
      NMapFind m c = some ⟨range, c⟩ := by
  intro m
  induction m with
  | nil => intro _ hc; cases hc
  | cons kv rest ih =>
    obtain ⟨k, v⟩ := kv
    intro hm hc
    simp only [NMapFind]
    by_cases hk : k = c
    · rw [if_pos hk]
      have := hm (k, v) (List.mem_cons_self _ _)
      simp only at this
      rw [this, hk]
    · rw [if_neg hk]
      refine ih (fun x hx => hm x (List.mem_cons_of_mem _ hx)) ?_
      simp only [List.map_cons, List.mem_cons] at hc
      rcases hc with hc | hc
      · exact absurd hc.symm hk
      · exact hc

/-- Claim C19, amended.  After `Decode` has processed a span (right after it, `mid = []`,
and at every later point) the passive cell of the span holds exactly one nonterminal
passive vertex for each distinct target left-hand side among the hyperedges popped for the
span and none for any other symbol: the keys are pairwise different, every entry is the
vertex with that span and its key as symbol, and a symbol is a key exactly when a popped
hyperedge has it as left-hand side.  The keys are the categories that have a beam in the
search cell of the span.  When the pruning step of the span starts (object store `hmid`)
the head of every popped hyperedge is a vertex that refers to the passive vertex stored in
the cell for the left-hand side of the hyperedge; after the span this is still so for
every popped hyperedge whose head is in a beam of the search cell, and every vertex of
such a beam is the head of a popped hyperedge of the category of the beam. -/
theorem lazy_passive_vertices {σ : Type} [Inhabited σ] (srt : StdSort)
    (ord : HashOrder) (lt : σ → σ → Bool) (hs : StrictWeak lt) (sd : StaticData)
    (source : List Word) (addr : Nat → VPtr) (cube : Nat × Nat → CubeQueue σ) (hp : Heap σ)
    (st : Manager σ) (pre mid post : List (Nat × Nat)) (range : Nat × Nat)
    (hord : spanOrder source.length = pre ++ range :: (mid ++ post))
    (hrun : decodeUpTo srt ord lt sd source addr cube hp (pre ++ range :: mid) = some st) :
    ∃ (mp : Manager σ) (hmid : Heap σ) (sorted : List (Word × List VPtr)) (pcell : PCell)
      (scell : SCell),
      decodeUpTo srt ord lt sd source addr cube hp pre = some mp ∧
      beforePruning srt ord lt sd cube mp range = some (hmid, sorted) ∧
      getCell st.pchart range.1 range.2 = some pcell ∧
      getCell st.schart range.1 range.2 = some scell ∧
      (pcell.nonTerminalVertices.map Prod.fst).Nodup ∧
      (∀ x ∈ pcell.nonTerminalVertices, x.2 = ⟨range, x.1⟩) ∧
      (∀ c, c ∈ pcell.nonTerminalVertices.map Prod.fst ↔
        ∃ it ∈ (cube range).take sd.cubePruningPopLimit, it.lhs = c) ∧
      (∀ c, c ∈ pcell.nonTerminalVertices.map Prod.fst ↔
        c ∈ scell.nonTerminalBeams.map Prod.fst) ∧
      (∀ it ∈ (cube range).take sd.cubePruningPopLimit, ∃ e sv pv,
        hmid.edges it.ptr = some e ∧ e.lhs = it.lhs ∧
        hmid.verts e.head = some sv ∧ sv.pvertex = some pv ∧
        pv = ⟨range, it.lhs⟩ ∧ NMapFind pcell.nonTerminalVertices it.lhs = some pv ∧
        ((∃ b ∈ scell.nonTerminalBeams, e.head ∈ b.2) →
          st.heap.edges it.ptr = some e ∧ st.heap.verts e.head = some sv)) ∧
      (∀ b ∈ scell.nonTerminalBeams, ∀ v ∈ b.2,
        ∃ it ∈ (cube range).take sd.cubePruningPopLimit,
          it.lhs = b.1 ∧ st.heap.headOf it.ptr = some v) := by
  obtain ⟨st0, h0, h1, hcell⟩ :=
    decode_after_span_cell srt ord lt sd source addr cube hp st pre mid post range hord hrun
  have hext := decode_after_span_heap srt ord hs sd source addr cube hp st0 st pre mid post
    range hord h0 h1
  obtain ⟨mp, e1, e2, hempty⟩ :=
    decode_reaches_span srt ord lt sd source addr cube hp st0 pre (mid ++ post) range hord h0
  obtain ⟨-, hpempty⟩ :=
    decode_reaches_span_pchart srt ord lt sd source addr cube hp mp pre (mid ++ post) range
      hord e1
  obtain ⟨pcell0, pcell, hmid2, news2, -, p1, -, p2, p3, p4, hbp2, p5⟩ :=
    processSpan_pvertex srt ord hs sd cube mp st0 range e2 hempty hpempty
  obtain ⟨hmid, sorted, scell0, hbp, hc, pf, -, hk2, hf⟩ :=
    sorted_vertices_at_span srt ord hs sd cube mp st0 range e2 hempty
  rw [hbp] at hbp2
  have heq := Option.some.inj hbp2
  have hm2 : hmid2 = hmid := (congrArg Prod.fst heq).symm
  subst hm2
  have hnd := spanOrder_nodup source.length
  rw [hord] at hnd
  have hnot : (range.1, range.2) ∉ mid := by
    intro hm
    have h2 := (List.nodup_append.mp hnd).2.1
    rw [List.nodup_cons] at h2
    exact h2.1 (List.mem_append_left _ hm)
  have hpc : getCell st.pchart range.1 range.2 = some pcell := by
    rw [decodeSpans_pcell_frame srt ord lt sd cube range.1 range.2 mid st0 st h1 hnot]
    exact p1
  refine ⟨mp, hmid2, sorted, pcell, _, e1, hbp, hpc, by rw [hcell]; exact hc, p2, p3, p4,
    ?_, ?_, ?_⟩
  · intro c
    show _ ↔ c ∈ (truncateBeams sd.maxHypoStackSize sorted).map Prod.fst
    rw [p4 c, truncateBeams_keys, hk2 c]
  · intro it hit
    obtain ⟨e, sv, q1, q2, q3, q4⟩ := p5 it hit
    refine ⟨e, sv, _, q1, q2, q3, q4, rfl,
      NMapFind_pvertex range it.lhs _ p3 ((p4 it.lhs).mpr ⟨it, hit, rfl⟩), ?_⟩
    rintro ⟨b, hb, hv⟩
    have hkept := pf.retained b hb e.head hv
    refine ⟨hext.2 _ _ (pf.keep_edge q1 hkept), hext.1 _ _ ?_⟩
    rw [pf.vertsKept _ hkept]
    exact q3
  · intro b hb v hv
    obtain ⟨cv, hcv, hcb, hvc⟩ := pf.mem_beams hb hv
    obtain ⟨-, g2, -⟩ := hf cv hcv
    obtain ⟨it, hit, hl, hh⟩ := (g2 v).mp hvc
    refine ⟨it, hit, by rw [hl, hcb], hext.headOf ?_⟩
    unfold Heap.headOf at hh ⊢
    cases hq : hmid2.edges it.ptr with
    | none => simp [hq] at hh
    | some e =>
      simp only [hq, Option.some.injEq] at hh
      have hkept := pf.retained b hb v hv
      rw [← hh] at hkept
      rw [pf.keep_edge hq hkept]
      simp only [hh]

/-- The example sentence decoded with beam limit 1, at span (0,0): the beams when the pruning
step starts, the beams left in the cell, and whether vertex 3, hyperedge 13 (cut from the
beam of category 1) and vertex 0, hyperedge 11 (kept) are in the object store afterwards. -/
theorem pruning_demo :
    (decodeUpTo demoSort demoOrder demoLt demoStaticData [7, 8] demoAddr demoCube emptyHeap
      [(1, 1)]).bind (fun mp =>
        (beforePruning demoSort demoOrder demoLt demoStaticData demoCube mp (0, 0)).bind
          (fun r => (processSpan demoSort demoOrder demoLt demoStaticData demoCube mp
            (0, 0)).map (fun st => (r.2, getCell st.schart 0 0,
              (st.heap.verts 3).isSome, (st.heap.edges 13).isSome,
              (st.heap.verts 0).isSome, (st.heap.edges 11).isSome)))) =
    some ([(2, [2]), (1, [0, 3])], some ⟨[(7, [100])], [(2, [2]), (1, [0])]⟩,
      false, false, true, true) := by
  rfl

/-- Counterexample to C19 as stated: the example sentence decoded with beam limit 1.  The
hyperedge 13 is popped for span (0,0) with left-hand side 1 and head vertex 3; vertex 3 is
cut from the beam of category 1 by `beam.resize` and deleted, so after `Decode` the head of
this popped hyperedge is no vertex of the object store and refers to no passive vertex. -/
theorem popped_head_cut_by_pruning :
    ∃ st, Decode demoSort demoOrder demoLt demoStaticData [7, 8] demoAddr demoCube emptyHeap
        = some st ∧
      ∃ it ∈ (demoCube (0, 0)).take demoStaticData.cubePruningPopLimit,
        it.ptr = 13 ∧ it.head = 3 ∧ st.heap.verts it.head = none ∧
        ¬ ∃ e sv, st.heap.edges it.ptr = some e ∧ st.heap.verts e.head = some sv := by
  have h : (Decode demoSort demoOrder demoLt demoStaticData [7, 8] demoAddr demoCube
      emptyHeap).map (fun st => ((st.heap.verts 3).isNone, (st.heap.edges 13).isNone)) =
      some (true, true) := by decide
  cases hd : Decode demoSort demoOrder demoLt demoStaticData [7, 8] demoAddr demoCube
      emptyHeap with
  | none => rw [hd] at h; cases h
  | some st =>
    rw [hd] at h
    simp only [Option.map_some', Option.some.injEq, Prod.mk.injEq, Option.isNone_iff_eq_none]
      at h
    refine ⟨st, rfl, ⟨13, 3, 8, 1, 6⟩, by simp [demoCube, demoStaticData], rfl, rfl, h.1, ?_⟩
    rintro ⟨e, sv, h1, -⟩
    rw [h.2] at h1
    cases h1

/-- Witness of C19: span (0,0) of the example sentence after the whole of `Decode` with
beam limit 1; its passive cell holds the vertices of the categories 1 and 2. -/
theorem lazy_passive_vertices_witness :
    StrictWeak demoLt ∧
    spanOrder ([7, 8] : List Word).length = [(1, 1)] ++ (0, 0) :: ([(0, 1)] ++ []) ∧
    ∃ st, decodeUpTo demoSort demoOrder demoLt demoStaticData [7, 8] demoAddr demoCube
        emptyHeap ([(1, 1)] ++ (0, 0) :: [(0, 1)]) = some st ∧
      ∃ (mp : Manager Nat) (hmid : Heap Nat) (sorted : List (Word × List VPtr))
        (pcell : PCell) (scell : SCell),
        decodeUpTo demoSort demoOrder demoLt demoStaticData [7, 8] demoAddr demoCube
          emptyHeap [(1, 1)] = some mp ∧
        beforePruning demoSort demoOrder demoLt demoStaticData demoCube mp (0, 0) =
          some (hmid, sorted) ∧
        getCell st.pchart ((0, 0) : Nat × Nat).1 ((0, 0) : Nat × Nat).2 = some pcell ∧
        getCell st.schart ((0, 0) : Nat × Nat).1 ((0, 0) : Nat × Nat).2 = some scell ∧
        (pcell.nonTerminalVertices.map Prod.fst).Nodup ∧
        (∀ x ∈ pcell.nonTerminalVertices, x.2 = ⟨(0, 0), x.1⟩) ∧
        (∀ c, c ∈ pcell.nonTerminalVertices.map Prod.fst ↔
          ∃ it ∈ (demoCube (0, 0)).take demoStaticData.cubePruningPopLimit, it.lhs = c) ∧
        (∀ c, c ∈ pcell.nonTerminalVertices.map Prod.fst ↔
          c ∈ scell.nonTerminalBeams.map Prod.fst) ∧
        (∀ it ∈ (demoCube (0, 0)).take demoStaticData.cubePruningPopLimit, ∃ e sv pv,
          hmid.edges it.ptr = some e ∧ e.lhs = it.lhs ∧
          hmid.verts e.head = some sv ∧ sv.pvertex = some pv ∧
          pv = ⟨(0, 0), it.lhs⟩ ∧ NMapFind pcell.nonTerminalVertices it.lhs = some pv ∧
          ((∃ b ∈ scell.nonTerminalBeams, e.head ∈ b.2) →
            st.heap.edges it.ptr = some e ∧ st.heap.verts e.head = some sv)) ∧
        (∀ b ∈ scell.nonTerminalBeams, ∀ v ∈ b.2,
          ∃ it ∈ (demoCube (0, 0)).take demoStaticData.cubePruningPopLimit,
            it.lhs = b.1 ∧ st.heap.headOf it.ptr = some v) := by
  obtain ⟨st, hst⟩ := Option.isSome_iff_exists.mp
    (show (decodeUpTo demoSort demoOrder demoLt demoStaticData [7, 8] demoAddr demoCube
      emptyHeap ([(1, 1)] ++ (0, 0) :: [(0, 1)])).isSome = true by decide)
  exact ⟨demoLt_strictWeak, by decide, st, hst,
    lazy_passive_vertices demoSort demoOrder demoLt demoLt_strictWeak demoStaticData
      [7, 8] demoAddr demoCube emptyHeap st [(1, 1)] [(0, 1)] [] (0, 0) (by decide) hst⟩

theorem foldlM_eq_some_foldl {α β : Type} (f : β → α → Option β) (g : β → α → β) :
    ∀ (l : List α) (b : β), (∀ a ∈ l, ∀ b, f b a = some (g b a)) →
      l.foldlM f b = some (l.foldl g b) := by
  intro l
  induction l with
  | nil => intro b _; rfl
  | cons a l ih =>
    intro b h
    rw [List.foldlM_cons, h a (List.mem_cons_self _ _) b]
    exact ih _ (fun x hx => h x (List.mem_cons_of_mem _ hx))

theorem collectTries_any (word : Word) :
    ∀ (ffs : List RuleTableFF) (tries : List (Word → Bool)), collectTries ffs = some tries →
      tries.any (fun trie => trie word) = HasCoverage ffs word := by
  intro ffs
  induction ffs with
  | nil =>
    intro tries h
    simp only [collectTries, Option.some.injEq] at h
    subst h
    rfl
  | cons ff rest ih =>
    intro tries h
    obtain ⟨table⟩ := ff
    cases table with
    | none =>
      simp only [collectTries] at h
      simp only [HasCoverage, List.any_cons, Bool.false_or]
      exact ih tries h
    | some t =>
      cases t with
      | parserTrie has =>
        simp only [collectTries, Option.map_eq_some'] at h
        obtain ⟨tr, h1, rfl⟩ := h
        simp only [HasCoverage, List.any_cons]
        rw [ih tr h1]
        rfl
      | otherTrie has =>
        simp only [collectTries, Option.map_eq_some'] at h
        obtain ⟨tr, h1, rfl⟩ := h
        simp only [HasCoverage, List.any_cons]
        rw [ih tr h1]
        rfl
      | other => simp [collectTries] at h

theorem foldl_ite_first {β : Type} (step : β → β) (i : Nat) :
    ∀ (n : Nat) (b : β), (List.range' i (n + 1)).foldl
      (fun a j => if j = i then step a else a) b = step b := by
  intro n b
  rw [List.range'_succ, List.foldl_cons, if_pos rfl]
  have : ∀ (l : List Nat) (c : β), (∀ j ∈ l, j ≠ i) →
      l.foldl (fun a j => if j = i then step a else a) c = c := by
    intro l
    induction l with
    | nil => intro c _; rfl
    | cons x l ih =>
      intro c h
      rw [List.foldl_cons, if_neg (h x (List.mem_cons_self _ _))]
      exact ih c (fun j hj => h j (List.mem_cons_of_mem _ hj))
  refine this _ _ ?_
  intro j hj
  have := (List.mem_range'_1.mp hj).1
  omega

/-- The method `FindOovs` on the chart of `InitializePChart` is a loop over the words at the interior
positions `1 .. n-2`. -/
theorem FindOovs_eq_foldl (IsNonTerminal : Word → Bool) (ffs : List RuleTableFF)
    (tries : List (Word → Bool)) (htries : collectTries ffs = some tries)
    (source : List Word) (hn : 1 ≤ source.length)
    (hterm : ∀ w ∈ source, IsNonTerminal w = false) (prev : List Word) (prevWidth : Nat) :
    FindOovs IsNonTerminal ffs (InitializePChart source) prev prevWidth =
      some ((List.range' 1 (source.length - 1 - 1)).foldl
        (fun a i =>
          match source[i]? with
          | some w => oovStep ffs a w
          | none => a) ([], 0)) := by
  obtain ⟨c1, c2, c3⟩ := InitializePChart_cells source
  obtain ⟨s1, s2⟩ := square_of_lengths _ _ c1
  unfold FindOovs
  simp only [htries, s1]
  rw [if_neg (by omega)]
  refine foldlM_eq_some_foldl _ _ _ _ ?_
  intro i hi a
  obtain ⟨hi1, hi2⟩ := List.mem_range'_1.mp hi
  have hin : i < source.length := by omega
  have hrow : (InitializePChart source)[i]? = some ((InitializePChart source)[i]) :=
    List.getElem?_eq_getElem (by omega)
  have hrl : ((InitializePChart source)[i]).length = source.length :=
    s2 _ (List.getElem_mem _)
  rw [hrow]
  simp only [scanRow, hrl]
  rw [if_neg (by omega)]
  have hcells : ∀ j, j < source.length →
      ((InitializePChart source)[i])[j]? = getCell (InitializePChart source) i j := by
    intro j _
    simp only [getCell, hrow]
  obtain ⟨k, hk⟩ : ∃ k, source.length - 1 - i = k + 1 := ⟨source.length - 1 - i - 1, by omega⟩
  rw [List.getElem?_eq_getElem hin]
  simp only
  rw [foldlM_eq_some_foldl _ (fun a j => if j = i then oovStep ffs a source[i] else a), hk,
    foldl_ite_first]
  intro j hj b
  obtain ⟨hj1, hj2⟩ := List.mem_range'_1.mp hj
  have hjn : j < source.length := by omega
  rw [hcells j hjn]
  by_cases hji : j = i
  · subst hji
    rw [c2 j hjn, if_pos rfl]
    have hnt := hterm source[j] (List.getElem_mem _)
    simp only [scanCell, hnt, Bool.false_eq_true, if_false, collectTries_any _ _ _ htries,
      oovStep, Nat.sub_self, Nat.zero_add]
    cases HasCoverage ffs source[j] <;> rfl
  · rw [c3 i j hin hjn (fun h => hji h.symm), if_neg hji]
    rfl

theorem oovStep_spec (ffs : List RuleTableFF) (acc : List Word × Nat) (word : Word)
    (hnd : acc.1.Nodup) (h0 : acc.1 = [] → acc.2 = 0) (h1 : acc.1 ≠ [] → acc.2 = 1) :
    (oovStep ffs acc word).1.Nodup ∧
    (∀ w, w ∈ (oovStep ffs acc word).1 ↔
      w ∈ acc.1 ∨ (w = word ∧ HasCoverage ffs w = false)) ∧
    ((oovStep ffs acc word).1 = [] → (oovStep ffs acc word).2 = 0) ∧
    ((oovStep ffs acc word).1 ≠ [] → (oovStep ffs acc word).2 = 1) := by
  unfold oovStep
  cases hc : HasCoverage ffs word
  · simp only [Bool.false_eq_true, if_false, setInsert]
    by_cases hm : word ∈ acc.1
    · rw [if_pos hm]
      have hne : acc.1 ≠ [] := List.ne_nil_of_mem hm
      refine ⟨hnd, ?_, fun h => absurd h hne, fun _ => by rw [h1 hne]; rfl⟩
      intro w
      constructor
      · exact fun h => Or.inl h
      · rintro (h | ⟨rfl, -⟩)
        · exact h
        · exact hm
    · rw [if_neg hm]
      refine ⟨?_, ?_, ?_, ?_⟩
      · refine List.Nodup.append hnd (List.nodup_singleton _) ?_
        intro a ha hb
        have : a = word := by simpa using hb
        exact hm (this ▸ ha)
      · intro w
        simp only [List.mem_append, List.mem_singleton]
        constructor
        · rintro (h | rfl)
          · exact Or.inl h
          · exact Or.inr ⟨rfl, hc⟩
        · rintro (h | ⟨h, -⟩)
          · exact Or.inl h
          · exact Or.inr h
      · intro h; simp at h
      · intro _
        by_cases he : acc.1 = []
        · rw [h0 he]; rfl
        · rw [h1 he]; rfl
  · simp only [if_true]
    refine ⟨hnd, ?_, h0, h1⟩
    intro w
    constructor
    · exact fun h => Or.inl h
    · rintro (h | ⟨rfl, h⟩)
      · exact h
      · rw [hc] at h; cases h

theorem oov_foldl_spec (ffs : List RuleTableFF) (source : List Word) :
    ∀ (l : List Nat) (acc : List Word × Nat), acc.1.Nodup → (acc.1 = [] → acc.2 = 0) →
      (acc.1 ≠ [] → acc.2 = 1) →
      (l.foldl (fun a i =>
          match source[i]? with
          | some w => oovStep ffs a w
          | none => a) acc).1.Nodup ∧
      (∀ w, w ∈ (l.foldl (fun a i =>
          match source[i]? with
          | some w => oovStep ffs a w
          | none => a) acc).1 ↔
        w ∈ acc.1 ∨ ∃ i ∈ l, source[i]? = some w ∧ HasCoverage ffs w = false) ∧
      ((l.foldl (fun a i =>
          match source[i]? with
          | some w => oovStep ffs a w
          | none => a) acc).1 = [] →
        (l.foldl (fun a i =>
          match source[i]? with
          | some w => oovStep ffs a w
          | none => a) acc).2 = 0) ∧
      ((l.foldl (fun a i =>
          match source[i]? with
          | some w => oovStep ffs a w
          | none => a) acc).1 ≠ [] →
        (l.foldl (fun a i =>
          match source[i]? with
          | some w => oovStep ffs a w
          | none => a) acc).2 = 1) := by
  intro l
  induction l with
  | nil =>
    intro acc hnd h0 h1
    refine ⟨hnd, ?_, h0, h1⟩
    intro w
    simp
  | cons i l ih =>
    intro acc hnd h0 h1
    simp only [List.foldl_cons]
    cases hs : source[i]? with
    | none =>
      simp only
      obtain ⟨r1, r2, r3, r4⟩ := ih acc hnd h0 h1
      refine ⟨r1, ?_, r3, r4⟩
      intro w
      rw [r2 w]
      constructor
      · rintro (h | ⟨j, hj, hw⟩)
        · exact Or.inl h
        · exact Or.inr ⟨j, List.mem_cons_of_mem _ hj, hw⟩
      · rintro (h | ⟨j, hj, hw⟩)
        · exact Or.inl h
        · rcases List.mem_cons.mp hj with rfl | hj
          · rw [hs] at hw; cases hw.1
          · exact Or.inr ⟨j, hj, hw⟩
    | some x =>
      simp only
      obtain ⟨q1, q2, q3, q4⟩ := oovStep_spec ffs acc x hnd h0 h1
      obtain ⟨r1, r2, r3, r4⟩ := ih (oovStep ffs acc x) q1 q3 q4
      refine ⟨r1, ?_, r3, r4⟩
      intro w
      rw [r2 w, q2 w]
      constructor
      · rintro ((h | ⟨rfl, hc⟩) | ⟨j, hj, hw⟩)
        · exact Or.inl h
        · exact Or.inr ⟨i, List.mem_cons_self _ _, hs, hc⟩
        · exact Or.inr ⟨j, List.mem_cons_of_mem _ hj, hw⟩
      · rintro (h | ⟨j, hj, hw⟩)
        · exact Or.inl (Or.inl h)
        · rcases List.mem_cons.mp hj with rfl | hj
          · rw [hs] at hw
            exact Or.inl (Or.inr ⟨(Option.some.inj hw.1).symm, hw.2⟩)
          · exact Or.inr ⟨j, hj, hw⟩

/-- The result of `FindOovs` on the chart of `InitializePChart`: the OOV set has no repetition and
holds the uncovered words of the interior positions; the function's own `maxOovWidth` ends
as 1 when the set is not empty and as 0 otherwise. -/
theorem FindOovs_spec (IsNonTerminal : Word → Bool) (ffs : List RuleTableFF)
    (tries : List (Word → Bool)) (htries : collectTries ffs = some tries)
    (source : List Word) (hn : 1 ≤ source.length)
    (hterm : ∀ w ∈ source, IsNonTerminal w = false) (prev : List Word) (prevWidth : Nat) :
    ∃ oovs width,
      FindOovs IsNonTerminal ffs (InitializePChart source) prev prevWidth = some (oovs, width) ∧
      oovs.Nodup ∧
      (∀ w, w ∈ oovs ↔ ∃ i, 1 ≤ i ∧ i + 1 < source.length ∧ source[i]? = some w ∧
        HasCoverage ffs w = false) ∧
      (oovs = [] → width = 0) ∧ (oovs ≠ [] → width = 1) := by
  have hrun := FindOovs_eq_foldl IsNonTerminal ffs tries htries source hn hterm prev prevWidth
  obtain ⟨r1, r2, r3, r4⟩ := oov_foldl_spec ffs source (List.range' 1 (source.length - 1 - 1))
    ([], 0) List.nodup_nil (fun _ => rfl) (fun h => absurd rfl h)
  refine ⟨_, _, hrun, r1, ?_, r3, r4⟩
  intro w
  rw [r2 w]
  constructor
  · rintro (h | ⟨i, hi, hw⟩)
    · cases h
    · obtain ⟨hi1, hi2⟩ := List.mem_range'_1.mp hi
      exact ⟨i, hi1, by omega, hw⟩
  · rintro ⟨i, hi1, hi2, hw⟩
    exact Or.inr ⟨i, List.mem_range'_1.mpr ⟨hi1, by omega⟩, hw⟩

theorem buildParsers_collectTries :
    ∀ (ffs : List RuleTableFF) (graphs : List Nat) (parsers : List Parser),
      buildParsers ffs graphs = some parsers →
      parsers.length = ffs.length ∧ ∃ tries, collectTries ffs = some tries := by
  intro ffs
  induction ffs with
  | nil =>
    intro graphs parsers h
    simp only [buildParsers, Option.some.injEq] at h
    subst h
    exact ⟨rfl, [], rfl⟩
  | cons ff rest ih =>
    intro graphs parsers h
    cases graphs with
    | nil => simp [buildParsers] at h
    | cons g gs =>
      obtain ⟨table⟩ := ff
      cases table with
      | none => simp [buildParsers] at h
      | some t =>
        cases t with
        | parserTrie has =>
          simp only [buildParsers, Option.map_eq_some'] at h
          obtain ⟨ps, h1, rfl⟩ := h
          obtain ⟨i1, tr, i2⟩ := ih gs ps h1
          exact ⟨by simp [i1], has :: tr, by simp [collectTries, i2]⟩
        | otherTrie has => simp [buildParsers] at h
        | other => simp [buildParsers] at h

/-- Whenever `InitializeParsers` appends the OOV parser, the parser is built with maximum
span width 0, whatever `FindOovs` computed. -/
theorem InitializeParsers_oov_width (IsNonTerminal : Word → Bool)
    (SynthesizeRuleTrie : List Word → Word → Bool) (ffs : List RuleTableFF)
    (graphs : List Nat) (m r : ParserPool) (pchart : List (List PCell))
    (oovs : List Word) (width : Nat)
    (hfind : FindOovs IsNonTerminal ffs pchart [] 0 = some (oovs, width))
    (hne : oovs ≠ [])
    (hrun : InitializeParsers IsNonTerminal SynthesizeRuleTrie ffs graphs m pchart = some r) :
    ∃ parsers, buildParsers ffs graphs = some parsers ∧
      r.m_parsers = m.m_parsers ++ parsers ++ [⟨SynthesizeRuleTrie oovs, 0⟩] ∧
      r.m_oovRuleTrie = some (SynthesizeRuleTrie oovs) := by
  have he : oovs.isEmpty = false := by
    cases oovs with
    | nil => exact absurd rfl hne
    | cons _ _ => rfl
  unfold InitializeParsers at hrun
  split at hrun
  · cases hrun
  · cases hb : buildParsers ffs graphs with
    | none => simp [hb] at hrun
    | some parsers =>
      simp only [hb, hfind, he, Bool.not_false, if_true] at hrun
      cases ffs with
      | nil => cases hrun
      | cons ff rest =>
        have := Option.some.inj hrun
        subst this
        exact ⟨parsers, rfl, rfl, rfl⟩

/-- Evaluation at the sentence `1 5 2` (the word 5 between two boundary words), with one
grammar source that has no preterminal rule for 5 and maximum chart span 3: `FindOovs`
ends with its own `maxOovWidth` equal to 1, and `InitializeParsers` builds the OOV parser
with maximum span width 0. -/
theorem oov_parser_width_is_zero :
    FindOovs (fun _ => false) [demoFF] (InitializePChart [1, 5, 2]) [] 0 = some ([5], 1) ∧
    (InitializeParsers (fun _ => false) demoSynthesize [demoFF] [3] ⟨[], none⟩
      (InitializePChart [1, 5, 2])).map
        (fun r => (r.m_parsers.map (fun p => p.maxChartSpan), r.m_oovRuleTrie.isSome)) =
      some ([3, 0], true) := by
  constructor <;> decide

/-- Claim C13, amended.  For every sentence of length `n ≥ 1` whose passive chart
was built by `InitializePChart`, with every table of a grammar source a rule trie and the
source words terminals, `FindOovs` returns, and the OOV set it leaves has no repetition and
holds exactly the words found at the interior positions `1 .. n-2` for which no grammar
source has a preterminal rule.  The positions `0` and `n-1` are not examined: a word that
occurs at no interior position is not in the set.  The result does not depend on the
previous contents of the set. -/
theorem FindOovs_interior_uncovered_words (IsNonTerminal : Word → Bool)
    (ffs : List RuleTableFF) (tries : List (Word → Bool))
    (htries : collectTries ffs = some tries) (source : List Word) (hn : 1 ≤ source.length)
    (hterm : ∀ w ∈ source, IsNonTerminal w = false) (prev : List Word) (prevWidth : Nat) :
    ∃ oovs width,
      FindOovs IsNonTerminal ffs (InitializePChart source) prev prevWidth = some (oovs, width) ∧
      oovs.Nodup ∧
      (∀ w, w ∈ oovs ↔ ∃ i, 1 ≤ i ∧ i + 1 < source.length ∧ source[i]? = some w ∧
        HasCoverage ffs w = false) ∧
      (∀ w, (∀ i, 1 ≤ i → i + 1 < source.length → source[i]? ≠ some w) → w ∉ oovs) ∧
      FindOovs IsNonTerminal ffs (InitializePChart source) prev prevWidth =
        FindOovs IsNonTerminal ffs (InitializePChart source) [] 0 := by
  obtain ⟨oovs, width, h1, h2, h3, -, -⟩ :=
    FindOovs_spec IsNonTerminal ffs tries htries source hn hterm prev prevWidth
  refine ⟨oovs, width, h1, h2, h3, ?_, rfl⟩
  intro w hw hm
  obtain ⟨i, i1, i2, i3, -⟩ := (h3 w).mp hm
  exact hw i i1 i2 i3

/-- Witness of C13: a sentence of six positions with the interior words 5, 6, 5, 7, of which
6 is covered, and with stale contents in the set. -/
theorem FindOovs_interior_uncovered_words_witness :
    collectTries [demoFF] = some [fun w => w = 1 || w = 2 || w = 6] ∧
    1 ≤ ([1, 5, 6, 5, 7, 2] : List Word).length ∧
    (∀ w ∈ ([1, 5, 6, 5, 7, 2] : List Word), (fun _ => false) w = false) ∧
    FindOovs (fun _ => false) [demoFF] (InitializePChart [1, 5, 6, 5, 7, 2]) [9] 7 =
      some ([5, 7], 1) ∧
    ∃ oovs width,
      FindOovs (fun _ => false) [demoFF] (InitializePChart [1, 5, 6, 5, 7, 2]) [9] 7 =
        some (oovs, width) ∧
      oovs.Nodup ∧
      (∀ w, w ∈ oovs ↔ ∃ i, 1 ≤ i ∧ i + 1 < ([1, 5, 6, 5, 7, 2] : List Word).length ∧
        ([1, 5, 6, 5, 7, 2] : List Word)[i]? = some w ∧ HasCoverage [demoFF] w = false) ∧
      (∀ w, (∀ i, 1 ≤ i → i + 1 < ([1, 5, 6, 5, 7, 2] : List Word).length →
        ([1, 5, 6, 5, 7, 2] : List Word)[i]? ≠ some w) → w ∉ oovs) ∧
      FindOovs (fun _ => false) [demoFF] (InitializePChart [1, 5, 6, 5, 7, 2]) [9] 7 =
        FindOovs (fun _ => false) [demoFF] (InitializePChart [1, 5, 6, 5, 7, 2]) [] 0 :=
  ⟨rfl, by decide, fun _ _ => rfl, by decide,
    FindOovs_interior_uncovered_words (fun _ => false) [demoFF] _ rfl [1, 5, 6, 5, 7, 2]
      (by decide) (fun _ _ => rfl) [9] 7⟩

/-- Counterexample to C13 as stated: in the sentence `5 5 5` the word at position 0 (and at
position `n-1`) is the uncovered word of the interior position 1, so it is in the OOV set. -/
theorem FindOovs_boundary_word_counterexample :
    ¬ (∀ oovs width w,
      FindOovs (fun _ => false) [demoFF] (InitializePChart [5, 5, 5]) [] 0 =
        some (oovs, width) →
      ([5, 5, 5] : List Word)[0]? = some w → w ∉ oovs) := by
  intro h
  exact h [5] 1 5 (by decide) rfl (by decide)

/-- Claim C14, amended.  For every sentence of three positions, one token `z` between the two
boundary positions, with at least one grammar source, every grammar source with a rule
trie of the parser's kind and none of them with a preterminal rule for `z`,
`InitializeParsers` returns: `FindOovs` reports exactly `z`, the pass-through rule trie
for `z` is synthesized and kept in `m_oovRuleTrie`, and one parser over that trie is
appended after the parsers of the grammar sources.  On the sentence that consists of the
one position `z` alone `FindOovs` reports nothing and `InitializeParsers` returns with the
parsers of the grammar sources only. -/
theorem oov_parser_for_inner_token (IsNonTerminal : Word → Bool)
    (SynthesizeRuleTrie : List Word → Word → Bool) (ffs : List RuleTableFF)
    (graphs : List Nat) (parsers : List Parser) (m : ParserPool) (b z e : Word)
    (hne : ffs ≠ []) (hlen : ffs.length = graphs.length)
    (hbuild : buildParsers ffs graphs = some parsers)
    (hterm : ∀ w ∈ [b, z, e], IsNonTerminal w = false)
    (hcov : HasCoverage ffs z = false) :
    (∃ width, FindOovs IsNonTerminal ffs (InitializePChart [b, z, e]) [] 0 =
      some ([z], width)) ∧
    (∃ r p, InitializeParsers IsNonTerminal SynthesizeRuleTrie ffs graphs m
        (InitializePChart [b, z, e]) = some r ∧
      r.m_parsers = m.m_parsers ++ parsers ++ [p] ∧ p.trie = SynthesizeRuleTrie [z] ∧
      r.m_oovRuleTrie = some (SynthesizeRuleTrie [z]) ∧
      r.m_parsers.length = m.m_parsers.length + ffs.length + 1) ∧
    (IsNonTerminal z = false →
      FindOovs IsNonTerminal ffs (InitializePChart [z]) [] 0 = some ([], 0) ∧
      InitializeParsers IsNonTerminal SynthesizeRuleTrie ffs graphs m (InitializePChart [z]) =
        some ⟨m.m_parsers ++ parsers, m.m_oovRuleTrie⟩) := by
  obtain ⟨hpl, tries, htries⟩ := buildParsers_collectTries ffs graphs parsers hbuild
  have hrun := FindOovs_eq_foldl IsNonTerminal ffs tries htries [b, z, e] (by simp) hterm [] 0
  have hval : (List.range' 1 (([b, z, e] : List Word).length - 1 - 1)).foldl
        (fun a i =>
          match ([b, z, e] : List Word)[i]? with
          | some w => oovStep ffs a w
          | none => a) ([], 0) = ([z], 1) := by
    simp [oovStep, hcov, setInsert, List.range']
  rw [hval] at hrun
  refine ⟨⟨1, hrun⟩, ?_, ?_⟩
  · obtain ⟨ff, rest, hff⟩ := List.exists_cons_of_ne_nil hne
    refine ⟨⟨m.m_parsers ++ parsers ++ [⟨SynthesizeRuleTrie [z], 0⟩],
      some (SynthesizeRuleTrie [z])⟩, ⟨SynthesizeRuleTrie [z], 0⟩, ?_, rfl, rfl, rfl, ?_⟩
    · unfold InitializeParsers
      rw [if_neg (by simp [hlen])]
      simp only [hbuild, hrun]
      subst hff
      rfl
    · simp [hpl]
      omega
  · intro hz
    have hone := FindOovs_eq_foldl IsNonTerminal ffs tries htries [z] (by simp)
      (fun w hw => by rw [List.mem_singleton.mp hw]; exact hz) [] 0
    have hv : (List.range' 1 (([z] : List Word).length - 1 - 1)).foldl
        (fun a i =>
          match ([z] : List Word)[i]? with
          | some w => oovStep ffs a w
          | none => a) ([], 0) = ([], 0) := rfl
    rw [hv] at hone
    refine ⟨hone, ?_⟩
    unfold InitializeParsers
    rw [if_neg (by simp [hlen])]
    simp only [hbuild, hone]
    rfl

/-- Witness of C14 as amended: the sentence `1 5 2` with one grammar source. -/
theorem oov_parser_for_inner_token_witness :
    [demoFF] ≠ [] ∧ ([demoFF] : List RuleTableFF).length = ([3] : List Nat).length ∧
    buildParsers [demoFF] [3] = some [⟨fun w => w = 1 || w = 2 || w = 6, 3⟩] ∧
    (∀ w ∈ ([1, 5, 2] : List Word), (fun _ => false) w = false) ∧
    HasCoverage [demoFF] 5 = false ∧
    (∃ width, FindOovs (fun _ => false) [demoFF] (InitializePChart [1, 5, 2]) [] 0 =
      some ([5], width)) ∧
    (∃ r p, InitializeParsers (fun _ => false) demoSynthesize [demoFF] [3] ⟨[], none⟩
        (InitializePChart [1, 5, 2]) = some r ∧
      r.m_parsers = (⟨[], none⟩ : ParserPool).m_parsers ++
        [⟨fun w => w = 1 || w = 2 || w = 6, 3⟩] ++ [p] ∧
      p.trie = demoSynthesize [5] ∧
      r.m_oovRuleTrie = some (demoSynthesize [5]) ∧
      r.m_parsers.length = (⟨[], none⟩ : ParserPool).m_parsers.length +
        ([demoFF] : List RuleTableFF).length + 1) ∧
    ((fun _ => false) (5 : Word) = false →
      FindOovs (fun _ => false) [demoFF] (InitializePChart [5]) [] 0 = some ([], 0) ∧
      InitializeParsers (fun _ => false) demoSynthesize [demoFF] [3] ⟨[], none⟩
          (InitializePChart [5]) =
        some ⟨(⟨[], none⟩ : ParserPool).m_parsers ++ [⟨fun w => w = 1 || w = 2 || w = 6, 3⟩],
          (⟨[], none⟩ : ParserPool).m_oovRuleTrie⟩) :=
  ⟨List.cons_ne_nil _ _, rfl, rfl, fun _ _ => rfl, by decide,
    oov_parser_for_inner_token (fun _ => false) demoSynthesize [demoFF] [3] _ ⟨[], none⟩ 1 5 2
      (List.cons_ne_nil _ _) rfl rfl (fun _ _ => rfl) (by decide)⟩

/-- Counterexample to C14 as stated: for the one-token sentence `5`, which no grammar source
covers, `FindOovs` reports nothing, no rule trie is synthesized and the parser pool holds
the parser of the grammar source only. -/
theorem oov_detection_skips_single_token :
    HasCoverage [demoFF] 5 = false ∧
    FindOovs (fun _ => false) [demoFF] (InitializePChart [5]) [] 0 = some ([], 0) ∧
    (InitializeParsers (fun _ => false) demoSynthesize [demoFF] [3] ⟨[], none⟩
      (InitializePChart [5])).map
        (fun r => (r.m_parsers.length, r.m_oovRuleTrie.isSome)) = some (1, false) := by
  refine ⟨by decide, by decide, by decide⟩

/-- Evaluation at the bitmap `0010` (four positions, position 2 covered) and the free range
`[0, 1]`: `GetIDPlus(0, 1)` returns `2 * 2^16`, while `SetValue(0, 1, true)` gives the bitmap
`1110`, whose `GetID()` is `3 * 2^16`. -/
theorem GetIDPlus_differs_from_GetID :
    (WordsBitmap.mk [false, false, true, false]).GetIDPlus 0 1 = some 131072 ∧
    (WordsBitmap.mk [false, false, true, false]).SetValue 0 1 true =
      some ⟨[true, true, true, false]⟩ ∧
    (WordsBitmap.mk [true, true, true, false]).GetID = some 196608 := by
  refine ⟨by decide, by decide, by decide⟩

/-- Evaluation at the bitmap `10000` and the free range `[2, 3]`, where the two agree:
`GetIDPlus(2, 3)` and `GetID()` of `10110` are both `2^16 + 3`. -/
theorem GetIDPlus_agrees_with_GetID_demo :
    (WordsBitmap.mk [true, false, false, false, false]).GetIDPlus 2 3 = some 65539 ∧
    (WordsBitmap.mk [true, false, false, false, false]).SetValue 2 3 true =
      some ⟨[true, false, true, true, false]⟩ ∧
    (WordsBitmap.mk [true, false, true, true, false]).GetID = some 65539 := by
  refine ⟨by decide, by decide, by decide⟩

/-- Without overflow the product of line 320 is the exact product, and it is at least `k`. -/
theorem numDerivations_exact (nBestFactor k : Nat)
    (hexact : k * (if nBestFactor = 0 then 1000 else nBestFactor) < 2 ^ 64) :
    numDerivations nBestFactor k = k * (if nBestFactor = 0 then 1000 else nBestFactor) ∧
    k ≤ numDerivations nBestFactor k := by
  unfold numDerivations
  by_cases h0 : nBestFactor = 0
  · simp only [h0, if_true] at hexact ⊢
    rw [Nat.mod_eq_of_lt hexact]
    exact ⟨rfl, by omega⟩
  · simp only [h0, if_false] at hexact ⊢
    rw [Nat.mod_eq_of_lt hexact]
    exact ⟨rfl, Nat.le_mul_of_pos_right k (Nat.pos_of_ne_zero h0)⟩

/-- Claim C21.  When `ExtractKBest` reaches the extractor (non-empty sentence, `k ≥ 1`, one
beam in the top cell) with `onlyDistinct = true`, the list it returns is the copy loop run
on what the extractor yields for `k * nBestFactor` derivations when `nBestFactor ≠ 0` and
for `k * 1000` when `nBestFactor = 0`, whatever the extractor is; the call with
`onlyDistinct = false` asks for `k`.  The product is taken in exact arithmetic (it is
assumed to fit `std::size_t`), and it is at least `k`. -/
theorem oversampling_size {σ δ : Type} (sd : StaticData)
    (Extract : List VPtr → Nat → List δ) (GetOutputPhrase : δ → List Word) (m : Manager σ)
    (source : List Word) (k : Nat) (cell : SCell) (c : Word) (beam : List VPtr)
    (hn : source ≠ []) (hk : 1 ≤ k)
    (hcell : getCell m.schart 0 (source.length - 1) = some cell)
    (hbeams : cell.nonTerminalBeams = [(c, beam)])
    (hexact : k * (if sd.nBestFactor = 0 then 1000 else sd.nBestFactor) < 2 ^ 64) :
    ExtractKBest sd Extract GetOutputPhrase m source k true =
      some (distinctLoop GetOutputPhrase k
        (Extract beam (if sd.nBestFactor = 0 then k * 1000 else k * sd.nBestFactor)) [] []) ∧
    ExtractKBest sd Extract GetOutputPhrase m source k false = some (Extract beam k) ∧
    numDerivations sd.nBestFactor k =
      (if sd.nBestFactor = 0 then k * 1000 else k * sd.nBestFactor) ∧
    k ≤ (if sd.nBestFactor = 0 then k * 1000 else k * sd.nBestFactor) := by
  have hlen : source.length ≠ 0 := fun hc => hn (List.length_eq_zero.mp hc)
  have hk0 : k ≠ 0 := by omega
  obtain ⟨e1, e2⟩ := numDerivations_exact sd.nBestFactor k hexact
  have e3 : numDerivations sd.nBestFactor k =
      (if sd.nBestFactor = 0 then k * 1000 else k * sd.nBestFactor) := by
    rw [e1]; split <;> rfl
  refine ⟨?_, ?_, e3, by rw [← e3]; exact e2⟩
  · simp only [ExtractKBest, hk0, hlen, or_self, if_false, hcell, hbeams,
      List.length_singleton, one_ne_zero, ne_eq, not_true_eq_false, Bool.not_true,
      Bool.false_eq_true, e3]
  · simp only [ExtractKBest, hk0, hlen, or_self, if_false, hcell, hbeams,
      List.length_singleton, one_ne_zero, ne_eq, not_true_eq_false, Bool.not_false, if_true]

/-- Witness of C21: the one-word example chart with `k = 2` and `nBestFactor = 0`, where
2000 derivations are requested. -/
theorem oversampling_size_witness :
    ([7] : List Word) ≠ [] ∧ 1 ≤ 2 ∧
    getCell demoManager.schart 0 (([7] : List Word).length - 1) = some ⟨[], [(1, [0, 2])]⟩ ∧
    (⟨[], [(1, [0, 2])]⟩ : SCell).nonTerminalBeams = [(1, [0, 2])] ∧
    2 * (if demoStaticData.nBestFactor = 0 then 1000 else demoStaticData.nBestFactor) <
      2 ^ 64 ∧
    (if demoStaticData.nBestFactor = 0 then 2 * 1000 else 2 * demoStaticData.nBestFactor) =
      2000 ∧
    ExtractKBest demoStaticData demoExtract Prod.snd demoManager [7] 2 true =
      some (distinctLoop Prod.snd 2
        (demoExtract [0, 2] (if demoStaticData.nBestFactor = 0 then 2 * 1000
          else 2 * demoStaticData.nBestFactor)) [] []) ∧
    ExtractKBest demoStaticData demoExtract Prod.snd demoManager [7] 2 false =
      some (demoExtract [0, 2] 2) ∧
    numDerivations demoStaticData.nBestFactor 2 =
      (if demoStaticData.nBestFactor = 0 then 2 * 1000
        else 2 * demoStaticData.nBestFactor) ∧
    2 ≤ (if demoStaticData.nBestFactor = 0 then 2 * 1000
      else 2 * demoStaticData.nBestFactor) :=
  ⟨by decide, by decide, by decide, rfl, by decide, by decide,
    oversampling_size demoStaticData demoExtract Prod.snd demoManager [7] 2
      ⟨[], [(1, [0, 2])]⟩ 1 [0, 2] (by decide) (by decide) (by decide) rfl (by decide)⟩

/-- In `std::size_t` arithmetic the product can wrap around: for `k = 2^61` and
`nBestFactor = 8` the number requested is 0. -/
theorem numDerivations_wraps_demo : numDerivations 8 (2 ^ 61) = 0 := by
  decide

theorem indexOf?_false_eq (l : List Bool) : l.indexOf? false = lowestUncovered l := by
  induction l with
  | nil => rfl
  | cons x rest ih =>
    cases x
    · simp [List.indexOf?, lowestUncovered]
    · simp only [List.indexOf?, lowestUncovered] at ih ⊢
      rw [List.findIdx?_cons]
      simp only [beq_iff_eq, Bool.true_eq_false, if_false]
      rw [List.findIdx?_succ, ih]

theorem bitsValue_lt (l : List Bool) : bitsValue l < 2 ^ l.length := by
  induction l with
  | nil => simp [bitsValue]
  | cons x rest ih =>
    simp only [bitsValue, List.length_cons, pow_succ]
    split <;> omega

/-- Trailing zeros of the complement of the bits within a word of `w` bits: the lowest
uncovered position, or the number of bits when all are covered. -/
theorem trailingZeros_complement :
    ∀ (l : List Bool) (w : Nat), l.length < w →
      trailingZeros w (2 ^ w - 1 - bitsValue l) = (lowestUncovered l).getD l.length := by
  intro l
  induction l with
  | nil =>
    intro w hw
    obtain ⟨v, rfl⟩ : ∃ v, w = v + 1 := ⟨w - 1, by simp at hw; omega⟩
    simp only [bitsValue, lowestUncovered, Option.getD_none, List.length_nil, trailingZeros]
    have : (2 ^ (v + 1) - 1 - 0) % 2 = 1 := by
      rw [pow_succ]; have := Nat.two_pow_pos v; omega
    rw [if_pos this]
  | cons x rest ih =>
    intro w hw
    obtain ⟨v, rfl⟩ : ∃ v, w = v + 1 := ⟨w - 1, by simp at hw; omega⟩
    have hv : rest.length < v := by simpa using hw
    have hb := bitsValue_lt rest
    have hp : 2 ^ rest.length ≤ 2 ^ v := Nat.pow_le_pow_right (by decide) (le_of_lt hv)
    cases x
    · simp only [bitsValue, lowestUncovered, Option.getD_some, trailingZeros]
      have : (2 ^ (v + 1) - 1 - ((if false = true then 1 else 0) + 2 * bitsValue rest)) % 2
          = 1 := by
        simp only [Bool.false_eq_true, if_false, pow_succ]; omega
      rw [if_pos this]
    · simp only [bitsValue, lowestUncovered, trailingZeros, if_true]
      have h1 : ¬ (2 ^ (v + 1) - 1 - (1 + 2 * bitsValue rest)) % 2 = 1 := by
        rw [pow_succ]; omega
      have h2 : (2 ^ (v + 1) - 1 - (1 + 2 * bitsValue rest)) / 2 =
          2 ^ v - 1 - bitsValue rest := by
        rw [pow_succ]; omega
      rw [if_neg h1, h2, ih v hv]
      cases lowestUncovered rest with
      | none => simp; omega
      | some i => simp; omega

/-- What `GetFirstGapPos` returns: the lowest uncovered position when there is one; on a
bitmap with every position covered, `NOT_FOUND` from the linear scan (64 positions or more)
and 0 from the fast path (fewer than 64 positions). -/
theorem GetFirstGapPos_eq (b : WordsBitmap) :
    b.GetFirstGapPos = some
      (match lowestUncovered b.m_new_bitmap with
      | some i => i
      | none => if b.GetSize < 64 then 0 else NOT_FOUND) := by
  unfold WordsBitmap.GetFirstGapPos
  by_cases hs : b.GetSize < UINT_SIZE
  · have hs64 : b.m_new_bitmap.length < 64 := hs
    have hb := bitsValue_lt b.m_new_bitmap
    have hp : 2 ^ b.m_new_bitmap.length ≤ 2 ^ 63 :=
      Nat.pow_le_pow_right (by decide) (by omega)
    have hv : bitsValue b.m_new_bitmap < 2 ^ 64 := by
      have : (2 : Nat) ^ 63 < 2 ^ 64 := by decide
      omega
    have hne : 2 ^ 64 - 1 - bitsValue b.m_new_bitmap ≠ 0 := by
      have : (2 : Nat) ^ 63 < 2 ^ 64 := by decide
      omega
    have htz := trailingZeros_complement b.m_new_bitmap 64 hs64
    rw [if_pos hs]
    simp only [WordsBitmap.to_ulong, hv, if_true, ctzll, hne, if_false, htz,
      WordsBitmap.GetSize]
    have hlu : ∀ i, lowestUncovered b.m_new_bitmap = some i → i < b.m_new_bitmap.length := by
      have : ∀ (l : List Bool) i, lowestUncovered l = some i → i < l.length := by
        intro l
        induction l with
        | nil => intro i h; cases h
        | cons x rest ih =>
          intro i h
          cases x
          · simp only [lowestUncovered, Option.some.injEq] at h
            subst h; simp
          · simp only [lowestUncovered, Option.map_eq_some'] at h
            obtain ⟨j, hj, rfl⟩ := h
            have := ih j hj
            simp; omega
      exact this _
    cases hl : lowestUncovered b.m_new_bitmap with
    | none =>
      simp only [Option.getD_none, lt_self_iff_false, if_false]
      rw [if_pos hs64]
    | some i =>
      simp only [Option.getD_some]
      rw [if_pos (hlu i hl)]
  · rw [if_neg hs, indexOf?_false_eq]
    have hs64 : ¬ b.GetSize < 64 := hs
    cases hl : lowestUncovered b.m_new_bitmap with
    | none => simp only [if_neg hs64]
    | some i => rfl

/-- The method `GetFirstGapPos` agrees with the specification on every bitmap that has an uncovered
position or at least 64 positions. -/
theorem GetFirstGapPos_spec (b : WordsBitmap)
    (h : 64 ≤ b.GetSize ∨ lowestUncovered b.m_new_bitmap ≠ none) :
    b.GetFirstGapPos = some (firstGapSpec b) := by
  rw [GetFirstGapPos_eq]
  unfold firstGapSpec
  cases hl : lowestUncovered b.m_new_bitmap with
  | some i => rfl
  | none =>
    rcases h with h | h
    · simp only [if_neg (show ¬ b.GetSize < 64 by omega)]
    · exact absurd hl h

/-- Evaluation at the bitmap `11` (two positions, both covered): the fast path of
`GetFirstGapPos` returns 0, where the specification and the linear scan, run here on the
same bits and on the bitmap of 64 covered positions, give `NOT_FOUND`. -/
theorem GetFirstGapPos_full_bitmap_returns_zero :
    (WordsBitmap.mk [true, true]).GetFirstGapPos = some 0 ∧
    firstGapSpec (WordsBitmap.mk [true, true]) = NOT_FOUND ∧
    ([true, true] : List Bool).indexOf? false = none ∧
    (WordsBitmap.mk (List.replicate 64 true)).GetFirstGapPos = some NOT_FOUND := by
  refine ⟨by decide, by decide, by decide, by decide⟩

theorem lowestUncovered_spec :
    ∀ (l : List Bool),
      l.take ((lowestUncovered l).getD l.length) =
        List.replicate ((lowestUncovered l).getD l.length) true ∧
      (lowestUncovered l).getD l.length ≤ l.length ∧
      ((lowestUncovered l).getD l.length < l.length →
        l[(lowestUncovered l).getD l.length]? = some false) ∧
      (lowestUncovered l = none ↔ (lowestUncovered l).getD l.length = l.length) := by
  intro l
  induction l with
  | nil => simp [lowestUncovered]
  | cons x rest ih =>
    cases x
    · simp [lowestUncovered]
    · obtain ⟨i1, i2, i3, i4⟩ := ih
      cases hl : lowestUncovered rest with
      | none =>
        rw [hl] at i1 i2 i3 i4
        simp only [Option.getD_none] at i1
        simp [lowestUncovered, hl, List.replicate_succ]
        simpa using i1
      | some i =>
        rw [hl] at i1 i2 i3 i4
        simp only [Option.getD_some] at i1 i2 i3 i4
        simp only [lowestUncovered, hl, Option.map_some', Option.getD_some, List.take_succ_cons,
          List.length_cons, List.replicate_succ, i1, true_and]
        refine ⟨by omega, ?_, ?_⟩
        · intro h
          simp only [List.getElem?_cons_succ]
          exact i3 (by omega)
        · simp
          have : i ≠ rest.length := fun hc => by simp [hc] at i4
          omega

/-- The scan of `GetLastPos` from position `n-1` down to 0. -/
theorem find?_reverse_range (q : Nat → Bool) :
    ∀ n, (∀ r, ((List.range n).reverse).find? q = some r →
        r < n ∧ q r = true ∧ ∀ p, r < p → p < n → q p = false) ∧
      (((List.range n).reverse).find? q = none → ∀ p, p < n → q p = false) := by
  intro n
  induction n with
  | zero =>
    refine ⟨?_, ?_⟩
    · intro r h; simp at h
    · intro _ p hp; omega
  | succ n ih =>
    rw [List.range_succ, List.reverse_append, List.reverse_singleton, List.singleton_append]
    simp only [List.find?_cons]
    cases hq : q n
    · simp only
      refine ⟨?_, ?_⟩
      · intro r h
        obtain ⟨h1, h2, h3⟩ := ih.1 r h
        refine ⟨by omega, h2, ?_⟩
        intro p hp1 hp2
        by_cases hpn : p = n
        · rw [hpn]; exact hq
        · exact h3 p hp1 (by omega)
      · intro h p hp
        by_cases hpn : p = n
        · rw [hpn]; exact hq
        · exact ih.2 h p (by omega)
    · simp only
      refine ⟨?_, ?_⟩
      · intro r h
        have := Option.some.inj h
        subst this
        exact ⟨by omega, hq, fun p h1 h2 => by omega⟩
      · intro h; cases h

/-- What `GetLastPos` returns on a bitmap of fewer than `2^31` positions. -/
theorem GetLastPos_spec (b : WordsBitmap) (hn : b.GetSize < 2 ^ 31) :
    ∃ r, b.GetLastPos = some r ∧
      ((r = NOT_FOUND ∧ ∀ p, b.m_new_bitmap.getD p false = false) ∨
        (r < b.GetSize ∧ b.m_new_bitmap.getD r false = true ∧
          ∀ p, r < p → b.m_new_bitmap.getD p false = false)) := by
  unfold WordsBitmap.GetLastPos
  rw [if_neg (by omega)]
  obtain ⟨f1, f2⟩ := find?_reverse_range (fun pos => b.m_new_bitmap.getD pos false) b.GetSize
  have hout : ∀ p, b.GetSize ≤ p → b.m_new_bitmap.getD p false = false := by
    intro p hp
    simp only [WordsBitmap.GetSize] at hp
    simp [List.getD_eq_getElem?_getD, List.getElem?_eq_none hp]
  cases hf : ((List.range b.GetSize).reverse).find? (fun pos => b.m_new_bitmap.getD pos false)
    with
  | none =>
    refine ⟨NOT_FOUND, rfl, Or.inl ⟨rfl, ?_⟩⟩
    intro p
    by_cases hp : p < b.GetSize
    · exact f2 hf p hp
    · exact hout p (by omega)
  | some r =>
    obtain ⟨h1, h2, h3⟩ := f1 r hf
    refine ⟨r, rfl, Or.inr ⟨h1, h2, ?_⟩⟩
    intro p hp
    by_cases hpn : p < b.GetSize
    · exact h3 p hp hpn
    · exact hout p (by omega)

theorem bitsValue_append (xs ys : List Bool) :
    bitsValue (xs ++ ys) = bitsValue xs + 2 ^ xs.length * bitsValue ys := by
  induction xs with
  | nil => simp [bitsValue]
  | cons x rest ih =>
    have e : bitsValue (x :: rest ++ ys) =
        (if x then 1 else 0) + 2 * bitsValue (rest ++ ys) := rfl
    have e2 : bitsValue (x :: rest) = (if x then 1 else 0) + 2 * bitsValue rest := rfl
    rw [e, e2, ih, List.length_cons, pow_succ]
    ring

theorem bitsValue_all_false (ys : List Bool) (h : ∀ y ∈ ys, y = false) : bitsValue ys = 0 := by
  induction ys with
  | nil => rfl
  | cons y rest ih =>
    have hy := h y (List.mem_cons_self _ _)
    subst hy
    simp [bitsValue, ih (fun z hz => h z (List.mem_cons_of_mem _ hz))]

theorem bitsValue_inj :
    ∀ (xs ys : List Bool), xs.length = ys.length → bitsValue xs = bitsValue ys → xs = ys := by
  intro xs
  induction xs with
  | nil =>
    intro ys hl _
    exact (List.length_eq_zero.mp hl.symm).symm
  | cons x rest ih =>
    intro ys hl hv
    cases ys with
    | nil => simp at hl
    | cons y rest2 =>
      simp only [List.length_cons, Nat.add_right_cancel_iff] at hl
      simp only [bitsValue] at hv
      have hxy : x = y := by
        cases x <;> cases y <;> simp at hv ⊢ <;> omega
      subst hxy
      have : bitsValue rest = bitsValue rest2 := by omega
      rw [ih rest2 hl this]

/-- The loop of `GetID` run over valid positions without overflow is a plain fold. -/
theorem idLoop_eq_foldl (b : WordsBitmap) :
    ∀ (ps : List Nat) (id a : Nat), (∀ p ∈ ps, p < b.GetSize) → id < 2 ^ a →
      a + ps.length ≤ 64 →
      idLoop b ps id = some (ps.foldl
        (fun v p => v * 2 + (if b.m_new_bitmap.getD p false then 1 else 0)) id) ∧
      ps.foldl (fun v p => v * 2 + (if b.m_new_bitmap.getD p false then 1 else 0)) id <
        2 ^ (a + ps.length) := by
  intro ps
  induction ps with
  | nil =>
    intro id a _ hid _
    exact ⟨rfl, by simpa using hid⟩
  | cons p rest ih =>
    intro id a hp hid hlen
    have hpn : p < b.m_new_bitmap.length := hp p (List.mem_cons_self _ _)
    have hget : b.GetValue p = some (b.m_new_bitmap.getD p false) := by
      simp [WordsBitmap.GetValue, List.getD_eq_getElem?_getD, List.getElem?_eq_getElem hpn]
    have hstep : id * 2 + (if b.m_new_bitmap.getD p false then 1 else 0) < 2 ^ (a + 1) := by
      rw [pow_succ]; split <;> omega
    have hlt : id * 2 + (if b.m_new_bitmap.getD p false then 1 else 0) < 2 ^ 64 :=
      lt_of_lt_of_le hstep (Nat.pow_le_pow_right (by decide)
        (by simp only [List.length_cons] at hlen; omega))
    obtain ⟨i1, i2⟩ := ih _ (a + 1) (fun q hq => hp q (List.mem_cons_of_mem _ hq)) hstep
      (by simp only [List.length_cons] at hlen; omega)
    simp only [idLoop, hget, List.foldl_cons, Nat.mod_eq_of_lt hlt]
    refine ⟨i1, ?_⟩
    have e : a + (p :: rest).length = a + 1 + rest.length := by
      simp only [List.length_cons]; omega
    rw [e]
    exact i2

theorem foldl_reverse_bits (f : Nat → Bool) (L : List Nat) :
    (L.reverse).foldl (fun v p => v * 2 + (if f p then 1 else 0)) 0 =
      bitsValue (L.map f) := by
  rw [List.foldl_reverse]
  induction L with
  | nil => rfl
  | cons p rest ih =>
    simp only [List.foldr_cons, List.map_cons, bitsValue, ih]
    omega

theorem map_getD_range' (l : List Bool) :
    ∀ (k s : Nat), s + k ≤ l.length →
      (List.range' s k).map (fun p => l.getD p false) = (l.drop s).take k := by
  intro k
  induction k with
  | zero => intro s _; simp
  | succ k ih =>
    intro s hs
    have hsl : s < l.length := by omega
    rw [List.range'_succ, List.map_cons, ih (s + 1) (by omega)]
    rw [List.drop_eq_getElem_cons hsl, List.take_succ_cons]
    simp [List.getD_eq_getElem?_getD, List.getElem?_eq_getElem hsl]

theorem drop_all_false (l : List Bool) (m : Nat)
    (h : ∀ p, m ≤ p → l.getD p false = false) : ∀ y ∈ l.drop m, y = false := by
  intro y hy
  obtain ⟨i, hi, rfl⟩ := List.mem_iff_getElem.mp hy
  rw [List.getElem_drop]
  have hlen : m + i < l.length := by
    rw [List.length_drop] at hi; omega
  have := h (m + i) (by omega)
  simpa [List.getD_eq_getElem?_getD, List.getElem?_eq_getElem hlen] using this

/-- The value of `GetID` on a bitmap on which `GetFirstGapPos` is right: with `s` the first gap
(the size when every position is covered), the identifier is `2^16 * s` plus the value of
the bits after position `s`, which is below `2^16`. -/
theorem GetID_eq (b : WordsBitmap) (x : Nat)
    (hright : 64 ≤ b.GetSize ∨ lowestUncovered b.m_new_bitmap ≠ none)
    (h : b.GetID = some x) :
    x = bitsValue (b.m_new_bitmap.drop ((lowestUncovered b.m_new_bitmap).getD b.GetSize + 1)) +
      2 ^ 16 * (lowestUncovered b.m_new_bitmap).getD b.GetSize ∧
    bitsValue (b.m_new_bitmap.drop ((lowestUncovered b.m_new_bitmap).getD b.GetSize + 1)) <
      2 ^ 16 ∧
    b.GetSize < 2 ^ 16 := by
  unfold WordsBitmap.GetID at h
  by_cases hsz : b.GetSize < 2 ^ 16
  swap
  · rw [if_pos hsz] at h; cases h
  rw [if_neg (not_not.mpr hsz)] at h
  obtain ⟨l1, l2, l3, l4⟩ := lowestUncovered_spec b.m_new_bitmap
  obtain ⟨r, hr, hrs⟩ := GetLastPos_spec b (lt_trans hsz (by decide))
  rw [GetFirstGapPos_spec b hright, hr] at h
  simp only at h
  have hNF : NOT_FOUND = 2 ^ 64 - 1 := rfl
  have hbig : (2 : Nat) ^ 16 < 2 ^ 64 - 1 := by decide
  have hstart : (if firstGapSpec b = NOT_FOUND then b.GetSize else firstGapSpec b) =
      (lowestUncovered b.m_new_bitmap).getD b.GetSize := by
    unfold firstGapSpec
    cases hl : lowestUncovered b.m_new_bitmap with
    | none => simp
    | some i =>
      rw [hl] at l2
      simp only [Option.getD_some] at l2 ⊢
      have : i ≠ NOT_FOUND := by
        simp only [WordsBitmap.GetSize] at hsz
        rw [hNF]; omega
      rw [if_neg this]
  rw [hstart] at h
  generalize hs : (lowestUncovered b.m_new_bitmap).getD b.GetSize = s at h ⊢
  have hsn : s ≤ b.GetSize := by
    rw [← hs]; exact l2
  generalize he : (if r = NOT_FOUND then 0 else r) = e at h
  have hA : ∀ p, e < p → b.m_new_bitmap.getD p false = false := by
    rcases hrs with ⟨h1, h2⟩ | ⟨h1, -, h3⟩
    · intro p _; exact h2 p
    · have : r ≠ NOT_FOUND := by rw [hNF]; omega
      rw [if_neg this] at he
      subst he
      exact h3
  have hB : s < e → e < b.GetSize := by
    intro hse
    rcases hrs with ⟨h1, -⟩ | ⟨h1, -, -⟩
    · rw [if_pos h1] at he; omega
    · have : r ≠ NOT_FOUND := by rw [hNF]; omega
      rw [if_neg this] at he
      omega
  by_cases hassert : e < s ∨ e - s ≤ 16
  swap
  · rw [if_pos hassert] at h; cases h
  rw [if_neg (not_not.mpr hassert)] at h
  have hk : e - s ≤ 16 := by omega
  have hpos : ∀ p ∈ (List.range' (s + 1) (e - s)).reverse, p < b.GetSize := by
    intro p hp
    rw [List.mem_reverse] at hp
    obtain ⟨p1, p2⟩ := List.mem_range'_1.mp hp
    have := hB (by omega)
    omega
  obtain ⟨i1, i2⟩ := idLoop_eq_foldl b _ 0 0 hpos (by decide)
    (by simp only [List.length_reverse, List.length_range']; omega)
  rw [i1] at h
  simp only [Option.some.injEq] at h
  rw [foldl_reverse_bits] at h i2
  simp only [List.length_reverse, List.length_range', Nat.zero_add] at i2
  have hval : bitsValue ((List.range' (s + 1) (e - s)).map
      (fun p => b.m_new_bitmap.getD p false)) = bitsValue (b.m_new_bitmap.drop (s + 1)) := by
    have hfalse : bitsValue ((b.m_new_bitmap.drop (s + 1)).drop (e - s)) = 0 := by
      rw [List.drop_drop]
      refine bitsValue_all_false _ (drop_all_false _ _ ?_)
      intro p hp
      exact hA p (by omega)
    by_cases hk0 : e - s = 0
    · rw [hk0] at hfalse ⊢
      simp only [List.drop_zero] at hfalse
      rw [hfalse]; rfl
    · have hen := hB (by omega)
      simp only [WordsBitmap.GetSize] at hen
      rw [map_getD_range' _ _ _ (by omega)]
      have := bitsValue_append ((b.m_new_bitmap.drop (s + 1)).take (e - s))
        ((b.m_new_bitmap.drop (s + 1)).drop (e - s))
      rw [List.take_append_drop, hfalse, Nat.mul_zero, Nat.add_zero] at this
      exact this.symm
  rw [hval] at h i2
  have hlt16 : bitsValue (b.m_new_bitmap.drop (s + 1)) < 2 ^ 16 :=
    lt_of_lt_of_le i2 (Nat.pow_le_pow_right (by decide) hk)
  refine ⟨?_, hlt16, hsz⟩
  rw [← h]
  refine Nat.mod_eq_of_lt ?_
  have h32 : (2 : Nat) ^ 16 + 2 ^ 16 * 2 ^ 16 < 2 ^ 64 := by decide
  have : 2 ^ 16 * s ≤ 2 ^ 16 * 2 ^ 16 := Nat.mul_le_mul_left _ (by omega)
  omega

/-- The method `GetID` is injective on the bitmaps on which `GetFirstGapPos` is right, those with an
uncovered position or with at least 64 positions: two such bitmaps of the same size on
which `GetID` returns the same value are equal. -/
theorem GetID_injective_where_first_gap_right (b1 b2 : WordsBitmap) (x : Nat)
    (hsize : b1.GetSize = b2.GetSize)
    (h1 : 64 ≤ b1.GetSize ∨ lowestUncovered b1.m_new_bitmap ≠ none)
    (h2 : 64 ≤ b2.GetSize ∨ lowestUncovered b2.m_new_bitmap ≠ none)
    (e1 : b1.GetID = some x) (e2 : b2.GetID = some x) : b1 = b2 := by
  obtain ⟨a1, a2, a3⟩ := GetID_eq b1 x h1 e1
  obtain ⟨c1, c2, -⟩ := GetID_eq b2 x h2 e2
  obtain ⟨l1, l2, l3, -⟩ := lowestUncovered_spec b1.m_new_bitmap
  obtain ⟨m1, m2, m3, -⟩ := lowestUncovered_spec b2.m_new_bitmap
  simp only [WordsBitmap.GetSize] at hsize a1 a2 a3 c1 c2
  generalize (lowestUncovered b1.m_new_bitmap).getD b1.m_new_bitmap.length = s1
    at a1 a2 l1 l2 l3
  generalize (lowestUncovered b2.m_new_bitmap).getD b2.m_new_bitmap.length = s2
    at c1 c2 m1 m2 m3
  have hss : s1 = s2 := by
    have p16 : (2 : Nat) ^ 16 = 65536 := by decide
    rw [p16] at a1 a2 c1 c2
    omega
  subst hss
  have hvv : bitsValue (b1.m_new_bitmap.drop (s1 + 1)) =
      bitsValue (b2.m_new_bitmap.drop (s1 + 1)) := by omega
  have hdrop : b1.m_new_bitmap.drop (s1 + 1) = b2.m_new_bitmap.drop (s1 + 1) := by
    refine bitsValue_inj _ _ ?_ hvv
    rw [List.length_drop, List.length_drop, hsize]
  have hbits : b1.m_new_bitmap = b2.m_new_bitmap := by
    rw [← List.take_append_drop s1 b1.m_new_bitmap, ← List.take_append_drop s1 b2.m_new_bitmap,
      l1, m1]
    congr 1
    by_cases hlt : s1 < b1.m_new_bitmap.length
    · have hlt2 : s1 < b2.m_new_bitmap.length := by rw [← hsize]; exact hlt
      have q1 := l3 hlt
      have q2 := m3 hlt2
      rw [List.getElem?_eq_getElem hlt] at q1
      rw [List.getElem?_eq_getElem hlt2] at q2
      rw [List.drop_eq_getElem_cons hlt, List.drop_eq_getElem_cons hlt2, hdrop,
        Option.some.inj q1, Option.some.inj q2]
    · rw [List.drop_eq_nil_of_le (by omega), List.drop_eq_nil_of_le (by omega)]
  cases b1; cases b2
  simp only at hbits
  rw [hbits]

/-- Evaluation at the bitmaps `11` and `01` of two positions: both satisfy the distortion
limit, `GetID` returns 1 on both, and they differ.  On `11`, where every position is
covered, `GetFirstGapPos` returns 0 instead of `NOT_FOUND`. -/
theorem GetID_not_injective :
    (WordsBitmap.mk [true, true]).GetID = some 1 ∧
    (WordsBitmap.mk [false, true]).GetID = some 1 ∧
    (WordsBitmap.mk [true, true]) ≠ (WordsBitmap.mk [false, true]) ∧
    (WordsBitmap.mk [true, true]).GetFirstGapPos = some 0 ∧
    firstGapSpec (WordsBitmap.mk [true, true]) = NOT_FOUND := by
  refine ⟨by decide, by decide, by decide, by decide, by decide⟩

end S2T
